import Mathlib

/-!
# Verification of `lazy_map` (persistent copy-on-write associative container)

Shallow embedding of `src/lazy_map.hpp` (`quick::lazy_map<K, V>`), instantiated
at `K = Nat`.  Values are modelled as `Val = Nat × Bool`: the `Nat` is the
payload and the `Bool` is a moved-from marker, mirroring the instrumented
value type (`CopyMoveCounter`) that the repository's tests use to observe
move-out semantics.  A `std::unordered_map` is modelled as an association
list with unique keys (iteration order of the unordered containers is
unspecified in C++; the list order is one admissible order), and a
`std::unordered_set` as a list of keys.

Shared ownership (`std::shared_ptr<Fragment>`) is modelled by a store:
a system `Sys` holds the list of all allocated fragments (a fragment's
identity is its index; `parent` is an index) together with the list of live
handles (each handle is the index of its head fragment).  The use count of
a fragment — what `head_.unique()` consults — is computed from the store:
the number of handles whose head it is plus the number of fragments whose
`parent` it is, exactly the owners of the `shared_ptr` in the C++ object
graph.  The pointer walk `p = p->parent()` is embedded as the materialized
chain `chainOf`, a list of (index, fragment) pairs from head to root; the
well-formedness invariant `WF` (parents point to strictly smaller indices,
handles point into the store) makes this walk finite and faithful.
-/

namespace LazyMapProof

/-- Payload plus a moved-from marker: the model of the value type `V`. -/
abbrev Val := Nat × Bool

/-! ## Association-list primitives (the model of `std::unordered_map<K, V>`) -/

/-- `m.find(k)`: first binding of `k`, if any. -/
def lookupKV (k : Nat) : List (Nat × Val) → Option Val
  | [] => none
  | p :: rest => if p.1 = k then some p.2 else lookupKV k rest

/-- `m.erase(k)`: remove the binding of `k` (the first, which is the only
one on the unique-keys states the container reaches). -/
def eraseKV (k : Nat) : List (Nat × Val) → List (Nat × Val)
  | [] => []
  | p :: rest => if p.1 = k then rest else p :: eraseKV k rest

/-- `put_key_value(m, k, v)` from the source: assign in place if the key is
present, otherwise emplace a new binding. -/
def putKV (m : List (Nat × Val)) (k : Nat) (v : Val) : List (Nat × Val) :=
  if (lookupKV k m).isSome then
    m.map (fun p => if p.1 = k then (p.1, v) else p)
  else m ++ [(k, v)]

/-- `m.emplace(k, v)`: insert only if the key is absent. -/
def emplaceKV (m : List (Nat × Val)) (k : Nat) (v : Val) : List (Nat × Val) :=
  if (lookupKV k m).isSome then m else m ++ [(k, v)]

/-- `std::unordered_set::insert`: add if absent. -/
def insertSet (s : List Nat) (k : Nat) : List Nat :=
  if k ∈ s then s else s ++ [k]

/-! ## The fragment store -/

/-- `lazy_map::Fragment`: local bindings, tombstones, optional parent
(an index into the store) and the cached logical size. -/
structure Fragment where
  key_values : List (Nat × Val)
  deleted_keys : List Nat
  parent : Option Nat
  size : Nat
  deriving Repr, DecidableEq

def empty_fragment : Fragment := ⟨[], [], none, 0⟩

/-- The whole object graph: every allocated fragment (identity = index) and
every live handle (the index of its head fragment). -/
structure Sys where
  frags : List Fragment
  handles : List Nat
  deriving Repr, DecidableEq

namespace lazy_map

/-- Fragment at index `i` (total, with a junk default off the store). -/
def fragAt (s : Sys) (i : Nat) : Fragment := s.frags.getD i empty_fragment

/-- Head index of handle `h`. -/
def headOf (s : Sys) (h : Nat) : Nat := s.handles.getD h 0

/-- The `shared_ptr` use count of fragment `i`: handles whose head it is
plus fragments whose parent it is.  `head_.unique()` is `refcount = 1`. -/
def refcount (s : Sys) (i : Nat) : Nat :=
  s.handles.count i + s.frags.countP (fun f => decide (f.parent = some i))

/-- Indices visited by the pointer walk `p = p; p = p->parent()` starting at
`i`, cut off by fuel (fuel `i+1` is exact on well-formed stores, where
parent indices strictly decrease). -/
def chainIdx (frags : List Fragment) : Nat → Nat → List Nat
  | 0, _ => []
  | fuel + 1, i =>
    i :: (match (frags.getD i empty_fragment).parent with
          | none => []
          | some p => chainIdx frags fuel p)

/-- A materialized fragment chain: (index, fragment) pairs, head first. -/
abbrev Chain := List (Nat × Fragment)

/-- The chain hanging from fragment `i`. -/
def chainOf (s : Sys) (i : Nat) : Chain :=
  (chainIdx s.frags (i + 1) i).map (fun a => (a, fragAt s a))

def fragsOf (c : Chain) : List Fragment := c.map Prod.snd

/-- Well-formedness of the object graph: parent pointers go to strictly
smaller indices (fragments only ever point at older fragments, as parents
are only set at construction), and handles point into the store. -/
def WF (s : Sys) : Prop :=
  (∀ i, i < s.frags.length →
    ∀ p, (s.frags.getD i empty_fragment).parent = some p → p < i)
  ∧ (∀ h ∈ s.handles, h < s.frags.length)

instance (s : Sys) : Decidable (WF s) := by
  unfold WF; infer_instance

/-! ## Read operations (`contains_internal`, `find`, `at`, `operator[]`) -/

/-- `lazy_map::contains_internal`: walk head → root; a local binding wins,
a tombstone cuts the walk, falling off the root is absence. -/
def contains_internal : List Fragment → Nat → Bool
  | [], _ => false
  | f :: rest, k =>
    if (lookupKV k f.key_values).isSome then true
    else if k ∈ f.deleted_keys then false
    else contains_internal rest k

/-- `lazy_map::find`: same walk, returning the iterator's content — the
fragment (`current_`) holding the binding, and the bound value; `none` is
the end iterator. -/
def find : Chain → Nat → Option (Nat × Val)
  | [], _ => none
  | (i, f) :: rest, k =>
    match lookupKV k f.key_values with
    | some v => some (i, v)
    | none => if k ∈ f.deleted_keys then none else find rest k

def key_error : String := "[lazy_map]: Key not found"

/-- `lazy_map::at`: `find`, then throw `std::out_of_range(key_error)` on the
end iterator. -/
def at_key (c : Chain) (k : Nat) : Except String Val :=
  match find c k with
  | none => .error key_error
  | some (_, v) => .ok v

/-- `lazy_map::operator[] const`: defined as `return at(k);` in the source.
It takes the chain and returns a value — a pure read. -/
def op_index (c : Chain) (k : Nat) : Except String Val :=
  at_key c k

/-- `lazy_map::contains` on a handle. -/
def contains (s : Sys) (h : Nat) (k : Nat) : Bool :=
  contains_internal (fragsOf (chainOf s (headOf s h))) k

/-- `lazy_map::size`: the head's cached size. -/
def size (s : Sys) (h : Nat) : Nat := (fragAt s (headOf s h)).size

/-- `lazy_map::get_depth`: number of parent hops above the head. -/
def get_depth (s : Sys) (h : Nat) : Nat :=
  (chainOf s (headOf s h)).length - 1

/-- `lazy_map::is_detached`: the head has no parent. -/
def is_detached (s : Sys) (h : Nat) : Bool :=
  (fragAt s (headOf s h)).parent = none

/-! ## The iterator -/

/-- `const_iter_impl::should_ignore_key`: walk from `head_` down to (but not
including) `current_`; the key is ignored when one of those strictly nearer
fragments binds it locally or tombstones it. -/
def should_ignore_key (nearer : List Fragment) (k : Nat) : Bool :=
  nearer.any
    (fun f => (lookupKV k f.key_values).isSome || decide (k ∈ f.deleted_keys))

/-- The production of the iterator's scan routine
(`move_forward_to_closest_non_deleted_valid_position`): scan the fragments
from `current_` downwards (`pos` is the depth of `current_` below the head,
`nearer` the fragments strictly above it), emitting each local entry that
passes the shadow check, then climb to the parent. -/
def iterTraceAux (nearer : List Fragment) (pos : Nat) :
    List Fragment → List (Nat × Nat × Val)
  | [] => []
  | f :: rest =>
    (f.key_values.filter (fun e => ! should_ignore_key nearer e.1)).map
        (fun e => (pos, e.1, e.2))
      ++ iterTraceAux (nearer ++ [f]) (pos + 1) rest

/-- Everything a full iteration of the chain yields, each entry tagged with
the depth of the fragment (`current_`) it was read from. -/
def iterTrace (c : Chain) : List (Nat × Nat × Val) :=
  iterTraceAux [] 0 (fragsOf c)

/-- The (key, value) pairs a full iteration yields, in order. -/
def iterPairs (c : Chain) : List (Nat × Val) :=
  (iterTrace c).map Prod.snd

/-- The value-only resolution walk (what `find` returns through the
dereferenced iterator, dropping which fragment it sat in). -/
def findVal : List Fragment → Nat → Option Val
  | [], _ => none
  | f :: rest, k =>
    match lookupKV k f.key_values with
    | some v => some v
    | none => if k ∈ f.deleted_keys then none else findVal rest k

/-- Three-valued resolution outcome of a fragment-list prefix:
`some (some v)` = resolved to `v`, `some none` = cut by a tombstone,
`none` = fell through the whole prefix.  Used to reason about the
ancestor-merge loop of `detach_internal` compositionally. -/
def resolve3 : List Fragment → Nat → Option (Option Val)
  | [], _ => none
  | f :: rest, k =>
    match lookupKV k f.key_values with
    | some v => some (some v)
    | none => if k ∈ f.deleted_keys then some none else resolve3 rest k

/-! ## Mutating operations -/

/-- Replace the fragment at index `i` (a mutation through `head_->`). -/
def setFrag (s : Sys) (i : Nat) (f : Fragment) : Sys :=
  ⟨s.frags.set i f, s.handles⟩

/-- `lazy_map::prepare_for_edit`: if the head is not uniquely owned, chain a
new fragment over it (empty locals and tombstones, inherited size — the
`Fragment(std::shared_ptr&& parent)` constructor) and make it the head. -/
def prepare_for_edit (s : Sys) (h : Nat) : Sys :=
  if refcount s (headOf s h) = 1 then s
  else
    let old := headOf s h
    let n := s.frags.length
    ⟨s.frags ++ [⟨[], [], some old, (fragAt s old).size⟩], s.handles.set h n⟩

/-- `lazy_map::insert_or_assign(k, v)`. -/
def insert_or_assign (s : Sys) (h : Nat) (k : Nat) (v : Val) : Sys :=
  let s1 := prepare_for_edit s h
  let hd := headOf s1 h
  let f := fragAt s1 hd
  let c := fragsOf (chainOf s1 hd)
  setFrag s1 hd
    { f with
      size := f.size + (if contains_internal c k then 0 else 1)
      deleted_keys := f.deleted_keys.erase k
      key_values := putKV f.key_values k v }

/-- `lazy_map::insert(k, v)`: no-op returning `false` when the key is
already contained. -/
def insert (s : Sys) (h : Nat) (k : Nat) (v : Val) : Bool × Sys :=
  if contains_internal (fragsOf (chainOf s (headOf s h))) k then (false, s)
  else
    let s1 := prepare_for_edit s h
    let hd := headOf s1 h
    let f := fragAt s1 hd
    (true, setFrag s1 hd
      { f with
        deleted_keys := f.deleted_keys.erase k
        key_values := emplaceKV f.key_values k v
        size := f.size + 1 })

/-- `lazy_map::emplace(k, args...)`: identical to `insert` except that the
value is constructed in place from `args` — in the model, from a payload. -/
def emplace (s : Sys) (h : Nat) (k : Nat) (v : Val) : Bool × Sys :=
  if contains_internal (fragsOf (chainOf s (headOf s h))) k then (false, s)
  else
    let s1 := prepare_for_edit s h
    let hd := headOf s1 h
    let f := fragAt s1 hd
    (true, setFrag s1 hd
      { f with
        deleted_keys := f.deleted_keys.erase k
        key_values := emplaceKV f.key_values k v
        size := f.size + 1 })

/-- `lazy_map::erase(k)`: remove the local binding; if the key still
resolves through an ancestor, tombstone it; decrement the size. -/
def erase (s : Sys) (h : Nat) (k : Nat) : Bool × Sys :=
  if contains_internal (fragsOf (chainOf s (headOf s h))) k then
    let s1 := prepare_for_edit s h
    let hd := headOf s1 h
    let f := fragAt s1 hd
    let f1 := { f with key_values := eraseKV k f.key_values }
    let s2 := setFrag s1 hd f1
    let stillC := contains_internal (fragsOf (chainOf s2 hd)) k
    (true, setFrag s2 hd
      { f1 with
        deleted_keys := if stillC then insertSet f1.deleted_keys k
                        else f1.deleted_keys
        size := f1.size - 1 })
  else (false, s)

/-- `lazy_map::clear`: point the handle at a freshly allocated empty
fragment; no prepare-for-edit. -/
def clear (s : Sys) (h : Nat) : Sys :=
  ⟨s.frags ++ [empty_fragment], s.handles.set h s.frags.length⟩

/-- One step of the ancestor merge inside `detach_internal`: fold an
ancestor's locals into the accumulated head locals (skipping keys the head
already tombstones, `emplace` never overwriting), then union its
tombstones into the accumulated head tombstones. -/
def merge_frag (st : List (Nat × Val) × List Nat) (p : Fragment) :
    List (Nat × Val) × List Nat :=
  (p.key_values.foldl
      (fun kvAcc e => if e.1 ∈ st.2 then kvAcc else emplaceKV kvAcc e.1 e.2)
      st.1,
   p.deleted_keys.foldl insertSet st.2)

/-- `lazy_map::detach_internal`: if the head has no parent return `false`;
otherwise materialize every ancestor into the head (nearest first), clear
the head's tombstones and sever the parent link. -/
def detach_internal (s : Sys) (h : Nat) : Bool × Sys :=
  let hd := headOf s h
  let f := fragAt s hd
  match f.parent with
  | none => (false, s)
  | some _ =>
    let anc := fragsOf ((chainOf s hd).drop 1)
    let st := anc.foldl merge_frag (f.key_values, f.deleted_keys)
    (true, setFrag s hd
      { f with key_values := st.1, deleted_keys := [], parent := none })

/-- `lazy_map::detach`: prepare-for-edit, then `detach_internal`. -/
def detach (s : Sys) (h : Nat) : Bool × Sys :=
  detach_internal (prepare_for_edit s h) h

/-- Mark the binding of `k` moved-from (the slot keeps its payload but is
in the moved-from state), the effect of `std::move` out of the slot. -/
def markMoved (m : List (Nat × Val)) (k : Nat) : List (Nat × Val) :=
  m.map (fun p => if p.1 = k then (p.1, (p.2.1, true)) else p)

/-- `lazy_map::move(k)`: throw on the end iterator; move the value out when
the head is uniquely owned and the iterator points into the head; otherwise
return a copy and leave the store untouched. -/
def move (s : Sys) (h : Nat) (k : Nat) : Except String (Val × Sys) :=
  match find (chainOf s (headOf s h)) k with
  | none => .error key_error
  | some (fid, v) =>
    if refcount s (headOf s h) = 1 ∧ fid = headOf s h then
      let f := fragAt s fid
      .ok (v, setFrag s fid { f with key_values := markMoved f.key_values k })
    else
      .ok (v, s)

/-- `lazy_map::move_only(k)`: like `move`, but in the shared case return the
empty optional (no copy) and leave the store untouched. -/
def move_only (s : Sys) (h : Nat) (k : Nat) :
    Except String (Option Val × Sys) :=
  match find (chainOf s (headOf s h)) k with
  | none => .error key_error
  | some (fid, v) =>
    if refcount s (headOf s h) = 1 ∧ fid = headOf s h then
      let f := fragAt s fid
      .ok (some v,
           setFrag s fid { f with key_values := markMoved f.key_values k })
    else
      .ok (none, s)

/-! ## Handle creation -/

/-- Construction from a list of entries (`initializer_list` / input range):
the underlying `unordered_map` is populated by repeated `emplace`, so the
first occurrence of a duplicated key wins; `size` is the table's size. -/
def fromListFragment (l : List (Nat × Val)) : Fragment :=
  let kv := l.foldl (fun m p => emplaceKV m p.1 p.2) []
  ⟨kv, [], none, kv.length⟩

/-- The operations of the public mutating API, for operation sequences. -/
inductive Op where
  | ins (k : Nat) (v : Val)
  | insAssign (k : Nat) (v : Val)
  | empl (k : Nat) (v : Val)
  | er (k : Nat)
  | cl
  | det
  | mv (k : Nat)
  | mvOnly (k : Nat)
  deriving Repr, DecidableEq

/-- Apply one operation through handle `h` (return values discarded). -/
def applyOp (s : Sys) (h : Nat) : Op → Sys
  | .ins k v => (insert s h k v).2
  | .insAssign k v => insert_or_assign s h k v
  | .empl k v => (emplace s h k v).2
  | .er k => (erase s h k).2
  | .cl => clear s h
  | .det => (detach s h).2
  | .mv k =>
    match move s h k with
    | .ok (_, s2) => s2
    | .error _ => s
  | .mvOnly k =>
    match move_only s h k with
    | .ok (_, s2) => s2
    | .error _ => s

/-- Apply a sequence of operations through handle `h`, oldest first. -/
def applyOps (s : Sys) (h : Nat) (ops : List Op) : Sys :=
  ops.foldl (fun s2 o => applyOp s2 h o) s

/-- Whether an operation is an insertion entry point for key `k`
(`insert`, `insert_or_assign` or `emplace` of `k`) — the only operations
that can make a chain resolve `k` again. -/
def op_inserts (o : Op) (k : Nat) : Bool :=
  match o with
  | .ins k2 _ => decide (k2 = k)
  | .insAssign k2 _ => decide (k2 = k)
  | .empl k2 _ => decide (k2 = k)
  | _ => false

/-! ## Invariants of reachable stores -/

/-- Internal sanity of one fragment: its local table has duplicate-free
keys (it is an `unordered_map`), its tombstone set is duplicate-free (an
`unordered_set`), and no tombstoned key is simultaneously locally bound. -/
def FragOK (f : Fragment) : Prop :=
  (f.key_values.map Prod.fst).Nodup
  ∧ f.deleted_keys.Nodup
  ∧ ∀ k ∈ f.deleted_keys, lookupKV k f.key_values = none

instance (f : Fragment) : Decidable (FragOK f) := by
  unfold FragOK; infer_instance

/-- Keys mentioned locally anywhere on a chain. -/
def chainKeys (c : Chain) : Finset Nat :=
  ((fragsOf c).foldr (fun f acc => (f.key_values.map Prod.fst) ++ acc)
    []).toFinset

/-- The key set of the logical view of a chain. -/
def viewSet (c : Chain) : Finset Nat :=
  (chainKeys c).filter (fun k => contains_internal (fragsOf c) k)

/-- Per-handle invariant: every fragment on the handle's chain is sane and
the head's cached `size` equals the cardinality of the logical view. -/
def HandleInv (s : Sys) (h : Nat) : Prop :=
  (∀ f ∈ fragsOf (chainOf s (headOf s h)), FragOK f)
  ∧ size s h = (viewSet (chainOf s (headOf s h))).card

instance (s : Sys) (h : Nat) : Decidable (HandleInv s h) := by
  unfold HandleInv; infer_instance

/-- Global invariant of a store: well-formed object graph and every
handle's chain sane with a correct cached size. -/
def Inv (s : Sys) : Prop :=
  WF s ∧ ∀ h, h < s.handles.length → HandleInv s h

instance (s : Sys) : Decidable (Inv s) := by
  unfold Inv; infer_instance

/-! ## Concrete fixtures (used by the witnesses) -/

/-- One root fragment holding two keys, shared by two handles
(`H2 = copy(H1)`). -/
def sampleShared : Sys :=
  ⟨[fromListFragment [(1, (10, false)), (2, (20, false))]], [0, 0]⟩

/-- The same root fragment, uniquely owned by one handle. -/
def sampleUnique : Sys :=
  ⟨[fromListFragment [(1, (10, false)), (2, (20, false))]], [0]⟩

/-- A two-fragment store: handle 0 owns a head (fragment 1) that shadows
key 1 and tombstones key 2 over the shared root (fragment 0); handle 1
still reads the root directly. -/
def sampleChained : Sys :=
  ⟨[⟨[(1, (10, false)), (2, (20, false)), (3, (30, false))], [], none, 3⟩,
    ⟨[(1, (11, false))], [2], some 0, 2⟩],
   [1, 0]⟩

/-- The chain of handle 0 of `sampleChained`: head with a local binding for
key 1 and a tombstone for key 2, over the root. -/
def sampleChain : Chain := chainOf sampleChained (headOf sampleChained 0)

end lazy_map

/-! ## Reachable systems -/

open lazy_map in
/-- One construction / copy / operation step on the object graph. -/
inductive Step : Sys → Sys → Prop where
  | newEmpty (s : Sys) :
      Step s ⟨s.frags ++ [empty_fragment], s.handles ++ [s.frags.length]⟩
  | newFromList (s : Sys) (l : List (Nat × Val)) :
      Step s ⟨s.frags ++ [fromListFragment l], s.handles ++ [s.frags.length]⟩
  | copy (s : Sys) (h : Nat) (hh : h < s.handles.length) :
      Step s ⟨s.frags, s.handles ++ [headOf s h]⟩
  | op (s : Sys) (h : Nat) (o : Op) (hh : h < s.handles.length) :
      Step s (applyOp s h o)

/-- Systems reachable from the empty object graph by constructions, copies
and operations. -/
inductive Reachable : Sys → Prop where
  | nil : Reachable ⟨[], []⟩
  | step {s s2 : Sys} : Reachable s → Step s s2 → Reachable s2

/-! ## Generic list helpers -/

theorem getD_append_lt {α : Type _} (l l' : List α) (i : Nat) (d : α)
    (h : i < l.length) : (l ++ l').getD i d = l.getD i d := by
  induction l generalizing i with
  | nil => simp at h
  | cons a t ih =>
    cases i with
    | zero => rfl
    | succ n =>
      simp only [List.cons_append, List.getD_cons_succ]
      exact ih n (by simpa using h)

theorem getD_append_len {α : Type _} (l : List α) (x : α) (d : α) :
    (l ++ [x]).getD l.length d = x := by
  induction l with
  | nil => rfl
  | cons a t ih => simpa using ih

theorem getD_set_ne {α : Type _} (l : List α) (i j : Nat) (a d : α)
    (h : j ≠ i) : (l.set i a).getD j d = l.getD j d := by
  induction l generalizing i j with
  | nil => rfl
  | cons b t ih =>
    cases i with
    | zero =>
      cases j with
      | zero => exact absurd rfl h
      | succ m => rfl
    | succ n =>
      cases j with
      | zero => rfl
      | succ m =>
        simp only [List.set_cons_succ, List.getD_cons_succ]
        exact ih n m (by omega)

theorem getD_set_self {α : Type _} (l : List α) (i : Nat) (a d : α)
    (h : i < l.length) : (l.set i a).getD i d = a := by
  induction l generalizing i with
  | nil => simp at h
  | cons b t ih =>
    cases i with
    | zero => rfl
    | succ n =>
      simp only [List.set_cons_succ, List.getD_cons_succ]
      exact ih n (by simpa using h)

theorem getD_mem {α : Type _} (l : List α) (i : Nat) (d : α)
    (h : i < l.length) : l.getD i d ∈ l := by
  rw [List.getD_eq_getElem?_getD, List.getElem?_eq_getElem h]
  exact List.getElem_mem _

theorem two_le_count_of_ne_pos (l : List Nat) (v : Nat) :
    ∀ i j, i < l.length → j < l.length → i ≠ j →
      l.getD i 0 = v → l.getD j 0 = v → 2 ≤ l.count v := by
  induction l with
  | nil => intro i j hi; simp at hi
  | cons a t ih =>
    intro i j hi hj hij hvi hvj
    match i, j with
    | 0, 0 => omega
    | 0, j + 1 =>
      have ha : a = v := hvi
      have hm : v ∈ t := by
        rw [← (show t.getD j 0 = v from hvj)]
        exact getD_mem t j 0 (by simpa using hj)
      have h1 : 1 ≤ t.count v := List.count_pos_iff_mem.2 hm
      have hc : (a :: t).count v = t.count v + 1 := by
        rw [List.count_cons, if_pos (by simp [ha])]
      omega
    | i + 1, 0 =>
      have ha : a = v := hvj
      have hm : v ∈ t := by
        rw [← (show t.getD i 0 = v from hvi)]
        exact getD_mem t i 0 (by simpa using hi)
      have h1 : 1 ≤ t.count v := List.count_pos_iff_mem.2 hm
      have hc : (a :: t).count v = t.count v + 1 := by
        rw [List.count_cons, if_pos (by simp [ha])]
      omega
    | i + 1, j + 1 =>
      have := ih i j (by simpa using hi) (by simpa using hj) (by omega) hvi hvj
      rw [List.count_cons]
      omega

theorem count_set_eq_one (l : List Nat) (h n : Nat) (hh : h < l.length)
    (hall : ∀ x ∈ l, x ≠ n) : (l.set h n).count n = 1 := by
  induction l generalizing h with
  | nil => simp at hh
  | cons b t ih =>
    cases h with
    | zero =>
      have : t.count n = 0 := by
        rw [List.count_eq_zero]
        exact fun hn => hall n (List.mem_cons_of_mem _ hn) rfl
      simp [List.count_cons, this]
    | succ m =>
      have hb : b ≠ n := hall b (List.mem_cons_self _ _)
      have := ih m (by simpa using hh) (fun x hx => hall x (List.mem_cons_of_mem _ hx))
      simp [List.count_cons, this, hb]

namespace lazy_map

/-! ## Association-list lemmas -/

@[simp] theorem lookupKV_nil (k : Nat) : lookupKV k [] = none := rfl

theorem lookupKV_cons (k : Nat) (p : Nat × Val) (m : List (Nat × Val)) :
    lookupKV k (p :: m) = if p.1 = k then some p.2 else lookupKV k m := rfl

theorem lookupKV_append_some (k : Nat) (m m' : List (Nat × Val)) (v : Val)
    (h : lookupKV k m = some v) : lookupKV k (m ++ m') = some v := by
  induction m with
  | nil => simp at h
  | cons p t ih =>
    by_cases hp : p.1 = k
    · simp_all [lookupKV_cons]
    · simp_all [lookupKV_cons]

theorem lookupKV_append_none (k : Nat) (m m' : List (Nat × Val))
    (h : lookupKV k m = none) : lookupKV k (m ++ m') = lookupKV k m' := by
  induction m with
  | nil => rfl
  | cons p t ih =>
    by_cases hp : p.1 = k
    · simp_all [lookupKV_cons]
    · simp_all [lookupKV_cons]

theorem lookupKV_singleton (k : Nat) (v : Val) :
    lookupKV k [(k, v)] = some v := by
  simp [lookupKV_cons]

theorem lookupKV_singleton_ne (k k' : Nat) (v : Val) (h : k' ≠ k) :
    lookupKV k' [(k, v)] = none := by
  simp [lookupKV_cons, Ne.symm h]

theorem lookupKV_isSome_iff (k : Nat) (m : List (Nat × Val)) :
    (lookupKV k m).isSome ↔ k ∈ m.map Prod.fst := by
  induction m with
  | nil => simp
  | cons p t ih =>
    by_cases h : p.1 = k <;> simp [lookupKV_cons, h, ih] <;> omega

theorem lookupKV_update_self (m : List (Nat × Val)) (k : Nat) (v : Val)
    (h : (lookupKV k m).isSome) :
    lookupKV k (m.map (fun p => if p.1 = k then (p.1, v) else p)) = some v := by
  induction m with
  | nil => simp at h
  | cons p t ih =>
    by_cases hp : p.1 = k
    · simp [lookupKV_cons, hp]
    · simp only [lookupKV_cons, hp, if_false] at h
      simp only [List.map_cons, if_neg hp, lookupKV_cons, hp, if_false]
      exact ih h

theorem lookupKV_update_ne (m : List (Nat × Val)) (k k' : Nat) (v : Val)
    (h : k' ≠ k) :
    lookupKV k' (m.map (fun p => if p.1 = k then (p.1, v) else p)) =
      lookupKV k' m := by
  induction m with
  | nil => rfl
  | cons p t ih =>
    by_cases hp : p.1 = k
    · have hp' : p.1 ≠ k' := by omega
      simp only [List.map_cons, if_pos hp, lookupKV_cons, hp', if_false, ih]
    · simp only [List.map_cons, if_neg hp, lookupKV_cons, ih]

theorem lookupKV_putKV_self (m : List (Nat × Val)) (k : Nat) (v : Val) :
    lookupKV k (putKV m k v) = some v := by
  unfold putKV
  by_cases h : (lookupKV k m).isSome
  · simpa [h] using lookupKV_update_self m k v h
  · rw [if_neg h, lookupKV_append_none _ _ _ (by
      cases hlk : lookupKV k m with
      | none => rfl
      | some v' => simp [hlk] at h)]
    exact lookupKV_singleton k v

theorem lookupKV_putKV_ne (m : List (Nat × Val)) (k k' : Nat) (v : Val)
    (h : k' ≠ k) : lookupKV k' (putKV m k v) = lookupKV k' m := by
  unfold putKV
  by_cases hs : (lookupKV k m).isSome
  · simpa [hs] using lookupKV_update_ne m k k' v h
  · rw [if_neg hs]
    cases hlk : lookupKV k' m with
    | none => rw [lookupKV_append_none _ _ _ hlk]; exact lookupKV_singleton_ne k k' v h
    | some v' => exact lookupKV_append_some _ _ _ _ hlk

theorem emplaceKV_of_isSome (m : List (Nat × Val)) (k : Nat) (v : Val)
    (h : (lookupKV k m).isSome) : emplaceKV m k v = m := by
  simp [emplaceKV, h]

theorem emplaceKV_of_none (m : List (Nat × Val)) (k : Nat) (v : Val)
    (h : lookupKV k m = none) : emplaceKV m k v = m ++ [(k, v)] := by
  simp [emplaceKV, h]

theorem lookupKV_emplaceKV_self_none (m : List (Nat × Val)) (k : Nat) (v : Val)
    (h : lookupKV k m = none) : lookupKV k (emplaceKV m k v) = some v := by
  rw [emplaceKV_of_none m k v h, lookupKV_append_none _ _ _ h]
  exact lookupKV_singleton k v

theorem lookupKV_emplaceKV_ne (m : List (Nat × Val)) (k k' : Nat) (v : Val)
    (h : k' ≠ k) : lookupKV k' (emplaceKV m k v) = lookupKV k' m := by
  unfold emplaceKV
  by_cases hs : (lookupKV k m).isSome
  · simp [hs]
  · rw [if_neg hs]
    cases hlk : lookupKV k' m with
    | none => rw [lookupKV_append_none _ _ _ hlk]; exact lookupKV_singleton_ne k k' v h
    | some v' => exact lookupKV_append_some _ _ _ _ hlk

theorem lookupKV_eraseKV_ne (m : List (Nat × Val)) (k k' : Nat)
    (h : k' ≠ k) : lookupKV k' (eraseKV k m) = lookupKV k' m := by
  induction m with
  | nil => rfl
  | cons p t ih =>
    by_cases hp : p.1 = k
    · have hp' : p.1 ≠ k' := by omega
      simp only [eraseKV, if_pos hp, lookupKV_cons, hp', if_false]
    · simp only [eraseKV, if_neg hp, lookupKV_cons, ih]

theorem lookupKV_eraseKV_self (m : List (Nat × Val)) (k : Nat)
    (hnd : (m.map Prod.fst).Nodup) : lookupKV k (eraseKV k m) = none := by
  induction m with
  | nil => rfl
  | cons p t ih =>
    simp only [List.map_cons, List.nodup_cons] at hnd
    by_cases hp : p.1 = k
    · subst hp
      simp only [eraseKV, if_true]
      cases hlk : lookupKV p.1 t with
      | none => rfl
      | some v =>
        have : p.1 ∈ t.map Prod.fst := (lookupKV_isSome_iff _ _).1 (by simp [hlk])
        exact absurd this hnd.1
    · simp [eraseKV, hp, lookupKV_cons, ih hnd.2]

theorem keys_update (m : List (Nat × Val)) (k : Nat) (v : Val) :
    (m.map (fun p => if p.1 = k then (p.1, v) else p)).map Prod.fst =
      m.map Prod.fst := by
  induction m with
  | nil => rfl
  | cons p t ih =>
    by_cases hp : p.1 = k <;>
      simp only [List.map_cons, if_pos, if_neg, hp, ih, ite_true, ite_false]

theorem keys_putKV (m : List (Nat × Val)) (k : Nat) (v : Val) :
    (putKV m k v).map Prod.fst =
      if (lookupKV k m).isSome then m.map Prod.fst
      else m.map Prod.fst ++ [k] := by
  unfold putKV
  by_cases hs : (lookupKV k m).isSome
  · rw [if_pos hs, if_pos hs]
    exact keys_update m k v
  · rw [if_neg hs, if_neg hs, List.map_append]
    rfl

theorem keys_emplaceKV (m : List (Nat × Val)) (k : Nat) (v : Val) :
    (emplaceKV m k v).map Prod.fst =
      if (lookupKV k m).isSome then m.map Prod.fst
      else m.map Prod.fst ++ [k] := by
  unfold emplaceKV
  by_cases hs : (lookupKV k m).isSome <;> simp [hs]

theorem keys_markMoved (m : List (Nat × Val)) (k : Nat) :
    (markMoved m k).map Prod.fst = m.map Prod.fst := by
  induction m with
  | nil => rfl
  | cons p t ih =>
    unfold markMoved at ih ⊢
    by_cases hp : p.1 = k <;>
      simp only [List.map_cons, if_pos, if_neg, hp, ih, ite_true, ite_false]

theorem lookupKV_markMoved_ne (m : List (Nat × Val)) (k k' : Nat)
    (h : k' ≠ k) : lookupKV k' (markMoved m k) = lookupKV k' m := by
  induction m with
  | nil => rfl
  | cons p t ih =>
    unfold markMoved at ih ⊢
    by_cases hp : p.1 = k
    · have hp' : p.1 ≠ k' := by omega
      simp only [List.map_cons, if_pos hp, lookupKV_cons]
      simp [hp', ih]
    · simp only [List.map_cons, if_neg hp, lookupKV_cons, ih]

theorem lookupKV_markMoved_self (m : List (Nat × Val)) (k : Nat) :
    lookupKV k (markMoved m k) = (lookupKV k m).map (fun v => (v.1, true)) := by
  induction m with
  | nil => rfl
  | cons p t ih =>
    unfold markMoved at ih ⊢
    by_cases hp : p.1 = k
    · simp [List.map_cons, if_pos hp, lookupKV_cons, hp]
    · simp only [List.map_cons, if_neg hp, lookupKV_cons, hp, if_false, ih]

theorem nodup_append_singleton (l : List Nat) (k : Nat)
    (h : l.Nodup) (hk : k ∉ l) : (l ++ [k]).Nodup := by
  rw [List.nodup_append]
  refine ⟨h, List.nodup_singleton _, ?_⟩
  intro a ha hb
  rw [List.mem_singleton] at hb
  subst hb
  exact hk ha

theorem nodup_keys_putKV (m : List (Nat × Val)) (k : Nat) (v : Val)
    (h : (m.map Prod.fst).Nodup) : ((putKV m k v).map Prod.fst).Nodup := by
  rw [keys_putKV]
  by_cases hs : (lookupKV k m).isSome
  · simpa [hs] using h
  · rw [if_neg hs]
    refine nodup_append_singleton _ _ h (fun hk => ?_)
    exact hs ((lookupKV_isSome_iff k m).2 hk)

theorem nodup_keys_emplaceKV (m : List (Nat × Val)) (k : Nat) (v : Val)
    (h : (m.map Prod.fst).Nodup) : ((emplaceKV m k v).map Prod.fst).Nodup := by
  rw [keys_emplaceKV]
  by_cases hs : (lookupKV k m).isSome
  · simpa [hs] using h
  · rw [if_neg hs]
    refine nodup_append_singleton _ _ h (fun hk => ?_)
    exact hs ((lookupKV_isSome_iff k m).2 hk)

theorem keys_eraseKV_sublist (m : List (Nat × Val)) (k : Nat) :
    ((eraseKV k m).map Prod.fst).Sublist (m.map Prod.fst) := by
  induction m with
  | nil => simp [eraseKV]
  | cons p t ih =>
    by_cases hp : p.1 = k
    · simp only [eraseKV, hp, if_true, List.map_cons]
      exact (List.sublist_cons_self _ _)
    · simp only [eraseKV, hp, if_false, List.map_cons]
      exact ih.cons₂ _

theorem nodup_keys_eraseKV (m : List (Nat × Val)) (k : Nat)
    (h : (m.map Prod.fst).Nodup) : ((eraseKV k m).map Prod.fst).Nodup :=
  (keys_eraseKV_sublist m k).nodup h

theorem mem_insertSet (s : List Nat) (k k' : Nat) :
    k' ∈ insertSet s k ↔ k' ∈ s ∨ k' = k := by
  unfold insertSet
  by_cases h : k ∈ s
  · rw [if_pos h]
    constructor
    · exact Or.inl
    · rintro (hk | rfl) <;> assumption
  · rw [if_neg h]
    simp [List.mem_append]

theorem mem_foldl_insertSet (l : List Nat) (s : List Nat) (k : Nat) :
    k ∈ l.foldl insertSet s ↔ k ∈ s ∨ k ∈ l := by
  induction l generalizing s with
  | nil => simp
  | cons a t ih =>
    simp only [List.foldl_cons, ih, mem_insertSet, List.mem_cons]
    tauto

/-! ## Chain lemmas -/

/-- Parents point to strictly smaller indices (the first component of `WF`,
stated on a raw fragment store). -/
def ParentsDec (frags : List Fragment) : Prop :=
  ∀ i, i < frags.length →
    ∀ p, (frags.getD i empty_fragment).parent = some p → p < i

theorem WF.pd {s : Sys} (h : WF s) : ParentsDec s.frags := h.1

theorem WF.handle_lt {s : Sys} (h : WF s) {i : Nat} (hi : i ∈ s.handles) :
    i < s.frags.length := h.2 i hi

theorem WF.headOf_lt {s : Sys} (h : WF s) {j : Nat}
    (hj : j < s.handles.length) : headOf s j < s.frags.length := by
  refine h.handle_lt ?_
  unfold headOf
  rw [List.getD_eq_getElem?_getD, List.getElem?_eq_getElem hj]
  exact List.getElem_mem _

theorem chainIdx_fuel (frags : List Fragment) (pd : ParentsDec frags) :
    ∀ i, i < frags.length → ∀ fuel, i + 1 ≤ fuel →
      chainIdx frags fuel i = chainIdx frags (i + 1) i := by
  intro i
  induction i using Nat.strong_induction_on with
  | _ i ih =>
    intro hi fuel hfuel
    obtain ⟨f, rfl⟩ : ∃ f, fuel = f + 1 := ⟨fuel - 1, by omega⟩
    show chainIdx frags (f + 1) i = chainIdx frags (i + 1) i
    simp only [chainIdx]
    cases hp : (frags.getD i empty_fragment).parent with
    | none => rfl
    | some p =>
      have hpi : p < i := pd i hi p hp
      have hpl : p < frags.length := by omega
      simp only
      rw [ih p hpi hpl f (by omega), ih p hpi hpl i (by omega)]

theorem mem_chainIdx_le (frags : List Fragment) (pd : ParentsDec frags) :
    ∀ fuel i, i < frags.length →
      ∀ a ∈ chainIdx frags fuel i, a ≤ i ∧ a < frags.length := by
  intro fuel
  induction fuel with
  | zero => intro i _ a ha; simp [chainIdx] at ha
  | succ f ih =>
    intro i hi a ha
    simp only [chainIdx] at ha
    rcases List.mem_cons.1 ha with rfl | ha
    · exact ⟨Nat.le_refl _, hi⟩
    · cases hp : (frags.getD i empty_fragment).parent with
      | none => rw [hp] at ha; simp at ha
      | some p =>
        rw [hp] at ha
        have hpi : p < i := pd i hi p hp
        have := ih p (by omega) a ha
        omega

theorem mem_chainIdx_pred (frags : List Fragment) :
    ∀ fuel i, ∀ a ∈ chainIdx frags fuel i,
      a = i ∨ ∃ b ∈ chainIdx frags fuel i,
        (frags.getD b empty_fragment).parent = some a := by
  intro fuel
  induction fuel with
  | zero => intro i a ha; simp [chainIdx] at ha
  | succ f ih =>
    intro i a ha
    simp only [chainIdx] at ha
    rcases List.mem_cons.1 ha with rfl | ha
    · exact Or.inl rfl
    · cases hp : (frags.getD i empty_fragment).parent with
      | none => rw [hp] at ha; simp at ha
      | some p =>
        rw [hp] at ha
        rcases ih p a ha with rfl | ⟨b, hb, hpb⟩
        · refine Or.inr ⟨i, ?_, hp⟩
          simp [chainIdx]
        · refine Or.inr ⟨b, ?_, hpb⟩
          simp only [chainIdx, hp]
          exact List.mem_cons_of_mem _ hb

theorem head_mem_chainIdx (frags : List Fragment) (fuel i : Nat) :
    i ∈ chainIdx frags (fuel + 1) i := by
  simp only [chainIdx]
  exact List.mem_cons_self _ _

theorem chainIdx_append (frags l : List Fragment) (pd : ParentsDec frags) :
    ∀ fuel i, i < frags.length →
      chainIdx (frags ++ l) fuel i = chainIdx frags fuel i := by
  intro fuel
  induction fuel with
  | zero => intro i _; rfl
  | succ f ih =>
    intro i hi
    simp only [chainIdx, getD_append_lt _ _ _ _ hi]
    cases hp : (frags.getD i empty_fragment).parent with
    | none => rfl
    | some p =>
      have hpi : p < i := pd i hi p hp
      simp only
      rw [ih p (by omega)]

theorem chainIdx_set (frags : List Fragment) (m : Nat) (f : Fragment) :
    ∀ fuel i, m ∉ chainIdx frags fuel i →
      chainIdx (frags.set m f) fuel i = chainIdx frags fuel i := by
  intro fuel
  induction fuel with
  | zero => intro i _; rfl
  | succ fu ih =>
    intro i hm
    simp only [chainIdx] at hm ⊢
    have him : i ≠ m := fun h => hm (h ▸ List.mem_cons_self _ _)
    rw [getD_set_ne _ _ _ _ _ him]
    cases hp : (frags.getD i empty_fragment).parent with
    | none => rfl
    | some p =>
      simp only
      rw [ih p (fun h => hm (by rw [hp]; exact List.mem_cons_of_mem _ h))]

theorem chainOf_frame_append (s : Sys) (l : List Fragment) (hl : List Nat)
    (pd : ParentsDec s.frags) (i : Nat) (hi : i < s.frags.length) :
    chainOf ⟨s.frags ++ l, hl⟩ i = chainOf s i := by
  unfold chainOf
  show (chainIdx (s.frags ++ l) (i + 1) i).map
      (fun a => (a, (s.frags ++ l).getD a empty_fragment)) = _
  rw [chainIdx_append s.frags l pd (i + 1) i hi]
  refine List.map_congr_left (fun a ha => ?_)
  have := mem_chainIdx_le s.frags pd (i + 1) i hi a ha
  rw [getD_append_lt _ _ _ _ this.2]
  rfl

theorem chainOf_frame_set (s : Sys) (m : Nat) (f : Fragment) (i : Nat)
    (hm : m ∉ chainIdx s.frags (i + 1) i) :
    chainOf (setFrag s m f) i = chainOf s i := by
  unfold chainOf setFrag
  show (chainIdx (s.frags.set m f) (i + 1) i).map
      (fun a => (a, (s.frags.set m f).getD a empty_fragment)) = _
  rw [chainIdx_set s.frags m f (i + 1) i hm]
  refine List.map_congr_left (fun a ha => ?_)
  have ham : a ≠ m := fun h => hm (h ▸ ha)
  rw [getD_set_ne _ _ _ _ _ ham]
  rfl

theorem chainIdx_succ (frags : List Fragment) (fuel i : Nat) :
    chainIdx frags (fuel + 1) i =
      i :: (match (frags.getD i empty_fragment).parent with
            | none => []
            | some p => chainIdx frags fuel p) := rfl

theorem chainOf_cons_parent (s : Sys) (i p : Nat) (pd : ParentsDec s.frags)
    (hi : i < s.frags.length) (hp : (fragAt s i).parent = some p) :
    chainOf s i = (i, fragAt s i) :: chainOf s p := by
  have hp' : (s.frags.getD i empty_fragment).parent = some p := hp
  have hpi : p < i := pd i hi p hp'
  have h1 : chainIdx s.frags (i + 1) i = i :: chainIdx s.frags (p + 1) p := by
    rw [chainIdx_succ, hp']
    exact congrArg (i :: ·) (chainIdx_fuel s.frags pd p (by omega) i (by omega))
  unfold chainOf
  rw [h1, List.map_cons]

theorem chainOf_root (s : Sys) (i : Nat)
    (hp : (fragAt s i).parent = none) :
    chainOf s i = [(i, fragAt s i)] := by
  have hp' : (s.frags.getD i empty_fragment).parent = none := hp
  unfold chainOf
  rw [chainIdx_succ, hp']
  rfl

theorem chainIdx_df_eq (s : Sys) (i : Nat) :
    chainOf s i = (chainIdx s.frags (i + 1) i).map (fun a => (a, fragAt s a)) :=
  rfl

theorem mem_chainOf_iff (s : Sys) (i : Nat) (x : Nat × Fragment) :
    x ∈ chainOf s i ↔
      x.1 ∈ chainIdx s.frags (i + 1) i ∧ x.2 = fragAt s x.1 := by
  unfold chainOf
  constructor
  · intro hx
    rcases List.mem_map.1 hx with ⟨a, ha, rfl⟩
    exact ⟨ha, rfl⟩
  · rintro ⟨ha, hx⟩
    refine List.mem_map.2 ⟨x.1, ha, ?_⟩
    rw [← hx]

/-! ## Agreement of the read operations -/

theorem contains_internal_cons (f : Fragment) (rest : List Fragment) (k : Nat) :
    contains_internal (f :: rest) k =
      if (lookupKV k f.key_values).isSome then true
      else if k ∈ f.deleted_keys then false
      else contains_internal rest k := rfl

theorem find_cons (i : Nat) (f : Fragment) (rest : Chain) (k : Nat) :
    find ((i, f) :: rest) k =
      match lookupKV k f.key_values with
      | some v => some (i, v)
      | none => if k ∈ f.deleted_keys then none else find rest k := rfl

theorem contains_eq_find_isSome (c : Chain) (k : Nat) :
    contains_internal (fragsOf c) k = (find c k).isSome := by
  induction c with
  | nil => rfl
  | cons p rest ih =>
    obtain ⟨i, f⟩ := p
    rw [fragsOf, List.map_cons]
    rw [contains_internal_cons, find_cons]
    cases hl : lookupKV k f.key_values with
    | some v => simp
    | none =>
      by_cases hd : k ∈ f.deleted_keys
      · simp [hd]
      · simp only [Option.isSome_none, Bool.false_eq_true, if_false, if_neg hd]
        exact ih

theorem find_eq_none_iff_contains_false (c : Chain) (k : Nat) :
    find c k = none ↔ contains_internal (fragsOf c) k = false := by
  rw [contains_eq_find_isSome]
  cases find c k <;> simp

theorem at_key_ok_iff (c : Chain) (k : Nat) (v : Val) :
    at_key c k = .ok v ↔ ∃ i, find c k = some (i, v) := by
  unfold at_key
  cases hf : find c k with
  | none => simp
  | some p => obtain ⟨i, w⟩ := p; simp

theorem at_key_error_iff (c : Chain) (k : Nat) :
    at_key c k = .error key_error ↔ find c k = none := by
  unfold at_key
  cases hf : find c k with
  | none => simp
  | some p => obtain ⟨i, w⟩ := p; simp

end lazy_map

open lazy_map in
/-- **C4**.  For every fragment chain (the state a handle reads through) and
key `k`, the three read operations agree: `contains` (which runs the
independently-coded `contains_internal` walk) holds iff `find` does not
return the end iterator, iff `at` returns a value rather than throwing; and
`at` fails with the key-not-found error exactly when the resolution walk —
first local binding wins, first tombstone or running off the root signals
absence — fails, i.e. exactly when the key is not in the logical view. -/
theorem C4_read_transparency (c : Chain) (k : Nat) :
    (contains_internal (fragsOf c) k = true ↔ (find c k).isSome)
    ∧ (contains_internal (fragsOf c) k = true ↔ ∃ v, at_key c k = .ok v)
    ∧ (at_key c k = .error key_error ↔ find c k = none)
    ∧ (contains_internal (fragsOf c) k = false ↔
        at_key c k = .error key_error) := by
  refine ⟨by rw [contains_eq_find_isSome], ?_, at_key_error_iff c k, ?_⟩
  · rw [contains_eq_find_isSome]
    unfold at_key
    cases find c k with
    | none => simp
    | some p => obtain ⟨i, w⟩ := p; simp
  · rw [at_key_error_iff, find_eq_none_iff_contains_false]

open lazy_map in
/-- **C10**.  The indexed read `operator[]` is written `return at(k);` in the
source: it is a `const` member returning `const V&`.  In the embedding it is
the pure function `op_index` on the chain — it takes no mutable state and
returns none, so it can neither insert a default-constructed value nor
modify the map — and it is extensionally equal to `at`: a value exactly
when the key is in the logical view, the key-not-found error otherwise. -/
theorem C10_op_index_is_at (c : Chain) (k : Nat) :
    op_index c k = at_key c k
    ∧ (contains_internal (fragsOf c) k = true ↔ ∃ v, op_index c k = .ok v)
    ∧ (contains_internal (fragsOf c) k = false ↔
        op_index c k = .error key_error) := by
  refine ⟨rfl, ?_, ?_⟩
  · rw [contains_eq_find_isSome]
    unfold op_index at_key
    cases find c k with
    | none => simp
    | some p => obtain ⟨i, w⟩ := p; simp
  · show _ ↔ at_key c k = .error key_error
    rw [at_key_error_iff, find_eq_none_iff_contains_false]

namespace lazy_map

/-! ## Lookup and membership -/

theorem lookupKV_isSome_of_mem {m : List (Nat × Val)} {k : Nat} {v : Val}
    (h : (k, v) ∈ m) : (lookupKV k m).isSome := by
  rw [lookupKV_isSome_iff]
  exact List.mem_map.2 ⟨(k, v), h, rfl⟩

theorem mem_of_lookupKV {m : List (Nat × Val)} {k : Nat} {v : Val}
    (h : lookupKV k m = some v) : (k, v) ∈ m := by
  induction m with
  | nil => simp at h
  | cons p t ih =>
    rw [lookupKV_cons] at h
    by_cases hp : p.1 = k
    · rw [if_pos hp] at h
      injection h with h
      have hp2 : p = (k, v) := by
        obtain ⟨a, b⟩ := p
        simp_all
      rw [hp2]
      exact List.mem_cons_self _ _
    · rw [if_neg hp] at h
      exact List.mem_cons_of_mem _ (ih h)

theorem lookupKV_of_mem_nodup {m : List (Nat × Val)}
    (hnd : (m.map Prod.fst).Nodup) {k : Nat} {v : Val}
    (h : (k, v) ∈ m) : lookupKV k m = some v := by
  induction m with
  | nil => simp at h
  | cons p t ih =>
    simp only [List.map_cons, List.nodup_cons] at hnd
    rcases List.mem_cons.1 h with rfl | hm
    · simp [lookupKV_cons]
    · have hk : k ∈ t.map Prod.fst := List.mem_map.2 ⟨(k, v), hm, rfl⟩
      have hp : p.1 ≠ k := fun hh => hnd.1 (hh ▸ hk)
      rw [lookupKV_cons, if_neg hp]
      exact ih hnd.2 hm

/-! ## Iterator lemmas -/

theorem should_ignore_key_nil (k : Nat) : should_ignore_key [] k = false := rfl

theorem should_ignore_key_cons (f : Fragment) (L : List Fragment) (k : Nat) :
    should_ignore_key (f :: L) k =
      (((lookupKV k f.key_values).isSome || decide (k ∈ f.deleted_keys))
        || should_ignore_key L k) := by
  simp [should_ignore_key]

theorem should_ignore_key_append (L L' : List Fragment) (k : Nat) :
    should_ignore_key (L ++ L') k =
      (should_ignore_key L k || should_ignore_key L' k) := by
  simp [should_ignore_key]

theorem should_ignore_key_singleton_false {f : Fragment} {k : Nat}
    (h : should_ignore_key [f] k = false) :
    lookupKV k f.key_values = none ∧ k ∉ f.deleted_keys := by
  simp only [should_ignore_key, List.any_cons, List.any_nil,
    Bool.or_false, Bool.or_eq_false_iff] at h
  refine ⟨?_, by simpa using h.2⟩
  cases hl : lookupKV k f.key_values with
  | none => rfl
  | some v => rw [hl] at h; simp at h

theorem should_ignore_key_singleton_of (f : Fragment) (k : Nat)
    (h1 : lookupKV k f.key_values = none) (h2 : k ∉ f.deleted_keys) :
    should_ignore_key [f] k = false := by
  simp [should_ignore_key, h1, h2]

theorem findVal_cons (f : Fragment) (rest : List Fragment) (k : Nat) :
    findVal (f :: rest) k =
      match lookupKV k f.key_values with
      | some v => some v
      | none => if k ∈ f.deleted_keys then none else findVal rest k := rfl

theorem findVal_eq_find (c : Chain) (k : Nat) :
    findVal (fragsOf c) k = (find c k).map Prod.snd := by
  induction c with
  | nil => rfl
  | cons p rest ih =>
    obtain ⟨i, f⟩ := p
    rw [fragsOf, List.map_cons, findVal_cons, find_cons]
    cases hl : lookupKV k f.key_values with
    | some v => rfl
    | none =>
      by_cases hd : k ∈ f.deleted_keys
      · simp [hd]
      · simpa [hd] using ih

theorem contains_eq_findVal (L : List Fragment) (k : Nat) :
    contains_internal L k = (findVal L k).isSome := by
  induction L with
  | nil => rfl
  | cons f rest ih =>
    rw [contains_internal_cons, findVal_cons]
    cases hl : lookupKV k f.key_values with
    | some v => simp
    | none =>
      by_cases hd : k ∈ f.deleted_keys
      · simp [hd]
      · simpa [hd] using ih

theorem iterTraceAux_cons (nearer : List Fragment) (pos : Nat)
    (f : Fragment) (rest : List Fragment) :
    iterTraceAux nearer pos (f :: rest) =
      ((f.key_values.filter (fun e => ! should_ignore_key nearer e.1)).map
          (fun e => (pos, e.1, e.2)))
        ++ iterTraceAux (nearer ++ [f]) (pos + 1) rest := rfl

theorem mem_iterTraceAux_pos_ge (L : List Fragment) :
    ∀ (nearer : List Fragment) (pos0 : Nat) (t : Nat × Nat × Val),
      t ∈ iterTraceAux nearer pos0 L → pos0 ≤ t.1 := by
  induction L with
  | nil => intro nearer pos0 t ht; simp [iterTraceAux] at ht
  | cons f rest ih =>
    intro nearer pos0 t ht
    rw [iterTraceAux_cons] at ht
    rcases List.mem_append.1 ht with hb | hr
    · rcases List.mem_map.1 hb with ⟨e, _, heq⟩
      rw [← heq]
    · have := ih (nearer ++ [f]) (pos0 + 1) t hr
      omega

theorem mem_iterTraceAux_ignore (L : List Fragment) :
    ∀ (nearer : List Fragment) (pos0 : Nat) (t : Nat × Nat × Val),
      t ∈ iterTraceAux nearer pos0 L →
        should_ignore_key nearer t.2.1 = false := by
  induction L with
  | nil => intro nearer pos0 t ht; simp [iterTraceAux] at ht
  | cons f rest ih =>
    intro nearer pos0 t ht
    rw [iterTraceAux_cons] at ht
    rcases List.mem_append.1 ht with hb | hr
    · rcases List.mem_map.1 hb with ⟨e, he, heq⟩
      have h2 := (List.mem_filter.1 he).2
      rw [← heq]
      simpa using h2
    · have := ih (nearer ++ [f]) (pos0 + 1) t hr
      rw [should_ignore_key_append] at this
      exact (Bool.or_eq_false_iff.1 this).1

theorem iterTraceAux_key_spec (L : List Fragment) :
    ∀ (nearer : List Fragment) (pos0 k : Nat) (v : Val),
      (∀ f ∈ L, (f.key_values.map Prod.fst).Nodup) →
      ((∃ pos, (pos, k, v) ∈ iterTraceAux nearer pos0 L) ↔
        (should_ignore_key nearer k = false ∧ findVal L k = some v)) := by
  induction L with
  | nil =>
    intro nearer pos0 k v _
    simp [iterTraceAux, findVal]
  | cons f rest ih =>
    intro nearer pos0 k v hnd
    have hndf : (f.key_values.map Prod.fst).Nodup := hnd f (List.mem_cons_self _ _)
    have hndr : ∀ g ∈ rest, (g.key_values.map Prod.fst).Nodup :=
      fun g hg => hnd g (List.mem_cons_of_mem _ hg)
    constructor
    · rintro ⟨pos, hpos⟩
      rw [iterTraceAux_cons] at hpos
      rcases List.mem_append.1 hpos with hb | hr
      · rcases List.mem_map.1 hb with ⟨e, he, heq⟩
        have hef : e ∈ f.key_values := (List.mem_filter.1 he).1
        have hig : should_ignore_key nearer e.1 = false := by
          simpa using (List.mem_filter.1 he).2
        have h1 : e.1 = k := congrArg (fun t => t.2.1) heq
        have h2 : e.2 = v := congrArg (fun t => t.2.2) heq
        subst h1 h2
        refine ⟨hig, ?_⟩
        rw [findVal_cons,
          lookupKV_of_mem_nodup hndf (show (e.1, e.2) ∈ f.key_values by
            simpa using hef)]
      · have hmain := (ih (nearer ++ [f]) (pos0 + 1) k v hndr).1 ⟨pos, hr⟩
        obtain ⟨hig, hfv⟩ := hmain
        rw [should_ignore_key_append] at hig
        obtain ⟨hig1, hig2⟩ := Bool.or_eq_false_iff.1 hig
        obtain ⟨hlk, hdel⟩ := should_ignore_key_singleton_false hig2
        refine ⟨hig1, ?_⟩
        rw [findVal_cons, hlk, if_neg hdel]
        exact hfv
    · rintro ⟨hig, hfv⟩
      rw [findVal_cons] at hfv
      cases hlk : lookupKV k f.key_values with
      | some w =>
        rw [hlk] at hfv
        have hwv : w = v := by injection hfv
        subst hwv
        refine ⟨pos0, ?_⟩
        rw [iterTraceAux_cons]
        apply List.mem_append_left
        apply List.mem_map.2
        exact ⟨(k, w), List.mem_filter.2 ⟨mem_of_lookupKV hlk, by simp [hig]⟩,
          rfl⟩
      | none =>
        rw [hlk] at hfv
        by_cases hdel : k ∈ f.deleted_keys
        · rw [if_pos hdel] at hfv; cases hfv
        · rw [if_neg hdel] at hfv
          have hig' : should_ignore_key (nearer ++ [f]) k = false := by
            rw [should_ignore_key_append, hig,
              should_ignore_key_singleton_of f k hlk hdel]
            rfl
          obtain ⟨pos, hpos⟩ :=
            (ih (nearer ++ [f]) (pos0 + 1) k v hndr).2 ⟨hig', hfv⟩
          refine ⟨pos, ?_⟩
          rw [iterTraceAux_cons]
          exact List.mem_append_right _ hpos

theorem nodup_keys_iterTraceAux (L : List Fragment) :
    ∀ (nearer : List Fragment) (pos0 : Nat),
      (∀ f ∈ L, (f.key_values.map Prod.fst).Nodup) →
      ((iterTraceAux nearer pos0 L).map (fun t => t.2.1)).Nodup := by
  induction L with
  | nil => intro nearer pos0 _; simp [iterTraceAux]
  | cons f rest ih =>
    intro nearer pos0 hnd
    have hndf : (f.key_values.map Prod.fst).Nodup := hnd f (List.mem_cons_self _ _)
    have hndr : ∀ g ∈ rest, (g.key_values.map Prod.fst).Nodup :=
      fun g hg => hnd g (List.mem_cons_of_mem _ hg)
    rw [iterTraceAux_cons, List.map_append, List.nodup_append]
    refine ⟨?_, ih (nearer ++ [f]) (pos0 + 1) hndr, ?_⟩
    · rw [List.map_map]
      have hsub :
          ((f.key_values.filter (fun e => ! should_ignore_key nearer e.1)).map
            Prod.fst).Sublist (f.key_values.map Prod.fst) :=
        (List.filter_sublist _).map Prod.fst
      exact (List.Sublist.nodup hsub hndf)
    · intro a ha har
      rcases List.mem_map.1 ha with ⟨t, hmt, hta⟩
      rcases List.mem_map.1 hmt with ⟨e, he, heq⟩
      have hef : e ∈ f.key_values := (List.mem_filter.1 he).1
      have hae : a = e.1 := by rw [← hta, ← heq]
      rcases List.mem_map.1 har with ⟨t', hmt', hta'⟩
      have hig := mem_iterTraceAux_ignore rest (nearer ++ [f]) (pos0 + 1) t' hmt'
      rw [should_ignore_key_append] at hig
      obtain ⟨_, hig2⟩ := Bool.or_eq_false_iff.1 hig
      rw [hta'] at hig2
      obtain ⟨hlk, _⟩ := should_ignore_key_singleton_false hig2
      rw [hae] at hlk
      have : (lookupKV e.1 f.key_values).isSome :=
        lookupKV_isSome_of_mem (show (e.1, e.2) ∈ f.key_values by simpa using hef)
      rw [hlk] at this
      simp at this

theorem iterTraceAux_at_pos (L : List Fragment) :
    ∀ (nearer : List Fragment) (pos0 j : Nat) (f : Fragment) (e : Nat × Val),
      L[j]? = some f → e ∈ f.key_values →
      ((pos0 + j, e.1, e.2) ∈ iterTraceAux nearer pos0 L ↔
        should_ignore_key (nearer ++ L.take j) e.1 = false) := by
  induction L with
  | nil => intro nearer pos0 j f e hj; simp at hj
  | cons f0 rest ih =>
    intro nearer pos0 j f e hj he
    cases j with
    | zero =>
      rw [List.getElem?_cons_zero] at hj
      obtain rfl : f0 = f := by injection hj
      rw [iterTraceAux_cons]
      simp only [Nat.add_zero, List.take_zero, List.append_nil]
      constructor
      · intro hmem
        rcases List.mem_append.1 hmem with hb | hr
        · rcases List.mem_map.1 hb with ⟨e', he', heq⟩
          have h1 : e'.1 = e.1 := congrArg (fun t => t.2.1) heq
          have hig : should_ignore_key nearer e'.1 = false := by
            simpa using (List.mem_filter.1 he').2
          rwa [h1] at hig
        · have := mem_iterTraceAux_pos_ge rest (nearer ++ [f0]) (pos0 + 1)
            (pos0, e.1, e.2) hr
          omega
      · intro hig
        apply List.mem_append_left
        apply List.mem_map.2
        exact ⟨(e.1, e.2), List.mem_filter.2 ⟨by simpa using he, by simp [hig]⟩,
          rfl⟩
    | succ j' =>
      rw [List.getElem?_cons_succ] at hj
      have harith : pos0 + (j' + 1) = (pos0 + 1) + j' := by omega
      have htake : (f0 :: rest).take (j' + 1) = f0 :: rest.take j' := rfl
      have happ : nearer ++ (f0 :: rest.take j') =
          (nearer ++ [f0]) ++ rest.take j' := by
        rw [List.append_assoc]; rfl
      rw [iterTraceAux_cons, harith, htake, happ,
        ← ih (nearer ++ [f0]) (pos0 + 1) j' f e hj he]
      constructor
      · intro hmem
        rcases List.mem_append.1 hmem with hb | hr
        · rcases List.mem_map.1 hb with ⟨e', _, heq⟩
          have := congrArg Prod.fst heq
          simp at this
          omega
        · exact hr
      · intro hmem
        exact List.mem_append_right _ hmem

end lazy_map

open lazy_map in
/-- **C7**.  A full iteration of a chain whose fragments have duplicate-free
local tables (every table the container builds is an `unordered_map`, hence
duplicate-free) yields each key at most once; the set of keys yielded is
exactly the set of keys in the logical view (the keys `contains` accepts)
at iterator-construction time; and an entry of the fragment at depth `pos`
is yielded if and only if no fragment strictly nearer to the head has that
key in its locals or in its tombstones (`should_ignore_key` over the
fragments above `pos`). -/
theorem C7_iteration_exact (c : Chain)
    (hnd : ∀ f ∈ fragsOf c, (f.key_values.map Prod.fst).Nodup) :
    ((iterPairs c).map Prod.fst).Nodup
    ∧ (∀ k, k ∈ (iterPairs c).map Prod.fst ↔
        contains_internal (fragsOf c) k = true)
    ∧ (∀ pos f, (fragsOf c)[pos]? = some f → ∀ e ∈ f.key_values,
        ((pos, e.1, e.2) ∈ iterTrace c ↔
          should_ignore_key ((fragsOf c).take pos) e.1 = false)) := by
  refine ⟨?_, ?_, ?_⟩
  · unfold iterPairs iterTrace
    rw [List.map_map]
    exact nodup_keys_iterTraceAux (fragsOf c) [] 0 hnd
  · intro k
    unfold iterPairs iterTrace
    rw [List.map_map]
    constructor
    · intro hk
      rcases List.mem_map.1 hk with ⟨t, hmt, hta⟩
      obtain ⟨a, b, w⟩ := t
      have hb : b = k := hta
      subst hb
      have := (iterTraceAux_key_spec (fragsOf c) [] 0 b w hnd).1 ⟨a, hmt⟩
      rw [contains_eq_findVal, this.2]
      rfl
    · intro hk
      rw [contains_eq_findVal] at hk
      cases hfv : findVal (fragsOf c) k with
      | none => rw [hfv] at hk; simp at hk
      | some v =>
        obtain ⟨pos, hpos⟩ :=
          (iterTraceAux_key_spec (fragsOf c) [] 0 k v hnd).2
            ⟨should_ignore_key_nil k, hfv⟩
        exact List.mem_map.2 ⟨(pos, k, v), hpos, rfl⟩
  · intro pos f hpf e he
    have := iterTraceAux_at_pos (fragsOf c) [] 0 pos f e hpf he
    rw [Nat.zero_add] at this
    unfold iterTrace
    rwa [List.nil_append] at this

namespace lazy_map

/-! ## Ownership: refcounts exclude a uniquely-owned head from other chains -/

theorem headOf_mem (s : Sys) (j : Nat) (hj : j < s.handles.length) :
    headOf s j ∈ s.handles :=
  LazyMapProof.getD_mem s.handles j 0 hj

theorem WF.parent_elem_lt {s : Sys} (hwf : WF s) :
    ∀ f ∈ s.frags, ∀ p, f.parent = some p → p < s.frags.length := by
  intro f hf p hp
  rcases List.mem_iff_getElem.1 hf with ⟨i, hi, hfi⟩
  have hgd : s.frags.getD i empty_fragment = f := by
    rw [List.getD_eq_getElem?_getD, List.getElem?_eq_getElem hi, hfi]
    rfl
  have := hwf.pd i hi p (by rw [hgd]; exact hp)
  omega

/-- A fragment whose use count is 1 and which is the head of handle `i` is
not on the chain of any other handle `j`: the head reference of `i` is one
owner, and membership in `j`'s chain would produce a second owner (handle
`j`'s head reference, or the `parent_` reference of the chain link above). -/
theorem not_mem_chain_of_unique (s : Sys) (hwf : WF s) (i j : Nat)
    (hi : i < s.handles.length) (hj : j < s.handles.length) (hij : i ≠ j)
    (hrc : refcount s (headOf s i) = 1) :
    headOf s i ∉ chainIdx s.frags (headOf s j + 1) (headOf s j) := by
  intro hmem
  have hjlt : headOf s j < s.frags.length := hwf.headOf_lt hj
  have hcount1 : 1 ≤ s.handles.count (headOf s i) :=
    List.count_pos_iff_mem.2 (headOf_mem s i hi)
  rcases mem_chainIdx_pred s.frags (headOf s j + 1) (headOf s j)
      (headOf s i) hmem with heq | ⟨b, hb, hpb⟩
  · -- the two handles share the head: the handle list holds it twice
    have h2 : 2 ≤ s.handles.count (headOf s i) := by
      refine two_le_count_of_ne_pos s.handles (headOf s i) i j hi hj hij rfl ?_
      exact heq.symm
    unfold refcount at hrc
    omega
  · -- a chain link references it as parent: a second owner
    have hble : b ≤ headOf s j ∧ b < s.frags.length :=
      mem_chainIdx_le s.frags hwf.pd (headOf s j + 1) (headOf s j) hjlt b hb
    have hfb : s.frags.getD b empty_fragment ∈ s.frags :=
      LazyMapProof.getD_mem s.frags b empty_fragment hble.2
    have hcp : 0 < s.frags.countP
        (fun f => decide (f.parent = some (headOf s i))) := by
      rw [List.countP_pos]
      exact ⟨_, hfb, by exact decide_eq_true hpb⟩
    unfold refcount at hrc
    omega

/-! ## Well-formedness preservation -/

theorem ParentsDec_append (frags : List Fragment) (nf : Fragment)
    (pd : ParentsDec frags)
    (hnf : ∀ p, nf.parent = some p → p < frags.length) :
    ParentsDec (frags ++ [nf]) := by
  intro i hi p hp
  rw [List.length_append, List.length_singleton] at hi
  by_cases hil : i < frags.length
  · rw [getD_append_lt _ _ _ _ hil] at hp
    exact pd i hil p hp
  · have hieq : i = frags.length := by omega
    subst hieq
    rw [getD_append_len] at hp
    exact hnf p hp

theorem ParentsDec_set (frags : List Fragment) (m : Nat) (f : Fragment)
    (pd : ParentsDec frags)
    (hf : ∀ p, f.parent = some p → p < m) :
    ParentsDec (frags.set m f) := by
  intro i hi p hp
  rw [List.length_set] at hi
  by_cases him : i = m
  · subst him
    rw [getD_set_self _ _ _ _ hi] at hp
    exact hf p hp
  · rw [getD_set_ne _ _ _ _ _ him] at hp
    exact pd i hi p hp

theorem WF_setFrag (s : Sys) (m : Nat) (f : Fragment) (hwf : WF s)
    (hf : ∀ p, f.parent = some p → p < m) : WF (setFrag s m f) := by
  constructor
  · exact ParentsDec_set s.frags m f hwf.pd hf
  · intro h hh
    rw [setFrag] at hh ⊢
    simp only [List.length_set]
    exact hwf.2 h hh

end lazy_map

namespace lazy_map

/-! ## prepare_for_edit -/

theorem prepare_of_unique (s : Sys) (h : Nat)
    (hrc : refcount s (headOf s h) = 1) : prepare_for_edit s h = s :=
  if_pos hrc

theorem prepare_of_shared (s : Sys) (h : Nat)
    (hrc : ¬ refcount s (headOf s h) = 1) :
    prepare_for_edit s h =
      ⟨s.frags ++ [⟨[], [], some (headOf s h), (fragAt s (headOf s h)).size⟩],
       s.handles.set h s.frags.length⟩ :=
  if_neg hrc

theorem prepare_handles_len (s : Sys) (h : Nat) :
    (prepare_for_edit s h).handles.length = s.handles.length := by
  by_cases hrc : refcount s (headOf s h) = 1
  · rw [prepare_of_unique s h hrc]
  · rw [prepare_of_shared s h hrc]
    exact List.length_set _ _ _

theorem WF_prepare (s : Sys) (h : Nat) (hwf : WF s)
    (hh : h < s.handles.length) : WF (prepare_for_edit s h) := by
  by_cases hrc : refcount s (headOf s h) = 1
  · rw [prepare_of_unique s h hrc]; exact hwf
  · rw [prepare_of_shared s h hrc]
    constructor
    · refine ParentsDec_append _ _ hwf.pd ?_
      intro p hp
      have hp2 : headOf s h = p := by injection hp
      rw [← hp2]
      exact hwf.headOf_lt hh
    · intro x hx
      simp only [List.length_append, List.length_singleton]
      rcases List.mem_or_eq_of_mem_set hx with hx2 | rfl
      · have := hwf.handle_lt hx2; omega
      · omega

theorem headOf_prepare_shared (s : Sys) (h : Nat) (hh : h < s.handles.length)
    (hrc : ¬ refcount s (headOf s h) = 1) :
    headOf (prepare_for_edit s h) h = s.frags.length := by
  rw [prepare_of_shared s h hrc]
  exact getD_set_self _ _ _ _ hh

theorem fragAt_prepare_shared (s : Sys) (h : Nat)
    (hrc : ¬ refcount s (headOf s h) = 1) :
    fragAt (prepare_for_edit s h) s.frags.length =
      ⟨[], [], some (headOf s h), (fragAt s (headOf s h)).size⟩ := by
  rw [prepare_of_shared s h hrc]
  exact getD_append_len _ _ _

theorem refcount_prepare (s : Sys) (h : Nat) (hwf : WF s)
    (hh : h < s.handles.length) :
    refcount (prepare_for_edit s h) (headOf (prepare_for_edit s h) h) = 1 := by
  by_cases hrc : refcount s (headOf s h) = 1
  · rw [prepare_of_unique s h hrc]; exact hrc
  · rw [headOf_prepare_shared s h hh hrc, prepare_of_shared s h hrc]
    simp only [refcount]
    have hcnt : (s.handles.set h s.frags.length).count s.frags.length = 1 :=
      count_set_eq_one s.handles h s.frags.length hh
        (fun x hx => Nat.ne_of_lt (hwf.handle_lt hx))
    have h1 : s.frags.countP
        (fun f => decide (f.parent = some s.frags.length)) = 0 := by
      rw [List.countP_eq_zero]
      intro f hf
      simp only [decide_eq_true_eq]
      intro hp
      have := hwf.parent_elem_lt f hf _ hp
      omega
    have h2 : List.countP (fun f => decide (f.parent = some s.frags.length))
        [(⟨[], [], some (headOf s h), (fragAt s (headOf s h)).size⟩ :
          Fragment)] = 0 := by
      rw [List.countP_eq_zero]
      intro f hf
      rw [List.mem_singleton] at hf
      subst hf
      simp only [decide_eq_true_eq]
      intro hp
      have hlt : headOf s h < s.frags.length := hwf.headOf_lt hh
      have : headOf s h = s.frags.length := by injection hp
      omega
    rw [List.countP_append, hcnt, h1, h2]

theorem prepare_frame (s : Sys) (h j : Nat) (hwf : WF s)
    (hj : j < s.handles.length) (hjh : j ≠ h) :
    headOf (prepare_for_edit s h) j = headOf s j
    ∧ chainOf (prepare_for_edit s h) (headOf s j) = chainOf s (headOf s j) := by
  by_cases hrc : refcount s (headOf s h) = 1
  · rw [prepare_of_unique s h hrc]; exact ⟨rfl, rfl⟩
  · rw [prepare_of_shared s h hrc]
    constructor
    · exact getD_set_ne _ _ _ _ _ hjh
    · exact chainOf_frame_append s _ _ hwf.pd _ (hwf.headOf_lt hj)

theorem chain_prepare_shared (s : Sys) (h : Nat) (hwf : WF s)
    (hh : h < s.handles.length)
    (hrc : ¬ refcount s (headOf s h) = 1) :
    chainOf (prepare_for_edit s h) (headOf (prepare_for_edit s h) h) =
      (s.frags.length,
        (⟨[], [], some (headOf s h), (fragAt s (headOf s h)).size⟩ : Fragment))
        :: chainOf s (headOf s h) := by
  have hwf1 : WF (prepare_for_edit s h) := WF_prepare s h hwf hh
  rw [headOf_prepare_shared s h hh hrc]
  have hlen : s.frags.length < (prepare_for_edit s h).frags.length := by
    rw [prepare_of_shared s h hrc]
    simp
  have hfa := fragAt_prepare_shared s h hrc
  rw [chainOf_cons_parent (prepare_for_edit s h) s.frags.length (headOf s h)
    hwf1.pd hlen (by rw [hfa])]
  rw [hfa]
  have : chainOf (prepare_for_edit s h) (headOf s h) =
      chainOf s (headOf s h) := by
    rw [prepare_of_shared s h hrc]
    exact chainOf_frame_append s _ _ hwf.pd _ (hwf.headOf_lt hh)
  rw [this]

theorem chainOf_ne_nil (s : Sys) (i : Nat) : chainOf s i ≠ [] := by
  unfold chainOf
  rw [chainIdx_succ]
  simp

theorem contains_cons_empty (kv : List (Nat × Val)) (dk : List Nat)
    (pa : Option Nat) (sz : Nat) (L : List Fragment) (k : Nat)
    (hkv : kv = []) (hdk : dk = []) :
    contains_internal ((⟨kv, dk, pa, sz⟩ : Fragment) :: L) k =
      contains_internal L k := by
  subst hkv hdk
  rw [contains_internal_cons]
  simp [lookupKV]

theorem findVal_cons_empty (pa : Option Nat) (sz : Nat) (L : List Fragment)
    (k : Nat) :
    findVal ((⟨[], [], pa, sz⟩ : Fragment) :: L) k = findVal L k := by
  rw [findVal_cons]
  simp [lookupKV]

end lazy_map

namespace lazy_map

/-! ## Branch equations of the operations -/

theorem insert_of_contains (s : Sys) (i k : Nat) (v : Val)
    (hc : contains_internal (fragsOf (chainOf s (headOf s i))) k = true) :
    insert s i k v = (false, s) := by
  unfold insert; rw [if_pos hc]

theorem insert_of_not_contains (s : Sys) (i k : Nat) (v : Val)
    (hc : ¬ contains_internal (fragsOf (chainOf s (headOf s i))) k = true) :
    insert s i k v =
      (true, setFrag (prepare_for_edit s i)
        (headOf (prepare_for_edit s i) i)
        { fragAt (prepare_for_edit s i) (headOf (prepare_for_edit s i) i) with
          deleted_keys := (fragAt (prepare_for_edit s i)
            (headOf (prepare_for_edit s i) i)).deleted_keys.erase k
          key_values := emplaceKV (fragAt (prepare_for_edit s i)
            (headOf (prepare_for_edit s i) i)).key_values k v
          size := (fragAt (prepare_for_edit s i)
            (headOf (prepare_for_edit s i) i)).size + 1 }) := by
  unfold insert; rw [if_neg hc]

theorem emplace_of_contains (s : Sys) (i k : Nat) (v : Val)
    (hc : contains_internal (fragsOf (chainOf s (headOf s i))) k = true) :
    emplace s i k v = (false, s) := by
  unfold emplace; rw [if_pos hc]

theorem emplace_eq_insert (s : Sys) (i k : Nat) (v : Val) :
    emplace s i k v = insert s i k v := rfl

theorem insert_or_assign_eq (s : Sys) (i k : Nat) (v : Val) :
    insert_or_assign s i k v =
      setFrag (prepare_for_edit s i) (headOf (prepare_for_edit s i) i)
        { fragAt (prepare_for_edit s i) (headOf (prepare_for_edit s i) i) with
          size := (fragAt (prepare_for_edit s i)
              (headOf (prepare_for_edit s i) i)).size +
            (if contains_internal
                (fragsOf (chainOf (prepare_for_edit s i)
                  (headOf (prepare_for_edit s i) i))) k
             then 0 else 1)
          deleted_keys := (fragAt (prepare_for_edit s i)
            (headOf (prepare_for_edit s i) i)).deleted_keys.erase k
          key_values := putKV (fragAt (prepare_for_edit s i)
            (headOf (prepare_for_edit s i) i)).key_values k v } := rfl

theorem erase_of_not_contains (s : Sys) (i k : Nat)
    (hc : ¬ contains_internal (fragsOf (chainOf s (headOf s i))) k = true) :
    erase s i k = (false, s) := by
  unfold erase; rw [if_neg hc]

theorem erase_of_contains (s : Sys) (i k : Nat)
    (hc : contains_internal (fragsOf (chainOf s (headOf s i))) k = true) :
    erase s i k =
      (let s1 := prepare_for_edit s i
       let hd := headOf s1 i
       let f1 := { fragAt s1 hd with
                   key_values := eraseKV k (fragAt s1 hd).key_values }
       let s2 := setFrag s1 hd f1
       (true, setFrag s2 hd
        { f1 with
          deleted_keys :=
            if contains_internal (fragsOf (chainOf s2 hd)) k
            then insertSet f1.deleted_keys k else f1.deleted_keys
          size := f1.size - 1 })) := by
  unfold erase; rw [if_pos hc]

theorem detach_internal_of_root (s : Sys) (h : Nat)
    (hp : (fragAt s (headOf s h)).parent = none) :
    detach_internal s h = (false, s) := by
  unfold detach_internal
  dsimp only
  rw [hp]

theorem detach_internal_of_parent (s : Sys) (h : Nat) (q : Nat)
    (hp : (fragAt s (headOf s h)).parent = some q) :
    detach_internal s h =
      (true, setFrag s (headOf s h)
        { fragAt s (headOf s h) with
          key_values :=
            ((fragsOf ((chainOf s (headOf s h)).drop 1)).foldl merge_frag
              ((fragAt s (headOf s h)).key_values,
               (fragAt s (headOf s h)).deleted_keys)).1
          deleted_keys := []
          parent := none }) := by
  unfold detach_internal
  dsimp only
  rw [hp]

theorem move_of_end (s : Sys) (h k : Nat)
    (hf : find (chainOf s (headOf s h)) k = none) :
    move s h k = .error key_error := by
  unfold move
  rw [hf]

theorem move_of_found_unique (s : Sys) (h k : Nat) (fid : Nat) (v : Val)
    (hf : find (chainOf s (headOf s h)) k = some (fid, v))
    (hu : refcount s (headOf s h) = 1 ∧ fid = headOf s h) :
    move s h k = .ok (v, setFrag s fid
      { fragAt s fid with
        key_values := markMoved (fragAt s fid).key_values k }) := by
  unfold move
  rw [hf]
  dsimp only
  rw [if_pos hu]

theorem move_of_found_shared (s : Sys) (h k : Nat) (fid : Nat) (v : Val)
    (hf : find (chainOf s (headOf s h)) k = some (fid, v))
    (hu : ¬ (refcount s (headOf s h) = 1 ∧ fid = headOf s h)) :
    move s h k = .ok (v, s) := by
  unfold move
  rw [hf]
  dsimp only
  rw [if_neg hu]

theorem move_only_of_end (s : Sys) (h k : Nat)
    (hf : find (chainOf s (headOf s h)) k = none) :
    move_only s h k = .error key_error := by
  unfold move_only
  rw [hf]

theorem move_only_of_found_unique (s : Sys) (h k : Nat) (fid : Nat) (v : Val)
    (hf : find (chainOf s (headOf s h)) k = some (fid, v))
    (hu : refcount s (headOf s h) = 1 ∧ fid = headOf s h) :
    move_only s h k = .ok (some v, setFrag s fid
      { fragAt s fid with
        key_values := markMoved (fragAt s fid).key_values k }) := by
  unfold move_only
  rw [hf]
  dsimp only
  rw [if_pos hu]

theorem move_only_of_found_shared (s : Sys) (h k : Nat) (fid : Nat) (v : Val)
    (hf : find (chainOf s (headOf s h)) k = some (fid, v))
    (hu : ¬ (refcount s (headOf s h) = 1 ∧ fid = headOf s h)) :
    move_only s h k = .ok (none, s) := by
  unfold move_only
  rw [hf]
  dsimp only
  rw [if_neg hu]

end lazy_map

namespace lazy_map

/-! ## Frame lemmas: an operation through one handle leaves others alone -/

theorem headOf_setFrag (s : Sys) (m : Nat) (f : Fragment) (j : Nat) :
    headOf (setFrag s m f) j = headOf s j := rfl

theorem fragAt_setFrag_self (s : Sys) (m : Nat) (f : Fragment)
    (hm : m < s.frags.length) : fragAt (setFrag s m f) m = f :=
  getD_set_self _ _ _ _ hm

theorem fragAt_setFrag_ne (s : Sys) (m : Nat) (f : Fragment) (j : Nat)
    (hj : j ≠ m) : fragAt (setFrag s m f) j = fragAt s j :=
  getD_set_ne _ _ _ _ _ hj

theorem countP_set_eq {α : Type _} (l : List α) (d : α) (p : α → Bool) :
    ∀ (m : Nat) (f : α), m < l.length → p f = p (l.getD m d) →
      (l.set m f).countP p = l.countP p := by
  induction l with
  | nil => intro m f hm; simp at hm
  | cons a t ih =>
    intro m f hm hpf
    cases m with
    | zero =>
      rw [List.set_cons_zero, List.countP_cons, List.countP_cons]
      rw [show p f = p a from hpf]
    | succ n =>
      rw [List.set_cons_succ, List.countP_cons, List.countP_cons,
        ih n f (by simpa using hm) hpf]

theorem refcount_setFrag_same_parent (s : Sys) (m : Nat) (f : Fragment)
    (hm : m < s.frags.length)
    (hpar : f.parent = (fragAt s m).parent) (x : Nat) :
    refcount (setFrag s m f) x = refcount s x := by
  unfold refcount setFrag
  simp only
  rw [countP_set_eq s.frags empty_fragment _ m f hm (by
    simp only [decide_eq_decide]
    rw [hpar]
    rfl)]

theorem unique_set_frame (s : Sys) (i j : Nat) (hwf : WF s)
    (hi : i < s.handles.length) (hj : j < s.handles.length) (hij : i ≠ j)
    (hrc : refcount s (headOf s i) = 1) (F : Fragment) :
    headOf (setFrag s (headOf s i) F) j = headOf s j
    ∧ chainOf (setFrag s (headOf s i) F) (headOf s j) = chainOf s (headOf s j) := by
  refine ⟨rfl, ?_⟩
  exact chainOf_frame_set s _ F _
    (not_mem_chain_of_unique s hwf i j hi hj hij hrc)

theorem prepared_set_frame (s : Sys) (i j : Nat) (hwf : WF s)
    (hi : i < s.handles.length) (hj : j < s.handles.length) (hij : i ≠ j)
    (F : Fragment) :
    headOf (setFrag (prepare_for_edit s i)
      (headOf (prepare_for_edit s i) i) F) j = headOf s j
    ∧ chainOf (setFrag (prepare_for_edit s i)
        (headOf (prepare_for_edit s i) i) F) (headOf s j) =
      chainOf s (headOf s j) := by
  have hwf1 : WF (prepare_for_edit s i) := WF_prepare s i hwf hi
  have hlen : (prepare_for_edit s i).handles.length = s.handles.length :=
    prepare_handles_len s i
  have hrc1 : refcount (prepare_for_edit s i)
      (headOf (prepare_for_edit s i) i) = 1 := refcount_prepare s i hwf hi
  obtain ⟨hh1, hc1⟩ := prepare_frame s i j hwf hj (Ne.symm hij)
  obtain ⟨hh2, hc2⟩ := unique_set_frame (prepare_for_edit s i) i j hwf1
    (by omega) (by omega) hij hrc1 F
  constructor
  · rw [hh2, hh1]
  · rw [← hh1] at hc1 ⊢
    rw [hc2, hc1]

/-- The head of a handle after `prepare_for_edit` is a store index. -/
theorem headOf_prepare_lt (s : Sys) (i : Nat) (hwf : WF s)
    (hi : i < s.handles.length) :
    headOf (prepare_for_edit s i) i < (prepare_for_edit s i).frags.length :=
  (WF_prepare s i hwf hi).headOf_lt (by rw [prepare_handles_len]; exact hi)

theorem applyOp_handles_len (s : Sys) (i : Nat) (o : Op) :
    (applyOp s i o).handles.length = s.handles.length := by
  have hset : ∀ (s2 : Sys) (m : Nat) (f : Fragment),
      (setFrag s2 m f).handles.length = s2.handles.length := fun _ _ _ => rfl
  cases o with
  | ins k v =>
    show (insert s i k v).2.handles.length = _
    by_cases hc : contains_internal (fragsOf (chainOf s (headOf s i))) k = true
    · rw [insert_of_contains s i k v hc]
    · rw [insert_of_not_contains s i k v hc]
      rw [hset, prepare_handles_len]
  | insAssign k v =>
    show (insert_or_assign s i k v).handles.length = _
    rw [insert_or_assign_eq, hset, prepare_handles_len]
  | empl k v =>
    show (emplace s i k v).2.handles.length = _
    rw [emplace_eq_insert]
    by_cases hc : contains_internal (fragsOf (chainOf s (headOf s i))) k = true
    · rw [insert_of_contains s i k v hc]
    · rw [insert_of_not_contains s i k v hc]
      rw [hset, prepare_handles_len]
  | er k =>
    show (erase s i k).2.handles.length = _
    by_cases hc : contains_internal (fragsOf (chainOf s (headOf s i))) k = true
    · rw [erase_of_contains s i k hc]
      show (setFrag _ _ _).handles.length = _
      rw [hset, hset, prepare_handles_len]
    · rw [erase_of_not_contains s i k hc]
  | cl =>
    show (clear s i).handles.length = _
    exact List.length_set _ _ _
  | det =>
    show (detach s i).2.handles.length = _
    unfold detach
    cases hp : (fragAt (prepare_for_edit s i)
        (headOf (prepare_for_edit s i) i)).parent with
    | none =>
      rw [detach_internal_of_root _ _ hp]
      exact prepare_handles_len s i
    | some q =>
      rw [detach_internal_of_parent _ _ q hp]
      show (setFrag _ _ _).handles.length = _
      rw [hset, prepare_handles_len]
  | mv k =>
    show (applyOp s i (Op.mv k)).handles.length = _
    unfold applyOp
    dsimp only
    cases hf : find (chainOf s (headOf s i)) k with
    | none => rw [move_of_end s i k hf]
    | some p =>
      obtain ⟨fid, v⟩ := p
      by_cases hu : refcount s (headOf s i) = 1 ∧ fid = headOf s i
      · rw [move_of_found_unique s i k fid v hf hu]
        rfl
      · rw [move_of_found_shared s i k fid v hf hu]
  | mvOnly k =>
    show (applyOp s i (Op.mvOnly k)).handles.length = _
    unfold applyOp
    dsimp only
    cases hf : find (chainOf s (headOf s i)) k with
    | none => rw [move_only_of_end s i k hf]
    | some p =>
      obtain ⟨fid, v⟩ := p
      by_cases hu : refcount s (headOf s i) = 1 ∧ fid = headOf s i
      · rw [move_only_of_found_unique s i k fid v hf hu]
        rfl
      · rw [move_only_of_found_shared s i k fid v hf hu]

end lazy_map

namespace lazy_map

theorem WF_set_head_keep_parent (s1 : Sys) (i : Nat) (hwf1 : WF s1)
    (hi : i < s1.handles.length) (F : Fragment)
    (hpar : F.parent = (fragAt s1 (headOf s1 i)).parent) :
    WF (setFrag s1 (headOf s1 i) F) := by
  refine WF_setFrag _ _ _ hwf1 ?_
  intro p hp
  rw [hpar] at hp
  exact hwf1.pd (headOf s1 i) (hwf1.headOf_lt hi) p hp

theorem WF_set_set_head (s1 : Sys) (i : Nat) (hwf1 : WF s1)
    (hi : i < s1.handles.length) (F G : Fragment)
    (hF : F.parent = (fragAt s1 (headOf s1 i)).parent)
    (hG : G.parent = F.parent) :
    WF (setFrag (setFrag s1 (headOf s1 i) F) (headOf s1 i) G) := by
  have hwf2 := WF_set_head_keep_parent s1 i hwf1 hi F hF
  have hlt : headOf s1 i < s1.frags.length := hwf1.headOf_lt hi
  refine WF_setFrag _ _ _ hwf2 ?_
  intro p hp
  rw [hG, hF] at hp
  exact hwf1.pd (headOf s1 i) hlt p hp

theorem WF_set_root (s1 : Sys) (m : Nat) (hwf1 : WF s1) (F : Fragment)
    (hpar : F.parent = none) : WF (setFrag s1 m F) := by
  refine WF_setFrag _ _ _ hwf1 ?_
  intro p hp
  rw [hpar] at hp
  cases hp

theorem WF_clear (s : Sys) (i : Nat) (hwf : WF s) : WF (clear s i) := by
  constructor
  · refine ParentsDec_append _ _ hwf.pd ?_
    intro p hp
    cases hp
  · intro x hx
    simp only [clear, List.length_append, List.length_singleton]
    rcases List.mem_or_eq_of_mem_set hx with hx2 | rfl
    · have := hwf.handle_lt hx2; omega
    · omega

theorem applyOp_WF (s : Sys) (i : Nat) (o : Op) (hwf : WF s)
    (hi : i < s.handles.length) : WF (applyOp s i o) := by
  have hwf1 : WF (prepare_for_edit s i) := WF_prepare s i hwf hi
  have hi1 : i < (prepare_for_edit s i).handles.length := by
    rw [prepare_handles_len]; exact hi
  cases o with
  | ins k v =>
    show WF (insert s i k v).2
    by_cases hc : contains_internal (fragsOf (chainOf s (headOf s i))) k = true
    · rw [insert_of_contains s i k v hc]; exact hwf
    · rw [insert_of_not_contains s i k v hc]
      exact WF_set_head_keep_parent _ i hwf1 hi1 _ rfl
  | insAssign k v =>
    show WF (insert_or_assign s i k v)
    rw [insert_or_assign_eq]
    exact WF_set_head_keep_parent _ i hwf1 hi1 _ rfl
  | empl k v =>
    show WF (emplace s i k v).2
    rw [emplace_eq_insert]
    by_cases hc : contains_internal (fragsOf (chainOf s (headOf s i))) k = true
    · rw [insert_of_contains s i k v hc]; exact hwf
    · rw [insert_of_not_contains s i k v hc]
      exact WF_set_head_keep_parent _ i hwf1 hi1 _ rfl
  | er k =>
    show WF (erase s i k).2
    by_cases hc : contains_internal (fragsOf (chainOf s (headOf s i))) k = true
    · rw [erase_of_contains s i k hc]
      exact WF_set_set_head _ i hwf1 hi1 _ _ rfl rfl
    · rw [erase_of_not_contains s i k hc]; exact hwf
  | cl =>
    show WF (clear s i)
    exact WF_clear s i hwf
  | det =>
    show WF (detach s i).2
    unfold detach
    cases hp : (fragAt (prepare_for_edit s i)
        (headOf (prepare_for_edit s i) i)).parent with
    | none => rw [detach_internal_of_root _ _ hp]; exact hwf1
    | some q =>
      rw [detach_internal_of_parent _ _ q hp]
      exact WF_set_root _ _ hwf1 _ rfl
  | mv k =>
    show WF (applyOp s i (Op.mv k))
    unfold applyOp
    dsimp only
    cases hf : find (chainOf s (headOf s i)) k with
    | none => rw [move_of_end s i k hf]; exact hwf
    | some p =>
      obtain ⟨fid, v⟩ := p
      by_cases hu : refcount s (headOf s i) = 1 ∧ fid = headOf s i
      · rw [move_of_found_unique s i k fid v hf hu]
        show WF (setFrag s fid _)
        obtain ⟨hu1, rfl⟩ := hu
        exact WF_set_head_keep_parent s i hwf hi _ rfl
      · rw [move_of_found_shared s i k fid v hf hu]; exact hwf
  | mvOnly k =>
    show WF (applyOp s i (Op.mvOnly k))
    unfold applyOp
    dsimp only
    cases hf : find (chainOf s (headOf s i)) k with
    | none => rw [move_only_of_end s i k hf]; exact hwf
    | some p =>
      obtain ⟨fid, v⟩ := p
      by_cases hu : refcount s (headOf s i) = 1 ∧ fid = headOf s i
      · rw [move_only_of_found_unique s i k fid v hf hu]
        show WF (setFrag s fid _)
        obtain ⟨hu1, rfl⟩ := hu
        exact WF_set_head_keep_parent s i hwf hi _ rfl
      · rw [move_only_of_found_shared s i k fid v hf hu]; exact hwf

theorem prepared_set_set_frame (s : Sys) (i j : Nat) (hwf : WF s)
    (hi : i < s.handles.length) (hj : j < s.handles.length) (hij : i ≠ j)
    (F G : Fragment)
    (hF : F.parent = (fragAt (prepare_for_edit s i)
      (headOf (prepare_for_edit s i) i)).parent) :
    headOf (setFrag (setFrag (prepare_for_edit s i)
      (headOf (prepare_for_edit s i) i) F)
      (headOf (prepare_for_edit s i) i) G) j = headOf s j
    ∧ chainOf (setFrag (setFrag (prepare_for_edit s i)
        (headOf (prepare_for_edit s i) i) F)
        (headOf (prepare_for_edit s i) i) G) (headOf s j) =
      chainOf s (headOf s j) := by
  have hwf1 : WF (prepare_for_edit s i) := WF_prepare s i hwf hi
  have hi1 : i < (prepare_for_edit s i).handles.length := by
    rw [prepare_handles_len]; exact hi
  have hj1 : j < (prepare_for_edit s i).handles.length := by
    rw [prepare_handles_len]; exact hj
  have hwf2 : WF (setFrag (prepare_for_edit s i)
      (headOf (prepare_for_edit s i) i) F) :=
    WF_set_head_keep_parent _ i hwf1 hi1 F hF
  have hrc2 : refcount (setFrag (prepare_for_edit s i)
      (headOf (prepare_for_edit s i) i) F)
      (headOf (prepare_for_edit s i) i) = 1 := by
    rw [refcount_setFrag_same_parent (prepare_for_edit s i)
      (headOf (prepare_for_edit s i) i) F (headOf_prepare_lt s i hwf hi) hF]
    exact refcount_prepare s i hwf hi
  obtain ⟨hhA, hcA⟩ := prepared_set_frame s i j hwf hi hj hij F
  have hnm := not_mem_chain_of_unique
    (setFrag (prepare_for_edit s i) (headOf (prepare_for_edit s i) i) F)
    hwf2 i j hi1 hj1 hij hrc2
  refine ⟨hhA, ?_⟩
  calc chainOf (setFrag (setFrag (prepare_for_edit s i)
          (headOf (prepare_for_edit s i) i) F)
          (headOf (prepare_for_edit s i) i) G) (headOf s j)
      = chainOf (setFrag (setFrag (prepare_for_edit s i)
          (headOf (prepare_for_edit s i) i) F)
          (headOf (prepare_for_edit s i) i) G)
          (headOf (prepare_for_edit s i) j) := by
        rw [(prepare_frame s i j hwf hj (Ne.symm hij)).1]
    _ = chainOf (setFrag (prepare_for_edit s i)
          (headOf (prepare_for_edit s i) i) F)
          (headOf (prepare_for_edit s i) j) := chainOf_frame_set _ _ G _ hnm
    _ = chainOf (setFrag (prepare_for_edit s i)
          (headOf (prepare_for_edit s i) i) F) (headOf s j) := by
        rw [(prepare_frame s i j hwf hj (Ne.symm hij)).1]
    _ = chainOf s (headOf s j) := hcA

theorem applyOp_frame (s : Sys) (i j : Nat) (o : Op) (hwf : WF s)
    (hi : i < s.handles.length) (hj : j < s.handles.length) (hij : i ≠ j) :
    headOf (applyOp s i o) j = headOf s j
    ∧ chainOf (applyOp s i o) (headOf s j) = chainOf s (headOf s j) := by
  have hwf1 : WF (prepare_for_edit s i) := WF_prepare s i hwf hi
  have hlen1 : (prepare_for_edit s i).handles.length = s.handles.length :=
    prepare_handles_len s i
  have hrc1 : refcount (prepare_for_edit s i)
      (headOf (prepare_for_edit s i) i) = 1 := refcount_prepare s i hwf hi
  cases o with
  | ins k v =>
    show headOf (insert s i k v).2 j = headOf s j
      ∧ chainOf (insert s i k v).2 (headOf s j) = chainOf s (headOf s j)
    by_cases hc : contains_internal (fragsOf (chainOf s (headOf s i))) k = true
    · rw [insert_of_contains s i k v hc]; exact ⟨rfl, rfl⟩
    · rw [insert_of_not_contains s i k v hc]
      exact prepared_set_frame s i j hwf hi hj hij _
  | insAssign k v =>
    show headOf (insert_or_assign s i k v) j = headOf s j
      ∧ chainOf (insert_or_assign s i k v) (headOf s j) = chainOf s (headOf s j)
    rw [insert_or_assign_eq]
    exact prepared_set_frame s i j hwf hi hj hij _
  | empl k v =>
    show headOf (emplace s i k v).2 j = headOf s j
      ∧ chainOf (emplace s i k v).2 (headOf s j) = chainOf s (headOf s j)
    rw [emplace_eq_insert]
    by_cases hc : contains_internal (fragsOf (chainOf s (headOf s i))) k = true
    · rw [insert_of_contains s i k v hc]; exact ⟨rfl, rfl⟩
    · rw [insert_of_not_contains s i k v hc]
      exact prepared_set_frame s i j hwf hi hj hij _
  | er k =>
    show headOf (erase s i k).2 j = headOf s j
      ∧ chainOf (erase s i k).2 (headOf s j) = chainOf s (headOf s j)
    by_cases hc : contains_internal (fragsOf (chainOf s (headOf s i))) k = true
    · rw [erase_of_contains s i k hc]
      exact prepared_set_set_frame s i j hwf hi hj hij _ _ rfl
    · rw [erase_of_not_contains s i k hc]; exact ⟨rfl, rfl⟩
  | cl =>
    show headOf (clear s i) j = headOf s j
      ∧ chainOf (clear s i) (headOf s j) = chainOf s (headOf s j)
    constructor
    · exact getD_set_ne _ _ _ _ _ hij.symm
    · exact chainOf_frame_append s _ _ hwf.pd _ (hwf.headOf_lt hj)
  | det =>
    show headOf (detach s i).2 j = headOf s j
      ∧ chainOf (detach s i).2 (headOf s j) = chainOf s (headOf s j)
    unfold detach
    cases hp : (fragAt (prepare_for_edit s i)
        (headOf (prepare_for_edit s i) i)).parent with
    | none =>
      rw [detach_internal_of_root _ _ hp]
      exact prepare_frame s i j hwf hj (Ne.symm hij)
    | some q =>
      rw [detach_internal_of_parent _ _ q hp]
      exact prepared_set_frame s i j hwf hi hj hij _
  | mv k =>
    show headOf (applyOp s i (Op.mv k)) j = headOf s j
      ∧ chainOf (applyOp s i (Op.mv k)) (headOf s j) = chainOf s (headOf s j)
    unfold applyOp
    dsimp only
    cases hf : find (chainOf s (headOf s i)) k with
    | none => rw [move_of_end s i k hf]; exact ⟨rfl, rfl⟩
    | some p =>
      obtain ⟨fid, v⟩ := p
      by_cases hu : refcount s (headOf s i) = 1 ∧ fid = headOf s i
      · rw [move_of_found_unique s i k fid v hf hu]
        show headOf (setFrag s fid _) j = _ ∧ _
        obtain ⟨hu1, rfl⟩ := hu
        exact unique_set_frame s i j hwf hi hj hij hu1 _
      · rw [move_of_found_shared s i k fid v hf hu]; exact ⟨rfl, rfl⟩
  | mvOnly k =>
    show headOf (applyOp s i (Op.mvOnly k)) j = headOf s j
      ∧ chainOf (applyOp s i (Op.mvOnly k)) (headOf s j) = chainOf s (headOf s j)
    unfold applyOp
    dsimp only
    cases hf : find (chainOf s (headOf s i)) k with
    | none => rw [move_only_of_end s i k hf]; exact ⟨rfl, rfl⟩
    | some p =>
      obtain ⟨fid, v⟩ := p
      by_cases hu : refcount s (headOf s i) = 1 ∧ fid = headOf s i
      · rw [move_only_of_found_unique s i k fid v hf hu]
        show headOf (setFrag s fid _) j = _ ∧ _
        obtain ⟨hu1, rfl⟩ := hu
        exact unique_set_frame s i j hwf hi hj hij hu1 _
      · rw [move_only_of_found_shared s i k fid v hf hu]; exact ⟨rfl, rfl⟩

end lazy_map

namespace lazy_map

theorem applyOps_cons (s : Sys) (i : Nat) (o : Op) (rest : List Op) :
    applyOps s i (o :: rest) = applyOps (applyOp s i o) i rest := rfl

theorem fragAt_eq_of_chainOf_eq (s2 s : Sys) (a b : Nat)
    (h : chainOf s2 a = chainOf s b) : fragAt s2 a = fragAt s b := by
  have h0 := congrArg (fun l => l.head?) h
  unfold chainOf at h0
  rw [chainIdx_succ, chainIdx_succ] at h0
  simp only [List.map_cons, List.head?_cons, Option.some.injEq,
    Prod.mk.injEq] at h0
  exact h0.2

theorem applyOps_frame (ops : List Op) (s : Sys) (i j : Nat) (hwf : WF s)
    (hi : i < s.handles.length) (hj : j < s.handles.length) (hij : i ≠ j) :
    headOf (applyOps s i ops) j = headOf s j
    ∧ chainOf (applyOps s i ops) (headOf (applyOps s i ops) j) =
        chainOf s (headOf s j)
    ∧ WF (applyOps s i ops)
    ∧ (applyOps s i ops).handles.length = s.handles.length := by
  induction ops generalizing s with
  | nil => exact ⟨rfl, rfl, hwf, rfl⟩
  | cons o rest ih =>
    have h1 := applyOp_frame s i j o hwf hi hj hij
    have hwf1 := applyOp_WF s i o hwf hi
    have hlen := applyOp_handles_len s i o
    obtain ⟨ihh, ihc, ihwf, ihlen⟩ :=
      ih (applyOp s i o) hwf1 (by omega) (by omega)
    rw [applyOps_cons]
    refine ⟨ihh.trans h1.1, ?_, ihwf, by omega⟩
    rw [ihc, h1.1]
    exact h1.2

end lazy_map

open lazy_map in
/-- **C1**.  Copies are isolated: for any well-formed store and two distinct
handles `i` and `j` (in particular when `j` was created as a copy of `i`,
sharing its head), any sequence of mutating operations applied through
handle `i` — `insert`, `insert_or_assign`, `emplace`, `erase`, `clear`,
`detach`, `move`, `move_only` — changes none of handle `j`'s observables:
`contains`, `at`, `find`, `size`, `get_depth`, and the full list of
key-value pairs its iteration yields.  The statement is symmetric in `i`
and `j`, so mutations on the copy equally leave the original untouched. -/
theorem C1_copy_isolation (s : Sys) (i j : Nat) (ops : List Op)
    (hwf : WF s) (hi : i < s.handles.length) (hj : j < s.handles.length)
    (hij : i ≠ j) :
    (∀ k, contains (applyOps s i ops) j k = contains s j k)
    ∧ (∀ k, at_key (chainOf (applyOps s i ops) (headOf (applyOps s i ops) j)) k
        = at_key (chainOf s (headOf s j)) k)
    ∧ (∀ k, find (chainOf (applyOps s i ops) (headOf (applyOps s i ops) j)) k
        = find (chainOf s (headOf s j)) k)
    ∧ size (applyOps s i ops) j = size s j
    ∧ get_depth (applyOps s i ops) j = get_depth s j
    ∧ iterPairs (chainOf (applyOps s i ops) (headOf (applyOps s i ops) j))
        = iterPairs (chainOf s (headOf s j)) := by
  obtain ⟨hh, hc, hwf2, hlen⟩ := applyOps_frame ops s i j hwf hi hj hij
  refine ⟨?_, ?_, ?_, ?_, ?_, ?_⟩
  · intro k; unfold contains; rw [hc]
  · intro k; rw [hc]
  · intro k; rw [hc]
  · unfold size
    rw [hh, fragAt_eq_of_chainOf_eq _ _ _ _ (hh ▸ hc)]
  · unfold get_depth
    rw [hc]
  · rw [hc]

open lazy_map in
/-- Witness for C1: a store where handle 1 is a copy of handle 0 (both
heads are the root fragment), and a concrete operation sequence through
handle 0. -/
theorem C1_copy_isolation_witness :
    (WF sampleShared ∧ 0 < sampleShared.handles.length
      ∧ 1 < sampleShared.handles.length ∧ (0 : Nat) ≠ 1)
    ∧ ((∀ k, contains (applyOps sampleShared 0
          [Op.ins 3 (30, false), Op.er 1, Op.det]) 1 k =
          contains sampleShared 1 k)
       ∧ (∀ k, at_key (chainOf (applyOps sampleShared 0
            [Op.ins 3 (30, false), Op.er 1, Op.det])
            (headOf (applyOps sampleShared 0
              [Op.ins 3 (30, false), Op.er 1, Op.det]) 1)) k
          = at_key (chainOf sampleShared (headOf sampleShared 1)) k)
       ∧ (∀ k, find (chainOf (applyOps sampleShared 0
            [Op.ins 3 (30, false), Op.er 1, Op.det])
            (headOf (applyOps sampleShared 0
              [Op.ins 3 (30, false), Op.er 1, Op.det]) 1)) k
          = find (chainOf sampleShared (headOf sampleShared 1)) k)
       ∧ size (applyOps sampleShared 0
            [Op.ins 3 (30, false), Op.er 1, Op.det]) 1 = size sampleShared 1
       ∧ get_depth (applyOps sampleShared 0
            [Op.ins 3 (30, false), Op.er 1, Op.det]) 1 =
          get_depth sampleShared 1
       ∧ iterPairs (chainOf (applyOps sampleShared 0
            [Op.ins 3 (30, false), Op.er 1, Op.det])
            (headOf (applyOps sampleShared 0
              [Op.ins 3 (30, false), Op.er 1, Op.det]) 1))
          = iterPairs (chainOf sampleShared (headOf sampleShared 1))) :=
  ⟨⟨by decide, by decide, by decide, by decide⟩,
   C1_copy_isolation sampleShared 0 1 [Op.ins 3 (30, false), Op.er 1, Op.det]
     (by decide) (by decide) (by decide) (by decide)⟩

open lazy_map in
/-- Counterexample to C2 as stated.  The claim says `detach()` returns
false on a handle whose head has no parent "regardless of whether that head
fragment is shared with other handles".  In the source, `detach()` runs
`prepare_for_edit()` *before* `detach_internal()` checks for a parent, so
on a shared parentless head a fresh head is chained on first and the check
then sees a parent: here handle 0's head has no parent and is shared
(use count 2), yet `detach` returns true. -/
theorem C2_counterexample :
    (fragAt sampleShared (headOf sampleShared 0)).parent = none
    ∧ refcount sampleShared (headOf sampleShared 0) ≠ 1
    ∧ (detach sampleShared 0).1 = true := by decide

open lazy_map in
/-- **C2 (amended)**.  `detach()` returns false iff the head fragment
already has no parent *and* is uniquely owned: `detach` first runs
prepare-for-edit, so when the head is shared a new head whose parent is the
old head is pushed and `detach` then returns true, even if the old head had
no parent. -/
theorem C2_detach_false_iff (s : Sys) (h : Nat) (hh : h < s.handles.length) :
    (detach s h).1 = false ↔
      ((fragAt s (headOf s h)).parent = none
       ∧ refcount s (headOf s h) = 1) := by
  unfold detach
  by_cases hrc : refcount s (headOf s h) = 1
  · rw [prepare_of_unique s h hrc]
    cases hp : (fragAt s (headOf s h)).parent with
    | none =>
      rw [detach_internal_of_root s h hp]
      simp [hp, hrc]
    | some q =>
      rw [detach_internal_of_parent s h q hp]
      simp [hp]
  · have hp1 : (fragAt (prepare_for_edit s h)
        (headOf (prepare_for_edit s h) h)).parent = some (headOf s h) := by
      rw [headOf_prepare_shared s h hh hrc, fragAt_prepare_shared s h hrc]
    rw [detach_internal_of_parent _ h _ hp1]
    simp [hrc]

open lazy_map in
/-- Witness for the amended C2 at a uniquely-owned parentless head. -/
theorem C2_detach_false_iff_witness :
    0 < sampleUnique.handles.length
    ∧ ((detach sampleUnique 0).1 = false ↔
        ((fragAt sampleUnique (headOf sampleUnique 0)).parent = none
         ∧ refcount sampleUnique (headOf sampleUnique 0) = 1)) :=
  ⟨by decide, C2_detach_false_iff sampleUnique 0 (by decide)⟩

open lazy_map in
/-- Counterexample to C9 as stated.  The claim says every mutating
operation except `clear` first performs prepare-for-edit, so that on a
shared head a new fragment is pushed and `depth()` increases by exactly
one.  In the source, `insert` (like `emplace` and `erase`) returns early
*without* prepare-for-edit when it does not mutate: here handle 0's head is
shared and `insert` of an existing key leaves the store — and the depth —
entirely unchanged. -/
theorem C9_counterexample :
    refcount sampleShared (headOf sampleShared 0) ≠ 1
    ∧ (insert sampleShared 0 1 (99, false)).2 = sampleShared
    ∧ get_depth (insert sampleShared 0 1 (99, false)).2 0 =
        get_depth sampleShared 0 := by decide

open lazy_map in
/-- **C9 (amended)**.  Prepare-for-edit itself behaves exactly as claimed:
on a shared (not uniquely owned) head it pushes a new fragment with empty
locals and tombstones whose parent is the old head and whose size equals
the old head's size, and the new fragment becomes the head, so `depth()`
grows by exactly one; on a uniquely owned head it changes nothing.  What
the original claim overstates is only the preamble: `insert`, `emplace`
and `erase` skip prepare-for-edit on their early-return (non-mutating)
paths, and `move`/`move_only` never call it (they only test uniqueness). -/
theorem C9_prepare_for_edit_spec (s : Sys) (h : Nat) (hwf : WF s)
    (hh : h < s.handles.length) :
    (refcount s (headOf s h) = 1 → prepare_for_edit s h = s)
    ∧ (refcount s (headOf s h) ≠ 1 →
        headOf (prepare_for_edit s h) h = s.frags.length
        ∧ fragAt (prepare_for_edit s h) (headOf (prepare_for_edit s h) h) =
            ⟨[], [], some (headOf s h), (fragAt s (headOf s h)).size⟩
        ∧ refcount (prepare_for_edit s h)
            (headOf (prepare_for_edit s h) h) = 1
        ∧ get_depth (prepare_for_edit s h) h = get_depth s h + 1) := by
  refine ⟨prepare_of_unique s h, fun hrc => ?_⟩
  refine ⟨headOf_prepare_shared s h hh hrc, ?_,
    refcount_prepare s h hwf hh, ?_⟩
  · rw [headOf_prepare_shared s h hh hrc]
    exact fragAt_prepare_shared s h hrc
  · unfold get_depth
    rw [chain_prepare_shared s h hwf hh hrc]
    have hne : chainOf s (headOf s h) ≠ [] := chainOf_ne_nil s _
    have hlp : 1 ≤ (chainOf s (headOf s h)).length := List.length_pos.2 hne
    rw [List.length_cons]
    omega

open lazy_map in
/-- Witness for the amended C9 at a shared head. -/
theorem C9_prepare_for_edit_spec_witness :
    (WF sampleShared ∧ 0 < sampleShared.handles.length)
    ∧ ((refcount sampleShared (headOf sampleShared 0) = 1 →
          prepare_for_edit sampleShared 0 = sampleShared)
       ∧ (refcount sampleShared (headOf sampleShared 0) ≠ 1 →
            headOf (prepare_for_edit sampleShared 0) 0 =
              sampleShared.frags.length
            ∧ fragAt (prepare_for_edit sampleShared 0)
                (headOf (prepare_for_edit sampleShared 0) 0) =
                ⟨[], [], some (headOf sampleShared 0),
                  (fragAt sampleShared (headOf sampleShared 0)).size⟩
            ∧ refcount (prepare_for_edit sampleShared 0)
                (headOf (prepare_for_edit sampleShared 0) 0) = 1
            ∧ get_depth (prepare_for_edit sampleShared 0) 0 =
                get_depth sampleShared 0 + 1)) :=
  ⟨⟨by decide, by decide⟩,
   C9_prepare_for_edit_spec sampleShared 0 (by decide) (by decide)⟩

open lazy_map in
/-- Witness for C7 on a concrete two-fragment chain with a shadowed binding
(key 1) and a tombstone (key 2). -/
theorem C7_iteration_exact_witness :
    (∀ f ∈ fragsOf sampleChain, (f.key_values.map Prod.fst).Nodup)
    ∧ (((iterPairs sampleChain).map Prod.fst).Nodup
       ∧ (∀ k, k ∈ (iterPairs sampleChain).map Prod.fst ↔
           contains_internal (fragsOf sampleChain) k = true)
       ∧ (∀ pos f, (fragsOf sampleChain)[pos]? = some f →
           ∀ e ∈ f.key_values,
           ((pos, e.1, e.2) ∈ iterTrace sampleChain ↔
             should_ignore_key ((fragsOf sampleChain).take pos) e.1
               = false))) :=
  ⟨by decide, C7_iteration_exact sampleChain (by decide)⟩

namespace lazy_map

/-! ## The ancestor merge of detach_internal -/

theorem resolve3_cons (f : Fragment) (rest : List Fragment) (k : Nat) :
    resolve3 (f :: rest) k =
      match lookupKV k f.key_values with
      | some v => some (some v)
      | none => if k ∈ f.deleted_keys then some none
                else resolve3 rest k := rfl

theorem resolve3_append (L M : List Fragment) (k : Nat) :
    resolve3 (L ++ M) k =
      match resolve3 L k with
      | some r => some r
      | none => resolve3 M k := by
  induction L with
  | nil => rfl
  | cons f rest ih =>
    rw [List.cons_append, resolve3_cons, resolve3_cons]
    cases hl : lookupKV k f.key_values with
    | some v => rfl
    | none =>
      by_cases hd : k ∈ f.deleted_keys
      · rw [if_pos hd, if_pos hd]
      · rw [if_neg hd, if_neg hd, ih]

theorem findVal_eq_resolve3 (L : List Fragment) (k : Nat) :
    findVal L k = (resolve3 L k).bind id := by
  induction L with
  | nil => rfl
  | cons f rest ih =>
    rw [findVal_cons, resolve3_cons]
    cases hl : lookupKV k f.key_values with
    | some v => rfl
    | none =>
      by_cases hd : k ∈ f.deleted_keys
      · rw [if_pos hd, if_pos hd]; rfl
      · rw [if_neg hd, if_neg hd, ih]

theorem resolve3_singleton (f : Fragment) (k : Nat) :
    resolve3 [f] k =
      match lookupKV k f.key_values with
      | some v => some (some v)
      | none => if k ∈ f.deleted_keys then some none else none := rfl

theorem lookup_eq_resolve3_singleton (f : Fragment) (k : Nat) :
    lookupKV k f.key_values = (resolve3 [f] k).bind id := by
  rw [resolve3_singleton]
  cases hl : lookupKV k f.key_values with
  | some v => rfl
  | none =>
    by_cases hd : k ∈ f.deleted_keys
    · rw [if_pos hd]; rfl
    · rw [if_neg hd]; rfl

theorem resolve3_singleton_cut (f : Fragment) (k : Nat)
    (h : resolve3 [f] k = some none) :
    lookupKV k f.key_values = none ∧ k ∈ f.deleted_keys := by
  rw [resolve3_singleton] at h
  cases hl : lookupKV k f.key_values with
  | some v => rw [hl] at h; simp at h
  | none =>
    rw [hl] at h
    by_cases hd : k ∈ f.deleted_keys
    · exact ⟨rfl, hd⟩
    · rw [if_neg hd] at h; cases h

theorem resolve3_singleton_through (f : Fragment) (k : Nat)
    (h : resolve3 [f] k = none) :
    lookupKV k f.key_values = none ∧ k ∉ f.deleted_keys := by
  rw [resolve3_singleton] at h
  cases hl : lookupKV k f.key_values with
  | some v => rw [hl] at h; cases h
  | none =>
    rw [hl] at h
    by_cases hd : k ∈ f.deleted_keys
    · rw [if_pos hd] at h; cases h
    · exact ⟨rfl, hd⟩

theorem inner_fold_lookup (entries : List (Nat × Val)) :
    ∀ (kvAcc : List (Nat × Val)) (del : List Nat) (k : Nat),
      lookupKV k (entries.foldl
        (fun acc e => if e.1 ∈ del then acc else emplaceKV acc e.1 e.2)
        kvAcc) =
      (match lookupKV k kvAcc with
       | some v => some v
       | none => if k ∈ del then none else lookupKV k entries) := by
  induction entries with
  | nil =>
    intro kvAcc del k
    rw [List.foldl_nil]
    cases hl : lookupKV k kvAcc with
    | some v => rfl
    | none =>
      by_cases hd : k ∈ del
      · rw [if_pos hd]
      · rw [if_neg hd]; rfl
  | cons e rest ih =>
    intro kvAcc del k
    rw [List.foldl_cons, ih]
    by_cases hk : e.1 = k
    · subst hk
      by_cases hd : e.1 ∈ del
      · rw [if_pos hd]
        cases hl : lookupKV e.1 kvAcc with
        | some v => rfl
        | none => rw [if_pos hd, if_pos hd]
      · rw [if_neg hd]
        cases hl : lookupKV e.1 kvAcc with
        | some v => rw [emplaceKV_of_isSome kvAcc e.1 e.2 (by simp [hl]), hl]
        | none =>
          rw [lookupKV_emplaceKV_self_none kvAcc e.1 e.2 hl]
          simp [hd, lookupKV_cons]
    · by_cases hd : e.1 ∈ del
      · rw [if_pos hd]
        cases hl : lookupKV k kvAcc with
        | some v => rfl
        | none =>
          by_cases hkd : k ∈ del
          · rw [if_pos hkd, if_pos hkd]
          · rw [if_neg hkd, if_neg hkd, lookupKV_cons, if_neg hk]
      · rw [if_neg hd, lookupKV_emplaceKV_ne kvAcc e.1 k e.2 (by omega)]
        cases hl : lookupKV k kvAcc with
        | some v => rfl
        | none =>
          by_cases hkd : k ∈ del
          · rw [if_pos hkd, if_pos hkd]
          · rw [if_neg hkd, if_neg hkd, lookupKV_cons, if_neg hk]

theorem inner_fold_nodup (entries : List (Nat × Val)) :
    ∀ (kvAcc : List (Nat × Val)) (del : List Nat),
      (kvAcc.map Prod.fst).Nodup →
      ((entries.foldl
        (fun acc e => if e.1 ∈ del then acc else emplaceKV acc e.1 e.2)
        kvAcc).map Prod.fst).Nodup := by
  induction entries with
  | nil => intro kvAcc del h; exact h
  | cons e rest ih =>
    intro kvAcc del h
    rw [List.foldl_cons]
    refine ih _ del ?_
    by_cases hd : e.1 ∈ del
    · rw [if_pos hd]; exact h
    · rw [if_neg hd]; exact nodup_keys_emplaceKV kvAcc e.1 e.2 h

theorem merge_frag_lookup (st : List (Nat × Val) × List Nat) (p : Fragment)
    (k : Nat) :
    lookupKV k (merge_frag st p).1 =
      (match lookupKV k st.1 with
       | some v => some v
       | none => if k ∈ st.2 then none else lookupKV k p.key_values) :=
  inner_fold_lookup p.key_values st.1 st.2 k

theorem merge_frag_del (st : List (Nat × Val) × List Nat) (p : Fragment)
    (k : Nat) :
    k ∈ (merge_frag st p).2 ↔ k ∈ st.2 ∨ k ∈ p.deleted_keys :=
  mem_foldl_insertSet p.deleted_keys st.2 k

theorem merge_fold_main (anc : List Fragment) :
    ∀ (st : List (Nat × Val) × List Nat) (R : Nat → Option (Option Val)),
      (∀ k, lookupKV k st.1 = (R k).bind id) →
      (∀ k, R k = some none → k ∈ st.2) →
      (∀ k, R k = none → k ∉ st.2) →
      ∀ k, lookupKV k (anc.foldl merge_frag st).1 =
        ((match R k with
          | some r => some r
          | none => resolve3 anc k) : Option (Option Val)).bind id := by
  induction anc with
  | nil =>
    intro st R h1 _ _ k
    rw [List.foldl_nil, h1 k]
    cases hR : R k with
    | some r => rfl
    | none => rfl
  | cons p rest ih =>
    intro st R h1 h2 h3 k
    rw [List.foldl_cons]
    have hA : ∀ k2, lookupKV k2 (merge_frag st p).1 =
        ((match R k2 with
          | some r => some r
          | none => resolve3 [p] k2) : Option (Option Val)).bind id := by
      intro k2
      rw [merge_frag_lookup st p k2, h1 k2]
      cases hR : R k2 with
      | some r =>
        cases r with
        | some v => rfl
        | none =>
          show (if k2 ∈ st.2 then none else lookupKV k2 p.key_values) = _
          rw [if_pos (h2 k2 hR)]
          rfl
      | none =>
        show (if k2 ∈ st.2 then none else lookupKV k2 p.key_values) = _
        rw [if_neg (h3 k2 hR), lookup_eq_resolve3_singleton p k2]
    have hB : ∀ k2, ((match R k2 with
        | some r => some r
        | none => resolve3 [p] k2) : Option (Option Val)) = some none →
        k2 ∈ (merge_frag st p).2 := by
      intro k2 hcut
      rw [merge_frag_del]
      cases hR : R k2 with
      | some r =>
        rw [hR] at hcut
        injection hcut with hr
        exact Or.inl (h2 k2 (by rw [hR, hr]))
      | none =>
        rw [hR] at hcut
        exact Or.inr (resolve3_singleton_cut p k2 hcut).2
    have hC : ∀ k2, ((match R k2 with
        | some r => some r
        | none => resolve3 [p] k2) : Option (Option Val)) = none →
        k2 ∉ (merge_frag st p).2 := by
      intro k2 hthr
      rw [merge_frag_del]
      cases hR : R k2 with
      | some r => rw [hR] at hthr; cases hthr
      | none =>
        rw [hR] at hthr
        push_neg
        exact ⟨h3 k2 hR, (resolve3_singleton_through p k2 hthr).2⟩
    have hmain := ih (merge_frag st p)
      (fun k2 => match R k2 with
        | some r => some r
        | none => resolve3 [p] k2) hA hB hC k
    rw [hmain]
    have hsplit : resolve3 (p :: rest) k =
        match resolve3 [p] k with
        | some r => some r
        | none => resolve3 rest k := by
      rw [show p :: rest = [p] ++ rest from rfl, resolve3_append]
    show ((match (match R k with
          | some r => some r
          | none => resolve3 [p] k) with
        | some r => some r
        | none => resolve3 rest k) : Option (Option Val)).bind id =
      ((match R k with
        | some r => some r
        | none => resolve3 (p :: rest) k) : Option (Option Val)).bind id
    rw [hsplit]
    cases hR : R k with
    | some r => rfl
    | none => rfl

theorem merge_fold_nodup (anc : List Fragment) :
    ∀ (st : List (Nat × Val) × List Nat),
      (st.1.map Prod.fst).Nodup →
      (((anc.foldl merge_frag st).1).map Prod.fst).Nodup := by
  induction anc with
  | nil => intro st h; exact h
  | cons p rest ih =>
    intro st h
    rw [List.foldl_cons]
    exact ih (merge_frag st p) (inner_fold_nodup p.key_values st.1 st.2 h)

end lazy_map

namespace lazy_map

/-! ## detach preserves the logical view -/

theorem head_frag_mem (s : Sys) (i : Nat) :
    fragAt s i ∈ fragsOf (chainOf s i) := by
  unfold chainOf fragsOf
  rw [chainIdx_succ]
  simp

theorem findVal_singleton_no_del (F : Fragment) (hdel : F.deleted_keys = [])
    (k : Nat) : findVal [F] k = lookupKV k F.key_values := by
  rw [findVal_cons]
  cases hl : lookupKV k F.key_values with
  | some v => rfl
  | none => rw [hdel]; simp [findVal]

/-- The heart of detach: after `detach_internal` merges every ancestor into
the head (given the head has a parent), the head's local table resolves
every key exactly as the whole original chain did. -/
theorem detach_internal_findVal (s1 : Sys) (h : Nat) (hwf1 : WF s1)
    (hh : h < s1.handles.length) (q : Nat)
    (hp : (fragAt s1 (headOf s1 h)).parent = some q) (k : Nat) :
    findVal (fragsOf (chainOf (detach_internal s1 h).2
        (headOf (detach_internal s1 h).2 h))) k =
      findVal (fragsOf (chainOf s1 (headOf s1 h))) k := by
  rw [detach_internal_of_parent s1 h q hp]
  have hlt : headOf s1 h < s1.frags.length := hwf1.headOf_lt hh
  have hchain : chainOf s1 (headOf s1 h) =
      (headOf s1 h, fragAt s1 (headOf s1 h)) :: chainOf s1 q :=
    chainOf_cons_parent s1 (headOf s1 h) q hwf1.pd hlt hp
  have hfa : fragAt (setFrag s1 (headOf s1 h)
      { fragAt s1 (headOf s1 h) with
        key_values := ((fragsOf ((chainOf s1 (headOf s1 h)).drop 1)).foldl
          merge_frag ((fragAt s1 (headOf s1 h)).key_values,
            (fragAt s1 (headOf s1 h)).deleted_keys)).1
        deleted_keys := []
        parent := none }) (headOf s1 h) =
      { fragAt s1 (headOf s1 h) with
        key_values := ((fragsOf ((chainOf s1 (headOf s1 h)).drop 1)).foldl
          merge_frag ((fragAt s1 (headOf s1 h)).key_values,
            (fragAt s1 (headOf s1 h)).deleted_keys)).1
        deleted_keys := []
        parent := none } :=
    fragAt_setFrag_self _ _ _ hlt
  show findVal (fragsOf (chainOf (setFrag s1 (headOf s1 h) _)
      (headOf s1 h))) k = _
  rw [chainOf_root _ _ (by rw [hfa])]
  show findVal [_] k = _
  rw [hfa, findVal_singleton_no_del _ rfl k]
  show lookupKV k ((fragsOf ((chainOf s1 (headOf s1 h)).drop 1)).foldl
      merge_frag ((fragAt s1 (headOf s1 h)).key_values,
        (fragAt s1 (headOf s1 h)).deleted_keys)).1 = _
  have hanc : fragsOf ((chainOf s1 (headOf s1 h)).drop 1) =
      fragsOf (chainOf s1 q) := by rw [hchain]; rfl
  rw [hanc]
  have hmain := merge_fold_main (fragsOf (chainOf s1 q))
    ((fragAt s1 (headOf s1 h)).key_values,
     (fragAt s1 (headOf s1 h)).deleted_keys)
    (resolve3 [fragAt s1 (headOf s1 h)])
    (fun k2 => lookup_eq_resolve3_singleton (fragAt s1 (headOf s1 h)) k2)
    (fun k2 hc => (resolve3_singleton_cut _ k2 hc).2)
    (fun k2 ht => (resolve3_singleton_through _ k2 ht).2)
    k
  rw [hmain]
  have hsplit : resolve3 (fragsOf (chainOf s1 (headOf s1 h))) k =
      match resolve3 [fragAt s1 (headOf s1 h)] k with
      | some r => some r
      | none => resolve3 (fragsOf (chainOf s1 q)) k := by
    rw [hchain]
    show resolve3 (fragAt s1 (headOf s1 h) :: fragsOf (chainOf s1 q)) k = _
    rw [show fragAt s1 (headOf s1 h) :: fragsOf (chainOf s1 q) =
      [fragAt s1 (headOf s1 h)] ++ fragsOf (chainOf s1 q) from rfl]
    exact resolve3_append _ _ k
  rw [findVal_eq_resolve3, hsplit]

/-- After the merge, the head's table keys are duplicate-free provided the
old head's were. -/
theorem detach_internal_nodup (s1 : Sys) (h : Nat) (q : Nat)
    (hp : (fragAt s1 (headOf s1 h)).parent = some q)
    (hnd : ((fragAt s1 (headOf s1 h)).key_values.map Prod.fst).Nodup) :
    ((((fragsOf ((chainOf s1 (headOf s1 h)).drop 1)).foldl merge_frag
      ((fragAt s1 (headOf s1 h)).key_values,
       (fragAt s1 (headOf s1 h)).deleted_keys)).1).map Prod.fst).Nodup :=
  merge_fold_nodup _ _ hnd

theorem at_key_eq_of_findVal_eq (c c2 : Chain) (k : Nat)
    (h : findVal (fragsOf c) k = findVal (fragsOf c2) k) :
    at_key c k = at_key c2 k := by
  unfold at_key
  have h1 := findVal_eq_find c k
  have h2 := findVal_eq_find c2 k
  rw [h1, h2] at h
  cases hf : find c k with
  | none =>
    cases hf2 : find c2 k with
    | none => rfl
    | some p => rw [hf, hf2] at h; simp at h
  | some p =>
    cases hf2 : find c2 k with
    | none => rw [hf, hf2] at h; simp at h
    | some p2 =>
      rw [hf, hf2] at h
      obtain ⟨i1, v1⟩ := p
      obtain ⟨i2, v2⟩ := p2
      simp at h
      rw [h]

theorem mem_iterPairs_iff_findVal (c : Chain)
    (hnd : ∀ f ∈ fragsOf c, (f.key_values.map Prod.fst).Nodup)
    (k : Nat) (v : Val) :
    (k, v) ∈ iterPairs c ↔ findVal (fragsOf c) k = some v := by
  unfold iterPairs iterTrace
  constructor
  · intro hm
    rcases List.mem_map.1 hm with ⟨t, hmt, hta⟩
    obtain ⟨a, b, w⟩ := t
    have hb : b = k := congrArg Prod.fst hta
    have hw : w = v := congrArg Prod.snd hta
    subst hb; subst hw
    exact ((iterTraceAux_key_spec (fragsOf c) [] 0 b w hnd).1 ⟨a, hmt⟩).2
  · intro hf
    obtain ⟨pos, hpos⟩ := (iterTraceAux_key_spec (fragsOf c) [] 0 k v hnd).2
      ⟨should_ignore_key_nil k, hf⟩
    exact List.mem_map.2 ⟨(pos, k, v), hpos, rfl⟩

theorem prepare_findVal (s : Sys) (h : Nat) (hwf : WF s)
    (hh : h < s.handles.length) (k : Nat) :
    findVal (fragsOf (chainOf (prepare_for_edit s h)
        (headOf (prepare_for_edit s h) h))) k =
      findVal (fragsOf (chainOf s (headOf s h))) k := by
  by_cases hrc : refcount s (headOf s h) = 1
  · rw [prepare_of_unique s h hrc]
  · rw [chain_prepare_shared s h hwf hh hrc]
    show findVal ((⟨[], [], some (headOf s h),
      (fragAt s (headOf s h)).size⟩ : Fragment) ::
        fragsOf (chainOf s (headOf s h))) k = _
    exact findVal_cons_empty _ _ _ k

theorem prepare_size (s : Sys) (h : Nat) (hh : h < s.handles.length) :
    size (prepare_for_edit s h) h = size s h := by
  by_cases hrc : refcount s (headOf s h) = 1
  · rw [prepare_of_unique s h hrc]
  · unfold size
    rw [headOf_prepare_shared s h hh hrc, fragAt_prepare_shared s h hrc]

theorem prepare_chain_nodup (s : Sys) (h : Nat) (hwf : WF s)
    (hh : h < s.handles.length)
    (hnd : ∀ f ∈ fragsOf (chainOf s (headOf s h)),
      (f.key_values.map Prod.fst).Nodup) :
    ∀ f ∈ fragsOf (chainOf (prepare_for_edit s h)
        (headOf (prepare_for_edit s h) h)),
      (f.key_values.map Prod.fst).Nodup := by
  by_cases hrc : refcount s (headOf s h) = 1
  · rw [prepare_of_unique s h hrc]; exact hnd
  · rw [chain_prepare_shared s h hwf hh hrc]
    intro f hf
    rcases List.mem_cons.1 hf with rfl | hf2
    · simp
    · exact hnd f hf2

end lazy_map

namespace lazy_map

/-! ## What detach_internal leaves behind -/

theorem refcount_setFrag_iff (s : Sys) (m : Nat) (f : Fragment) (x : Nat)
    (hm : m < s.frags.length)
    (hiff : (f.parent = some x) ↔ ((fragAt s m).parent = some x)) :
    refcount (setFrag s m f) x = refcount s x := by
  unfold refcount setFrag
  simp only
  rw [countP_set_eq s.frags empty_fragment _ m f hm (by
    rw [decide_eq_decide]; exact hiff)]

theorem detach_internal_parent_after (s1 : Sys) (h : Nat) (q : Nat)
    (hlt : headOf s1 h < s1.frags.length)
    (hp : (fragAt s1 (headOf s1 h)).parent = some q) :
    (fragAt (detach_internal s1 h).2
      (headOf (detach_internal s1 h).2 h)).parent = none := by
  rw [detach_internal_of_parent s1 h q hp]
  show (fragAt (setFrag s1 (headOf s1 h) _) (headOf s1 h)).parent = none
  rw [fragAt_setFrag_self _ _ _ hlt]

theorem detach_internal_size_after (s1 : Sys) (h : Nat) (q : Nat)
    (hlt : headOf s1 h < s1.frags.length)
    (hp : (fragAt s1 (headOf s1 h)).parent = some q) :
    (fragAt (detach_internal s1 h).2
      (headOf (detach_internal s1 h).2 h)).size =
      (fragAt s1 (headOf s1 h)).size := by
  rw [detach_internal_of_parent s1 h q hp]
  show (fragAt (setFrag s1 (headOf s1 h) _) (headOf s1 h)).size = _
  rw [fragAt_setFrag_self _ _ _ hlt]

theorem detach_internal_chain_nodup (s1 : Sys) (h : Nat) (q : Nat)
    (hlt : headOf s1 h < s1.frags.length)
    (hp : (fragAt s1 (headOf s1 h)).parent = some q)
    (hnd : ((fragAt s1 (headOf s1 h)).key_values.map Prod.fst).Nodup) :
    ∀ f ∈ fragsOf (chainOf (detach_internal s1 h).2
        (headOf (detach_internal s1 h).2 h)),
      (f.key_values.map Prod.fst).Nodup := by
  rw [detach_internal_of_parent s1 h q hp]
  show ∀ f ∈ fragsOf (chainOf (setFrag s1 (headOf s1 h) _) (headOf s1 h)), _
  rw [chainOf_root _ _ (by rw [fragAt_setFrag_self _ _ _ hlt])]
  intro f hf
  rw [show fragsOf [((headOf s1 h),
    fragAt (setFrag s1 (headOf s1 h) _) (headOf s1 h))] =
    [fragAt (setFrag s1 (headOf s1 h) _) (headOf s1 h)] from rfl] at hf
  rw [List.mem_singleton] at hf
  subst hf
  rw [fragAt_setFrag_self _ _ _ hlt]
  exact detach_internal_nodup s1 h q hp hnd

theorem detach_internal_refcount (s1 : Sys) (h : Nat) (q : Nat)
    (pd : ParentsDec s1.frags)
    (hlt : headOf s1 h < s1.frags.length)
    (hp : (fragAt s1 (headOf s1 h)).parent = some q) :
    refcount (detach_internal s1 h).2 (headOf (detach_internal s1 h).2 h) =
      refcount s1 (headOf s1 h) := by
  rw [detach_internal_of_parent s1 h q hp]
  show refcount (setFrag s1 (headOf s1 h) _) (headOf s1 h) = _
  refine refcount_setFrag_iff s1 (headOf s1 h) _ (headOf s1 h) hlt ?_
  have hq : q < headOf s1 h := pd (headOf s1 h) hlt q hp
  constructor
  · intro hx; cases hx
  · intro hx
    rw [hp] at hx
    injection hx with hx
    omega

end lazy_map

open lazy_map in
/-- **C3**.  When `detach()` returns true, afterwards `is_detached()` holds,
an immediately following `detach()` returns false and leaves the store
untouched, and the logical view is identical before and after: `size`,
every `contains`, every `find` result (its value and end-ness), every `at`
result, and the set of (key, value) pairs yielded by a full iteration are
all unchanged.  The duplicate-freeness hypothesis holds for every chain the
container builds, its tables being `unordered_map`s. -/
theorem C3_detach_idempotent_preserving (s : Sys) (h : Nat) (hwf : WF s)
    (hh : h < s.handles.length)
    (hnd : ∀ f ∈ fragsOf (chainOf s (headOf s h)),
      (f.key_values.map Prod.fst).Nodup)
    (hdet : (detach s h).1 = true) :
    is_detached (detach s h).2 h = true
    ∧ detach (detach s h).2 h = (false, (detach s h).2)
    ∧ size (detach s h).2 h = size s h
    ∧ (∀ k, contains (detach s h).2 h k = contains s h k)
    ∧ (∀ k, (find (chainOf (detach s h).2 (headOf (detach s h).2 h)) k).map
          Prod.snd = (find (chainOf s (headOf s h)) k).map Prod.snd)
    ∧ (∀ k, at_key (chainOf (detach s h).2 (headOf (detach s h).2 h)) k
        = at_key (chainOf s (headOf s h)) k)
    ∧ (iterPairs (chainOf (detach s h).2 (headOf (detach s h).2 h))).toFinset
        = (iterPairs (chainOf s (headOf s h))).toFinset := by
  have hwf1 : WF (prepare_for_edit s h) := WF_prepare s h hwf hh
  have hh1 : h < (prepare_for_edit s h).handles.length := by
    rw [prepare_handles_len]; exact hh
  have hrc1 : refcount (prepare_for_edit s h)
      (headOf (prepare_for_edit s h) h) = 1 := refcount_prepare s h hwf hh
  have hlt1 : headOf (prepare_for_edit s h) h <
      (prepare_for_edit s h).frags.length := hwf1.headOf_lt hh1
  cases hp : (fragAt (prepare_for_edit s h)
      (headOf (prepare_for_edit s h) h)).parent with
  | none =>
    exfalso
    unfold detach at hdet
    rw [detach_internal_of_root _ h hp] at hdet
    cases hdet
  | some q =>
    have hkey : ∀ k, findVal (fragsOf (chainOf (detach s h).2
        (headOf (detach s h).2 h))) k =
        findVal (fragsOf (chainOf s (headOf s h))) k := by
      intro k
      have h1 := detach_internal_findVal (prepare_for_edit s h) h hwf1 hh1 q
        hp k
      have h2 := prepare_findVal s h hwf hh k
      show findVal (fragsOf (chainOf
        (detach_internal (prepare_for_edit s h) h).2
        (headOf (detach_internal (prepare_for_edit s h) h).2 h))) k = _
      rw [h1, h2]
    have hpar2 : (fragAt (detach s h).2 (headOf (detach s h).2 h)).parent =
        none :=
      detach_internal_parent_after (prepare_for_edit s h) h q hlt1 hp
    have hrc2 : refcount (detach s h).2 (headOf (detach s h).2 h) = 1 := by
      show refcount (detach_internal (prepare_for_edit s h) h).2
        (headOf (detach_internal (prepare_for_edit s h) h).2 h) = 1
      rw [detach_internal_refcount (prepare_for_edit s h) h q hwf1.pd hlt1 hp]
      exact hrc1
    refine ⟨?_, ?_, ?_, ?_, ?_, ?_, ?_⟩
    · unfold is_detached
      rw [hpar2]
      rfl
    · show detach_internal (prepare_for_edit (detach s h).2 h) h =
        (false, (detach s h).2)
      rw [prepare_of_unique ((detach s h).2) h hrc2]
      exact detach_internal_of_root _ h hpar2
    · show (fragAt (detach s h).2 (headOf (detach s h).2 h)).size = size s h
      have h1 := detach_internal_size_after (prepare_for_edit s h) h q hlt1 hp
      have h2 := prepare_size s h hh
      exact h1.trans h2
    · intro k
      unfold contains
      rw [contains_eq_findVal, contains_eq_findVal, hkey k]
    · intro k
      rw [← findVal_eq_find, ← findVal_eq_find]
      exact hkey k
    · intro k
      exact at_key_eq_of_findVal_eq _ _ k (hkey k)
    · have hndhead : ((fragAt (prepare_for_edit s h)
          (headOf (prepare_for_edit s h) h)).key_values.map Prod.fst).Nodup :=
        prepare_chain_nodup s h hwf hh hnd _ (head_frag_mem _ _)
      have hnd2 : ∀ f ∈ fragsOf (chainOf (detach s h).2
          (headOf (detach s h).2 h)), (f.key_values.map Prod.fst).Nodup :=
        detach_internal_chain_nodup (prepare_for_edit s h) h q hlt1 hp hndhead
      apply Finset.ext
      intro a
      obtain ⟨k, v⟩ := a
      rw [List.mem_toFinset, List.mem_toFinset,
        mem_iterPairs_iff_findVal _ hnd2 k v,
        mem_iterPairs_iff_findVal _ hnd k v, hkey k]

open lazy_map in
/-- Witness for C3: detaching handle 0 of a two-fragment chain. -/
theorem C3_detach_idempotent_preserving_witness :
    (WF sampleChained ∧ 0 < sampleChained.handles.length
     ∧ (∀ f ∈ fragsOf (chainOf sampleChained (headOf sampleChained 0)),
         (f.key_values.map Prod.fst).Nodup)
     ∧ (detach sampleChained 0).1 = true)
    ∧ (is_detached (detach sampleChained 0).2 0 = true
       ∧ detach (detach sampleChained 0).2 0 =
          (false, (detach sampleChained 0).2)
       ∧ size (detach sampleChained 0).2 0 = size sampleChained 0
       ∧ (∀ k, contains (detach sampleChained 0).2 0 k =
          contains sampleChained 0 k)
       ∧ (∀ k, (find (chainOf (detach sampleChained 0).2
            (headOf (detach sampleChained 0).2 0)) k).map Prod.snd =
          (find (chainOf sampleChained (headOf sampleChained 0)) k).map
            Prod.snd)
       ∧ (∀ k, at_key (chainOf (detach sampleChained 0).2
            (headOf (detach sampleChained 0).2 0)) k =
          at_key (chainOf sampleChained (headOf sampleChained 0)) k)
       ∧ (iterPairs (chainOf (detach sampleChained 0).2
            (headOf (detach sampleChained 0).2 0))).toFinset =
          (iterPairs (chainOf sampleChained
            (headOf sampleChained 0))).toFinset) :=
  ⟨⟨by decide, by decide, by decide, by decide⟩,
   C3_detach_idempotent_preserving sampleChained 0 (by decide) (by decide)
     (by decide) (by decide)⟩

namespace lazy_map

/-! ## Replacing the head fragment in place -/

theorem chainOf_head_cons (s : Sys) (i : Nat) :
    chainOf s i = (i, fragAt s i) ::
      ((chainIdx s.frags (i + 1) i).drop 1).map (fun a => (a, fragAt s a)) := by
  unfold chainOf
  rw [chainIdx_succ]
  rfl

theorem chainOf_eq_head_cons_drop (s : Sys) (i : Nat) :
    chainOf s i = (i, fragAt s i) :: (chainOf s i).drop 1 := by
  conv_lhs => rw [chainOf_head_cons]
  rw [chainOf_head_cons]
  rfl

theorem find_head_local (s : Sys) (i k : Nat) (v : Val)
    (hl : lookupKV k (fragAt s i).key_values = some v) :
    find (chainOf s i) k = some (i, v) := by
  rw [chainOf_head_cons, find_cons, hl]

theorem chainOf_setFrag_head (s : Sys) (hd : Nat) (F : Fragment)
    (pd : ParentsDec s.frags) (hlt : hd < s.frags.length)
    (hpar : F.parent = (fragAt s hd).parent) :
    chainOf (setFrag s hd F) hd = (hd, F) :: (chainOf s hd).drop 1 := by
  have hfa : fragAt (setFrag s hd F) hd = F := fragAt_setFrag_self s hd F hlt
  cases hpq : (fragAt s hd).parent with
  | none =>
    rw [chainOf_root s hd hpq, chainOf_root (setFrag s hd F) hd
      (by rw [hfa, hpar, hpq]), hfa]
    rfl
  | some p =>
    have hplt : p < hd := pd hd hlt p hpq
    have hplen : p < s.frags.length := by omega
    have pd2 : ParentsDec (setFrag s hd F).frags := by
      refine ParentsDec_set s.frags hd F pd ?_
      intro pp hpp
      rw [hpar, hpq] at hpp
      injection hpp with hpp
      omega
    have hlen2 : hd < (setFrag s hd F).frags.length := by
      show hd < (s.frags.set hd F).length
      rw [List.length_set]
      exact hlt
    rw [chainOf_cons_parent (setFrag s hd F) hd p pd2 hlen2
      (by rw [hfa, hpar, hpq]), hfa]
    rw [chainOf_cons_parent s hd p pd hlt hpq]
    have hframe : chainOf (setFrag s hd F) p = chainOf s p := by
      refine chainOf_frame_set s hd F p ?_
      intro hmem
      have := mem_chainIdx_le s.frags pd (p + 1) p hplen hd hmem
      omega
    rw [hframe]
    rfl

theorem lookupKV_markMoved_isSome (m : List (Nat × Val)) (k k2 : Nat) :
    (lookupKV k2 (markMoved m k)).isSome = (lookupKV k2 m).isSome := by
  by_cases hk : k2 = k
  · subst hk
    rw [lookupKV_markMoved_self]
    cases lookupKV k2 m <;> rfl
  · rw [lookupKV_markMoved_ne m k k2 hk]

theorem contains_internal_congr_head (f f2 : Fragment) (L : List Fragment)
    (k : Nat)
    (hkv : (lookupKV k f2.key_values).isSome = (lookupKV k f.key_values).isSome)
    (hdel : f2.deleted_keys = f.deleted_keys) :
    contains_internal (f2 :: L) k = contains_internal (f :: L) k := by
  rw [contains_internal_cons, contains_internal_cons, hkv, hdel]

end lazy_map

open lazy_map in
/-- **C8**.  `move(k)` and `move_only(k)` throw KeyNotFound exactly when `k`
is absent from the logical view.  When the head is uniquely owned and `k`
lives directly in the head's locals, both return the value and move it out:
the key stays visible in the head's table, its slot left in the moved-from
state (payload retained, moved-from marker set).  Otherwise `move` returns
the resolved value as a copy and `move_only` returns the empty optional
("not uniquely owned"), both leaving the store completely untouched — no
copy is written anywhere.  In every case the key set (`contains` at every
key) and `size` are unchanged. -/
theorem C8_move_semantics (s : Sys) (h : Nat) (hwf : WF s)
    (hh : h < s.handles.length) :
    (∀ k, contains s h k = false →
      move s h k = .error key_error ∧ move_only s h k = .error key_error)
    ∧ (∀ k v, refcount s (headOf s h) = 1 →
        lookupKV k (fragAt s (headOf s h)).key_values = some v →
        move s h k = .ok (v, setFrag s (headOf s h)
          { fragAt s (headOf s h) with
            key_values := markMoved (fragAt s (headOf s h)).key_values k })
        ∧ move_only s h k = .ok (some v, setFrag s (headOf s h)
            { fragAt s (headOf s h) with
              key_values := markMoved (fragAt s (headOf s h)).key_values k })
        ∧ lookupKV k (fragAt (setFrag s (headOf s h)
            { fragAt s (headOf s h) with
              key_values := markMoved (fragAt s (headOf s h)).key_values k })
            (headOf s h)).key_values = some (v.1, true)
        ∧ (∀ k2, contains (setFrag s (headOf s h)
            { fragAt s (headOf s h) with
              key_values := markMoved (fragAt s (headOf s h)).key_values k })
            h k2 = contains s h k2)
        ∧ size (setFrag s (headOf s h)
            { fragAt s (headOf s h) with
              key_values := markMoved (fragAt s (headOf s h)).key_values k })
            h = size s h)
    ∧ (∀ k fid v, find (chainOf s (headOf s h)) k = some (fid, v) →
        ¬ (refcount s (headOf s h) = 1 ∧ fid = headOf s h) →
        move s h k = .ok (v, s) ∧ move_only s h k = .ok (none, s)) := by
  have hlt : headOf s h < s.frags.length := hwf.headOf_lt hh
  refine ⟨?_, ?_, ?_⟩
  · intro k hc
    unfold contains at hc
    have hf : find (chainOf s (headOf s h)) k = none :=
      (find_eq_none_iff_contains_false _ k).2 hc
    exact ⟨move_of_end s h k hf, move_only_of_end s h k hf⟩
  · intro k v hrc hl
    have hf : find (chainOf s (headOf s h)) k = some (headOf s h, v) :=
      find_head_local s (headOf s h) k v hl
    have hu : refcount s (headOf s h) = 1 ∧ headOf s h = headOf s h :=
      ⟨hrc, rfl⟩
    have hfa : fragAt (setFrag s (headOf s h)
        { fragAt s (headOf s h) with
          key_values := markMoved (fragAt s (headOf s h)).key_values k })
        (headOf s h) =
        { fragAt s (headOf s h) with
          key_values := markMoved (fragAt s (headOf s h)).key_values k } :=
      fragAt_setFrag_self s _ _ hlt
    refine ⟨move_of_found_unique s h k (headOf s h) v hf hu,
      move_only_of_found_unique s h k (headOf s h) v hf hu, ?_, ?_, ?_⟩
    · rw [hfa]
      show lookupKV k (markMoved (fragAt s (headOf s h)).key_values k) = _
      rw [lookupKV_markMoved_self, hl]
      rfl
    · intro k2
      unfold contains
      have hch := chainOf_setFrag_head s (headOf s h)
        { fragAt s (headOf s h) with
          key_values := markMoved (fragAt s (headOf s h)).key_values k }
        hwf.pd hlt rfl
      show contains_internal (fragsOf (chainOf (setFrag s (headOf s h)
          { fragAt s (headOf s h) with
            key_values := markMoved (fragAt s (headOf s h)).key_values k })
          (headOf s h))) k2 =
        contains_internal (fragsOf (chainOf s (headOf s h))) k2
      rw [hch]
      conv_rhs => rw [chainOf_eq_head_cons_drop s (headOf s h)]
      exact contains_internal_congr_head _ _ _ k2
        (lookupKV_markMoved_isSome _ k k2) rfl
    · show (fragAt (setFrag s (headOf s h)
          { fragAt s (headOf s h) with
            key_values := markMoved (fragAt s (headOf s h)).key_values k })
          (headOf s h)).size = size s h
      rw [hfa]
      rfl
  · intro k fid v hf hu
    exact ⟨move_of_found_shared s h k fid v hf hu,
      move_only_of_found_shared s h k fid v hf hu⟩

open lazy_map in
/-- Witness for C8 on a uniquely-owned single-fragment store. -/
theorem C8_move_semantics_witness :
    (WF sampleUnique ∧ 0 < sampleUnique.handles.length)
    ∧ ((∀ k, contains sampleUnique 0 k = false →
          move sampleUnique 0 k = .error key_error
          ∧ move_only sampleUnique 0 k = .error key_error)
       ∧ (∀ k v, refcount sampleUnique (headOf sampleUnique 0) = 1 →
            lookupKV k (fragAt sampleUnique
              (headOf sampleUnique 0)).key_values = some v →
            move sampleUnique 0 k = .ok (v, setFrag sampleUnique
              (headOf sampleUnique 0)
              { fragAt sampleUnique (headOf sampleUnique 0) with
                key_values := markMoved (fragAt sampleUnique
                  (headOf sampleUnique 0)).key_values k })
            ∧ move_only sampleUnique 0 k = .ok (some v, setFrag sampleUnique
                (headOf sampleUnique 0)
                { fragAt sampleUnique (headOf sampleUnique 0) with
                  key_values := markMoved (fragAt sampleUnique
                    (headOf sampleUnique 0)).key_values k })
            ∧ lookupKV k (fragAt (setFrag sampleUnique
                (headOf sampleUnique 0)
                { fragAt sampleUnique (headOf sampleUnique 0) with
                  key_values := markMoved (fragAt sampleUnique
                    (headOf sampleUnique 0)).key_values k })
                (headOf sampleUnique 0)).key_values = some (v.1, true)
            ∧ (∀ k2, contains (setFrag sampleUnique (headOf sampleUnique 0)
                { fragAt sampleUnique (headOf sampleUnique 0) with
                  key_values := markMoved (fragAt sampleUnique
                    (headOf sampleUnique 0)).key_values k })
                0 k2 = contains sampleUnique 0 k2)
            ∧ size (setFrag sampleUnique (headOf sampleUnique 0)
                { fragAt sampleUnique (headOf sampleUnique 0) with
                  key_values := markMoved (fragAt sampleUnique
                    (headOf sampleUnique 0)).key_values k })
                0 = size sampleUnique 0)
       ∧ (∀ k fid v, find (chainOf sampleUnique
            (headOf sampleUnique 0)) k = some (fid, v) →
            ¬ (refcount sampleUnique (headOf sampleUnique 0) = 1
               ∧ fid = headOf sampleUnique 0) →
            move sampleUnique 0 k = .ok (v, sampleUnique)
            ∧ move_only sampleUnique 0 k = .ok (none, sampleUnique))) :=
  ⟨⟨by decide, by decide⟩,
   C8_move_semantics sampleUnique 0 (by decide) (by decide)⟩

namespace lazy_map

/-! ## The view set -/

theorem mem_foldr_append (L : List Fragment) (k : Nat) :
    k ∈ (L.foldr (fun f acc => (f.key_values.map Prod.fst) ++ acc) []) ↔
      ∃ f ∈ L, k ∈ f.key_values.map Prod.fst := by
  induction L with
  | nil => simp
  | cons f rest ih => simp [ih]

theorem contains_exists_local (L : List Fragment) (k : Nat)
    (hc : contains_internal L k = true) :
    ∃ f ∈ L, k ∈ f.key_values.map Prod.fst := by
  induction L with
  | nil => cases hc
  | cons f rest ih =>
    rw [contains_internal_cons] at hc
    by_cases hl : (lookupKV k f.key_values).isSome
    · exact ⟨f, List.mem_cons_self _ _, (lookupKV_isSome_iff k _).1 hl⟩
    · rw [if_neg hl] at hc
      by_cases hd : k ∈ f.deleted_keys
      · rw [if_pos hd] at hc; cases hc
      · rw [if_neg hd] at hc
        obtain ⟨g, hg, hkg⟩ := ih hc
        exact ⟨g, List.mem_cons_of_mem _ hg, hkg⟩

theorem mem_viewSet_iff (c : Chain) (k : Nat) :
    k ∈ viewSet c ↔ contains_internal (fragsOf c) k = true := by
  unfold viewSet chainKeys
  rw [Finset.mem_filter, List.mem_toFinset, mem_foldr_append]
  constructor
  · rintro ⟨_, h2⟩; exact h2
  · intro hc
    exact ⟨contains_exists_local _ k hc, hc⟩

theorem viewSet_congr (c c2 : Chain)
    (h : ∀ k, contains_internal (fragsOf c) k =
      contains_internal (fragsOf c2) k) : viewSet c = viewSet c2 := by
  apply Finset.ext
  intro k
  rw [mem_viewSet_iff, mem_viewSet_iff, h k]

/-! ## Head-replacement effects on the view -/

theorem contains_head_put (f1 : Fragment) (M : List Fragment) (k : Nat)
    (v : Val) (k2 : Nat) :
    contains_internal
      (({ f1 with
          key_values := putKV f1.key_values k v
          deleted_keys := f1.deleted_keys.erase k } : Fragment) :: M) k2 =
      (if k2 = k then true else contains_internal (f1 :: M) k2) := by
  by_cases hk : k2 = k
  · subst hk
    rw [contains_internal_cons, if_pos]
    · rw [if_pos rfl]
    · show (lookupKV k2 (putKV f1.key_values k2 v)).isSome = true
      rw [lookupKV_putKV_self]
      rfl
  · rw [if_neg hk, contains_internal_cons, contains_internal_cons]
    show (if (lookupKV k2 (putKV f1.key_values k v)).isSome = true then true
      else if k2 ∈ f1.deleted_keys.erase k then false
      else contains_internal M k2) = _
    rw [lookupKV_putKV_ne f1.key_values k k2 v hk]
    exact if_congr Iff.rfl rfl
      (if_congr (List.mem_erase_of_ne hk) rfl rfl)

theorem contains_head_emplace (f1 : Fragment) (M : List Fragment) (k : Nat)
    (v : Val) (hc : contains_internal (f1 :: M) k = false) (k2 : Nat) :
    contains_internal
      (({ f1 with
          key_values := emplaceKV f1.key_values k v
          deleted_keys := f1.deleted_keys.erase k } : Fragment) :: M) k2 =
      (if k2 = k then true else contains_internal (f1 :: M) k2) := by
  have hlk : lookupKV k f1.key_values = none := by
    rw [contains_internal_cons] at hc
    by_cases hl : (lookupKV k f1.key_values).isSome
    · rw [if_pos hl] at hc; cases hc
    · cases hl2 : lookupKV k f1.key_values with
      | none => rfl
      | some w => rw [hl2] at hl; simp at hl
  by_cases hk : k2 = k
  · subst hk
    rw [contains_internal_cons, if_pos]
    · rw [if_pos rfl]
    · show (lookupKV k2 (emplaceKV f1.key_values k2 v)).isSome = true
      rw [lookupKV_emplaceKV_self_none f1.key_values k2 v hlk]
      rfl
  · rw [if_neg hk, contains_internal_cons, contains_internal_cons]
    show (if (lookupKV k2 (emplaceKV f1.key_values k v)).isSome = true then
      true else if k2 ∈ f1.deleted_keys.erase k then false
      else contains_internal M k2) = _
    rw [lookupKV_emplaceKV_ne f1.key_values k k2 v hk]
    exact if_congr Iff.rfl rfl
      (if_congr (List.mem_erase_of_ne hk) rfl rfl)

theorem lookupKV_eraseKV_none (m : List (Nat × Val)) (k k2 : Nat)
    (h : lookupKV k2 m = none) : lookupKV k2 (eraseKV k m) = none := by
  induction m with
  | nil => rfl
  | cons p t ih =>
    rw [lookupKV_cons] at h
    by_cases hp : p.1 = k2
    · rw [if_pos hp] at h; cases h
    · rw [if_neg hp] at h
      by_cases hpk : p.1 = k
      · simp only [eraseKV, if_pos hpk]
        exact h
      · simp only [eraseKV, if_neg hpk, lookupKV_cons, if_neg hp]
        exact ih h

theorem insertSet_nodup (s : List Nat) (k : Nat) (h : s.Nodup) :
    (insertSet s k).Nodup := by
  unfold insertSet
  by_cases hk : k ∈ s
  · rw [if_pos hk]; exact h
  · rw [if_neg hk]
    exact nodup_append_singleton s k h hk

/-- Replacing the head by a fragment with pointwise-equivalent lookup
success and tombstone membership leaves `contains` unchanged. -/
theorem contains_head_generic (f1 F : Fragment) (M : List Fragment)
    (k2 : Nat)
    (hkv : (lookupKV k2 F.key_values).isSome =
      (lookupKV k2 f1.key_values).isSome)
    (hdel : (k2 ∈ F.deleted_keys) ↔ (k2 ∈ f1.deleted_keys)) :
    contains_internal (F :: M) k2 = contains_internal (f1 :: M) k2 := by
  rw [contains_internal_cons, contains_internal_cons, hkv]
  exact if_congr Iff.rfl rfl (if_congr hdel rfl rfl)

/-- After `erase` removes the key from the head's locals, the key is not
tombstoned at the head (sane fragments never hold a key in both tables and
a tombstoned key could not have been contained), so the remaining
resolution of `k` is exactly the ancestors'. -/
theorem erase_head_at_k (f1 : Fragment) (M : List Fragment) (k : Nat)
    (hnd : (f1.key_values.map Prod.fst).Nodup)
    (hdisj : ∀ k2 ∈ f1.deleted_keys, lookupKV k2 f1.key_values = none)
    (hc : contains_internal (f1 :: M) k = true) :
    k ∉ f1.deleted_keys
    ∧ contains_internal
        (({ f1 with key_values := eraseKV k f1.key_values } : Fragment)
          :: M) k = contains_internal M k := by
  have hkdel : k ∉ f1.deleted_keys := by
    intro hmem
    have h0 := hdisj k hmem
    rw [contains_internal_cons, h0] at hc
    simp only [Option.isSome_none, Bool.false_eq_true, if_false,
      if_pos hmem] at hc
  refine ⟨hkdel, ?_⟩
  rw [contains_internal_cons]
  show (if (lookupKV k (eraseKV k f1.key_values)).isSome = true then true
    else if k ∈ f1.deleted_keys then false else contains_internal M k) = _
  rw [lookupKV_eraseKV_self f1.key_values k hnd]
  simp only [Option.isSome_none, Bool.false_eq_true, if_false,
    if_neg hkdel]
end lazy_map

namespace lazy_map

/-! ## HandleInv machinery -/

theorem HandleInv_frame (s2 s : Sys) (j : Nat)
    (hh : headOf s2 j = headOf s j)
    (hc : chainOf s2 (headOf s2 j) = chainOf s (headOf s j))
    (hinv : HandleInv s j) : HandleInv s2 j := by
  obtain ⟨hfr, hsz⟩ := hinv
  constructor
  · intro f hf
    rw [hc] at hf
    exact hfr f hf
  · show (fragAt s2 (headOf s2 j)).size = _
    rw [fragAt_eq_of_chainOf_eq s2 s _ _ hc, hc]
    exact hsz

theorem FragOK_empty : FragOK empty_fragment := by
  refine ⟨List.nodup_nil, List.nodup_nil, ?_⟩
  intro k hk
  cases hk

theorem prepare_chain_fragOK (s : Sys) (h : Nat) (hwf : WF s)
    (hh : h < s.handles.length)
    (hok : ∀ f ∈ fragsOf (chainOf s (headOf s h)), FragOK f) :
    ∀ f ∈ fragsOf (chainOf (prepare_for_edit s h)
        (headOf (prepare_for_edit s h) h)), FragOK f := by
  by_cases hrc : refcount s (headOf s h) = 1
  · rw [prepare_of_unique s h hrc]; exact hok
  · rw [chain_prepare_shared s h hwf hh hrc]
    intro f hf
    rcases List.mem_cons.1 hf with rfl | hf2
    · exact FragOK_empty
    · exact hok f hf2

theorem prepare_contains (s : Sys) (h : Nat) (hwf : WF s)
    (hh : h < s.handles.length) (k : Nat) :
    contains_internal (fragsOf (chainOf (prepare_for_edit s h)
        (headOf (prepare_for_edit s h) h))) k =
      contains_internal (fragsOf (chainOf s (headOf s h))) k := by
  rw [contains_eq_findVal, contains_eq_findVal, prepare_findVal s h hwf hh k]

theorem prepare_HandleInv (s : Sys) (h : Nat) (hwf : WF s)
    (hh : h < s.handles.length) (hinv : HandleInv s h) :
    HandleInv (prepare_for_edit s h) h := by
  obtain ⟨hfr, hsz⟩ := hinv
  refine ⟨prepare_chain_fragOK s h hwf hh hfr, ?_⟩
  rw [prepare_size s h hh, hsz]
  have := viewSet_congr
    (chainOf (prepare_for_edit s h) (headOf (prepare_for_edit s h) h))
    (chainOf s (headOf s h)) (fun k => prepare_contains s h hwf hh k)
  rw [this]

theorem HandleInv_set_head (s1 : Sys) (i : Nat) (hwf1 : WF s1)
    (hi1 : i < s1.handles.length) (F : Fragment)
    (hpar : F.parent = (fragAt s1 (headOf s1 i)).parent)
    (hFok : FragOK F)
    (hsz : F.size =
      (viewSet ((headOf s1 i, F) :: (chainOf s1 (headOf s1 i)).drop 1)).card)
    (hrest : ∀ f ∈ fragsOf ((chainOf s1 (headOf s1 i)).drop 1), FragOK f) :
    HandleInv (setFrag s1 (headOf s1 i) F) i := by
  have hlt := hwf1.headOf_lt hi1
  have hch := chainOf_setFrag_head s1 (headOf s1 i) F hwf1.pd hlt hpar
  constructor
  · show ∀ f ∈ fragsOf (chainOf (setFrag s1 (headOf s1 i) F)
      (headOf s1 i)), FragOK f
    rw [hch]
    intro f hf
    simp only [fragsOf, List.map_cons] at hf
    rcases List.mem_cons.1 hf with rfl | hf2
    · exact hFok
    · exact hrest f hf2
  · show (fragAt (setFrag s1 (headOf s1 i) F) (headOf s1 i)).size = _
    rw [fragAt_setFrag_self _ _ _ hlt]
    show F.size = (viewSet (chainOf (setFrag s1 (headOf s1 i) F)
      (headOf s1 i))).card
    rw [hch]
    exact hsz

theorem viewSet_insert_key (hd : Nat) (f1 F : Fragment) (T : Chain)
    (k : Nat)
    (hcont : ∀ k2, contains_internal (fragsOf ((hd, F) :: T)) k2 =
      (if k2 = k then true
       else contains_internal (fragsOf ((hd, f1) :: T)) k2)) :
    viewSet ((hd, F) :: T) = Insert.insert k (viewSet ((hd, f1) :: T)) := by
  apply Finset.ext
  intro k2
  rw [mem_viewSet_iff, Finset.mem_insert, mem_viewSet_iff, hcont k2]
  by_cases hk : k2 = k
  · simp [hk]
  · simp [hk]

theorem viewSet_erase_key (hd : Nat) (f1 F : Fragment) (T : Chain) (k : Nat)
    (hck : contains_internal (fragsOf ((hd, F) :: T)) k = false)
    (hother : ∀ k2, k2 ≠ k →
      contains_internal (fragsOf ((hd, F) :: T)) k2 =
        contains_internal (fragsOf ((hd, f1) :: T)) k2) :
    viewSet ((hd, F) :: T) = (viewSet ((hd, f1) :: T)).erase k := by
  apply Finset.ext
  intro k2
  rw [mem_viewSet_iff, Finset.mem_erase, mem_viewSet_iff]
  by_cases hk : k2 = k
  · subst hk
    rw [hck]
    simp
  · rw [hother k2 hk]
    simp [hk]

theorem viewSet_same (hd : Nat) (f1 F : Fragment) (T : Chain)
    (hcont : ∀ k2, contains_internal (fragsOf ((hd, F) :: T)) k2 =
      contains_internal (fragsOf ((hd, f1) :: T)) k2) :
    viewSet ((hd, F) :: T) = viewSet ((hd, f1) :: T) :=
  viewSet_congr _ _ hcont

end lazy_map

namespace lazy_map

/-! ## HandleInv preservation per operation -/

theorem size_card_put (hd : Nat) (f1 F : Fragment) (T : Chain) (k : Nat)
    (v : Val)
    (hkv : F.key_values = putKV f1.key_values k v)
    (hdel : F.deleted_keys = f1.deleted_keys.erase k)
    (hS : F.size = f1.size +
      (if contains_internal (fragsOf ((hd, f1) :: T)) k then 0 else 1))
    (hsz1 : f1.size = (viewSet ((hd, f1) :: T)).card) :
    F.size = (viewSet ((hd, F) :: T)).card := by
  have hcont : ∀ k2, contains_internal (fragsOf ((hd, F) :: T)) k2 =
      (if k2 = k then true
       else contains_internal (fragsOf ((hd, f1) :: T)) k2) := by
    intro k2
    have h0 : contains_internal (F :: fragsOf T) k2 =
        contains_internal (({ f1 with
          key_values := putKV f1.key_values k v
          deleted_keys := f1.deleted_keys.erase k } : Fragment)
          :: fragsOf T) k2 :=
      contains_head_generic _ F _ k2 (by rw [hkv]) (by rw [hdel])
    exact h0.trans (contains_head_put f1 (fragsOf T) k v k2)
  rw [viewSet_insert_key hd f1 F T k hcont, hS]
  by_cases hck : contains_internal (fragsOf ((hd, f1) :: T)) k = true
  · rw [if_pos hck, Finset.insert_eq_self.2 ((mem_viewSet_iff _ k).2 hck)]
    simpa using hsz1
  · rw [if_neg hck, Finset.card_insert_of_not_mem
      (fun hmem => hck ((mem_viewSet_iff _ k).1 hmem)), hsz1]

theorem size_card_emplace (hd : Nat) (f1 F : Fragment) (T : Chain) (k : Nat)
    (v : Val)
    (hkv : F.key_values = emplaceKV f1.key_values k v)
    (hdel : F.deleted_keys = f1.deleted_keys.erase k)
    (hS : F.size = f1.size + 1)
    (hck : contains_internal (fragsOf ((hd, f1) :: T)) k = false)
    (hsz1 : f1.size = (viewSet ((hd, f1) :: T)).card) :
    F.size = (viewSet ((hd, F) :: T)).card := by
  have hcont : ∀ k2, contains_internal (fragsOf ((hd, F) :: T)) k2 =
      (if k2 = k then true
       else contains_internal (fragsOf ((hd, f1) :: T)) k2) := by
    intro k2
    have h0 : contains_internal (F :: fragsOf T) k2 =
        contains_internal (({ f1 with
          key_values := emplaceKV f1.key_values k v
          deleted_keys := f1.deleted_keys.erase k } : Fragment)
          :: fragsOf T) k2 :=
      contains_head_generic _ F _ k2 (by rw [hkv]) (by rw [hdel])
    exact h0.trans (contains_head_emplace f1 (fragsOf T) k v hck k2)
  rw [viewSet_insert_key hd f1 F T k hcont, hS]
  rw [Finset.card_insert_of_not_mem (fun hmem => ?_), hsz1]
  rw [(mem_viewSet_iff _ k).1 hmem] at hck
  cases hck

theorem HandleInv_put_head (s1 : Sys) (i : Nat) (hwf1 : WF s1)
    (hi1 : i < s1.handles.length) (k : Nat) (v : Val)
    (hinv1 : HandleInv s1 i) :
    HandleInv (setFrag s1 (headOf s1 i)
      { fragAt s1 (headOf s1 i) with
        size := (fragAt s1 (headOf s1 i)).size +
          (if contains_internal
              (fragsOf (chainOf s1 (headOf s1 i))) k then 0 else 1)
        deleted_keys := (fragAt s1 (headOf s1 i)).deleted_keys.erase k
        key_values := putKV (fragAt s1 (headOf s1 i)).key_values k v }) i := by
  obtain ⟨hfr1, hsz1⟩ := hinv1
  have hok1 : FragOK (fragAt s1 (headOf s1 i)) :=
    hfr1 _ (head_frag_mem s1 (headOf s1 i))
  have decomp := chainOf_eq_head_cons_drop s1 (headOf s1 i)
  have hrest : ∀ f ∈ fragsOf ((chainOf s1 (headOf s1 i)).drop 1),
      FragOK f := by
    intro f hf
    refine hfr1 f ?_
    rw [decomp]
    exact List.mem_cons_of_mem _ hf
  refine HandleInv_set_head s1 i hwf1 hi1 _ rfl ⟨?_, ?_, ?_⟩ ?_ hrest
  · exact nodup_keys_putKV _ k v hok1.1
  · exact List.Nodup.erase k hok1.2.1
  · intro k2 hk2
    have hmem := (List.Nodup.mem_erase_iff hok1.2.1).1 hk2
    show lookupKV k2 (putKV (fragAt s1 (headOf s1 i)).key_values k v) = none
    rw [lookupKV_putKV_ne _ k k2 v hmem.1]
    exact hok1.2.2 k2 hmem.2
  · refine size_card_put (headOf s1 i) (fragAt s1 (headOf s1 i)) _
      ((chainOf s1 (headOf s1 i)).drop 1) k v rfl rfl ?_ ?_
    · show (fragAt s1 (headOf s1 i)).size +
        (if contains_internal (fragsOf (chainOf s1 (headOf s1 i))) k
         then 0 else 1) = _
      rw [← decomp]
    · show size s1 i = _
      rw [hsz1]
      conv_lhs => rw [decomp]

theorem HandleInv_emplace_head (s1 : Sys) (i : Nat) (hwf1 : WF s1)
    (hi1 : i < s1.handles.length) (k : Nat) (v : Val)
    (hc1 : contains_internal (fragsOf (chainOf s1 (headOf s1 i))) k = false)
    (hinv1 : HandleInv s1 i) :
    HandleInv (setFrag s1 (headOf s1 i)
      { fragAt s1 (headOf s1 i) with
        deleted_keys := (fragAt s1 (headOf s1 i)).deleted_keys.erase k
        key_values := emplaceKV (fragAt s1 (headOf s1 i)).key_values k v
        size := (fragAt s1 (headOf s1 i)).size + 1 }) i := by
  obtain ⟨hfr1, hsz1⟩ := hinv1
  have hok1 : FragOK (fragAt s1 (headOf s1 i)) :=
    hfr1 _ (head_frag_mem s1 (headOf s1 i))
  have decomp := chainOf_eq_head_cons_drop s1 (headOf s1 i)
  have hrest : ∀ f ∈ fragsOf ((chainOf s1 (headOf s1 i)).drop 1),
      FragOK f := by
    intro f hf
    refine hfr1 f ?_
    rw [decomp]
    exact List.mem_cons_of_mem _ hf
  refine HandleInv_set_head s1 i hwf1 hi1 _ rfl ⟨?_, ?_, ?_⟩ ?_ hrest
  · exact nodup_keys_emplaceKV _ k v hok1.1
  · exact List.Nodup.erase k hok1.2.1
  · intro k2 hk2
    have hmem := (List.Nodup.mem_erase_iff hok1.2.1).1 hk2
    show lookupKV k2 (emplaceKV (fragAt s1 (headOf s1 i)).key_values k v)
      = none
    rw [lookupKV_emplaceKV_ne _ k k2 v hmem.1]
    exact hok1.2.2 k2 hmem.2
  · refine size_card_emplace (headOf s1 i) (fragAt s1 (headOf s1 i)) _
      ((chainOf s1 (headOf s1 i)).drop 1) k v rfl rfl rfl ?_ ?_
    · rw [← decomp]
      exact hc1
    · show size s1 i = _
      rw [hsz1]
      conv_lhs => rw [decomp]

theorem HandleInv_markMoved_head (s1 : Sys) (i : Nat) (hwf1 : WF s1)
    (hi1 : i < s1.handles.length) (k : Nat)
    (hinv1 : HandleInv s1 i) :
    HandleInv (setFrag s1 (headOf s1 i)
      { fragAt s1 (headOf s1 i) with
        key_values := markMoved (fragAt s1 (headOf s1 i)).key_values k })
      i := by
  obtain ⟨hfr1, hsz1⟩ := hinv1
  have hok1 : FragOK (fragAt s1 (headOf s1 i)) :=
    hfr1 _ (head_frag_mem s1 (headOf s1 i))
  have decomp := chainOf_eq_head_cons_drop s1 (headOf s1 i)
  have hrest : ∀ f ∈ fragsOf ((chainOf s1 (headOf s1 i)).drop 1),
      FragOK f := by
    intro f hf
    refine hfr1 f ?_
    rw [decomp]
    exact List.mem_cons_of_mem _ hf
  refine HandleInv_set_head s1 i hwf1 hi1 _ rfl ⟨?_, ?_, ?_⟩ ?_ hrest
  · show ((markMoved (fragAt s1 (headOf s1 i)).key_values k).map
      Prod.fst).Nodup
    rw [keys_markMoved]
    exact hok1.1
  · exact hok1.2.1
  · intro k2 hk2
    show lookupKV k2 (markMoved (fragAt s1 (headOf s1 i)).key_values k)
      = none
    have h0 := hok1.2.2 k2 hk2
    have h1 := lookupKV_markMoved_isSome
      (fragAt s1 (headOf s1 i)).key_values k k2
    rw [h0] at h1
    cases hl : lookupKV k2 (markMoved (fragAt s1 (headOf s1 i)).key_values k)
    · rfl
    · rw [hl] at h1; simp at h1
  · have hcont : ∀ k2, contains_internal (fragsOf ((headOf s1 i,
        ({ fragAt s1 (headOf s1 i) with
           key_values := markMoved (fragAt s1 (headOf s1 i)).key_values k } :
           Fragment)) :: (chainOf s1 (headOf s1 i)).drop 1)) k2 =
        contains_internal (fragsOf ((headOf s1 i, fragAt s1 (headOf s1 i)) ::
          (chainOf s1 (headOf s1 i)).drop 1)) k2 := by
      intro k2
      exact contains_head_generic _ _ _ k2
        (lookupKV_markMoved_isSome _ k k2) Iff.rfl
    show ({ fragAt s1 (headOf s1 i) with
      key_values := markMoved (fragAt s1 (headOf s1 i)).key_values k } :
      Fragment).size = _
    rw [viewSet_same _ _ _ _ hcont]
    show size s1 i = _
    rw [hsz1]
    conv_lhs => rw [decomp]

end lazy_map


namespace lazy_map

/-! ## HandleInv preservation: erase and the operation wrappers -/

theorem HandleInv_set_set_head (s1 : Sys) (i : Nat) (hwf1 : WF s1)
    (hi1 : i < s1.handles.length) (F G : Fragment)
    (hF : F.parent = (fragAt s1 (headOf s1 i)).parent)
    (hG : G.parent = F.parent)
    (hGok : FragOK G)
    (hsz : G.size = (viewSet ((headOf s1 i, G) ::
       (chainOf s1 (headOf s1 i)).drop 1)).card)
    (hrest : ∀ f ∈ fragsOf ((chainOf s1 (headOf s1 i)).drop 1), FragOK f) :
    HandleInv (setFrag (setFrag s1 (headOf s1 i) F) (headOf s1 i) G) i := by
  have hlt : headOf s1 i < s1.frags.length := hwf1.headOf_lt hi1
  have hwf2 : WF (setFrag s1 (headOf s1 i) F) :=
    WF_set_head_keep_parent s1 i hwf1 hi1 F hF
  have hlt2 : headOf s1 i < (setFrag s1 (headOf s1 i) F).frags.length := by
    show headOf s1 i < (s1.frags.set (headOf s1 i) F).length
    rw [List.length_set]
    exact hlt
  have hch2 : chainOf (setFrag s1 (headOf s1 i) F) (headOf s1 i) =
      (headOf s1 i, F) :: (chainOf s1 (headOf s1 i)).drop 1 :=
    chainOf_setFrag_head s1 (headOf s1 i) F hwf1.pd hlt hF
  have hG2 : G.parent = (fragAt (setFrag s1 (headOf s1 i) F)
      (headOf s1 i)).parent := by
    rw [fragAt_setFrag_self s1 (headOf s1 i) F hlt]
    exact hG
  have hch3 := chainOf_setFrag_head (setFrag s1 (headOf s1 i) F)
    (headOf s1 i) G hwf2.pd hlt2 hG2
  rw [hch2] at hch3
  simp only [List.drop_succ_cons, List.drop_zero] at hch3
  constructor
  · show ∀ f ∈ fragsOf (chainOf (setFrag (setFrag s1 (headOf s1 i) F)
      (headOf s1 i) G) (headOf s1 i)), FragOK f
    rw [hch3]
    intro f hf
    simp only [fragsOf, List.map_cons] at hf
    rcases List.mem_cons.1 hf with rfl | hf2
    · exact hGok
    · exact hrest f hf2
  · show (fragAt (setFrag (setFrag s1 (headOf s1 i) F) (headOf s1 i) G)
      (headOf s1 i)).size = _
    rw [fragAt_setFrag_self _ _ _ hlt2]
    show G.size = (viewSet (chainOf (setFrag (setFrag s1 (headOf s1 i) F)
      (headOf s1 i) G) (headOf s1 i))).card
    rw [hch3]
    exact hsz

theorem HandleInv_erase_head (s1 : Sys) (i : Nat) (hwf1 : WF s1)
    (hi1 : i < s1.handles.length) (k : Nat)
    (hc : contains_internal (fragsOf (chainOf s1 (headOf s1 i))) k = true)
    (hinv1 : HandleInv s1 i) (f1e F2 : Fragment)
    (hf1e : f1e = { fragAt s1 (headOf s1 i) with
      key_values := eraseKV k (fragAt s1 (headOf s1 i)).key_values })
    (hF2 : F2 = { f1e with
      deleted_keys :=
        if contains_internal (fragsOf (chainOf
            (setFrag s1 (headOf s1 i) f1e) (headOf s1 i))) k
        then insertSet f1e.deleted_keys k else f1e.deleted_keys
      size := f1e.size - 1 }) :
    HandleInv (setFrag (setFrag s1 (headOf s1 i) f1e) (headOf s1 i) F2)
      i := by
  obtain ⟨hfr1, hsz1⟩ := hinv1
  have hok1 : FragOK (fragAt s1 (headOf s1 i)) :=
    hfr1 _ (head_frag_mem s1 (headOf s1 i))
  have decomp := chainOf_eq_head_cons_drop s1 (headOf s1 i)
  have hlt : headOf s1 i < s1.frags.length := hwf1.headOf_lt hi1
  have hkv : f1e.key_values =
      eraseKV k (fragAt s1 (headOf s1 i)).key_values := by rw [hf1e]
  have hdel : f1e.deleted_keys =
      (fragAt s1 (headOf s1 i)).deleted_keys := by rw [hf1e]
  have hparx : f1e.parent = (fragAt s1 (headOf s1 i)).parent := by rw [hf1e]
  have hszf : f1e.size = (fragAt s1 (headOf s1 i)).size := by rw [hf1e]
  have hch2 : chainOf (setFrag s1 (headOf s1 i) f1e) (headOf s1 i) =
      (headOf s1 i, f1e) :: (chainOf s1 (headOf s1 i)).drop 1 :=
    chainOf_setFrag_head s1 (headOf s1 i) f1e hwf1.pd hlt hparx
  have hc0 : contains_internal ((fragAt s1 (headOf s1 i)) ::
      fragsOf ((chainOf s1 (headOf s1 i)).drop 1)) k = true := by
    have h0 := hc
    rw [decomp] at h0
    exact h0
  have herase := erase_head_at_k (fragAt s1 (headOf s1 i))
    (fragsOf ((chainOf s1 (headOf s1 i)).drop 1)) k hok1.1 hok1.2.2 hc0
  rw [← hf1e] at herase
  have hstill : contains_internal (fragsOf (chainOf
      (setFrag s1 (headOf s1 i) f1e) (headOf s1 i))) k =
      contains_internal (fragsOf ((chainOf s1 (headOf s1 i)).drop 1)) k := by
    rw [hch2]
    exact herase.2
  have hF2kv : F2.key_values = f1e.key_values := by rw [hF2]
  have hF2del : F2.deleted_keys =
      if contains_internal (fragsOf ((chainOf s1 (headOf s1 i)).drop 1)) k
      then insertSet (fragAt s1 (headOf s1 i)).deleted_keys k
      else (fragAt s1 (headOf s1 i)).deleted_keys := by
    rw [hF2, hstill, hdel]
  have hF2sz : F2.size = (fragAt s1 (headOf s1 i)).size - 1 := by
    rw [hF2]
    show f1e.size - 1 = (fragAt s1 (headOf s1 i)).size - 1
    rw [hszf]
  have hF2par : F2.parent = f1e.parent := by rw [hF2]
  have hsz1c : (fragAt s1 (headOf s1 i)).size =
      (viewSet ((headOf s1 i, fragAt s1 (headOf s1 i)) ::
        (chainOf s1 (headOf s1 i)).drop 1)).card := by
    conv_rhs => rw [← decomp]
    exact hsz1
  have hkmem : k ∈ viewSet ((headOf s1 i, fragAt s1 (headOf s1 i)) ::
      (chainOf s1 (headOf s1 i)).drop 1) := by
    refine (mem_viewSet_iff _ k).2 ?_
    exact hc0
  have hckF : contains_internal (fragsOf ((headOf s1 i, F2) ::
      (chainOf s1 (headOf s1 i)).drop 1)) k = false := by
    show contains_internal (F2 ::
      fragsOf ((chainOf s1 (headOf s1 i)).drop 1)) k = false
    rw [contains_internal_cons]
    have hl : lookupKV k F2.key_values = none := by
      rw [hF2kv, hkv]
      exact lookupKV_eraseKV_self _ k hok1.1
    rw [hl]
    simp only [Option.isSome_none, Bool.false_eq_true, if_false]
    rw [hF2del]
    by_cases hmc : contains_internal
        (fragsOf ((chainOf s1 (headOf s1 i)).drop 1)) k = true
    · rw [if_pos hmc, if_pos ((mem_insertSet _ _ _).2 (Or.inr rfl))]
    · rw [if_neg hmc, if_neg herase.1]
      cases hx : contains_internal
          (fragsOf ((chainOf s1 (headOf s1 i)).drop 1)) k
      · rfl
      · exact absurd hx hmc
  have hother : ∀ k2, k2 ≠ k →
      contains_internal (fragsOf ((headOf s1 i, F2) ::
        (chainOf s1 (headOf s1 i)).drop 1)) k2 =
      contains_internal (fragsOf ((headOf s1 i, fragAt s1 (headOf s1 i)) ::
        (chainOf s1 (headOf s1 i)).drop 1)) k2 := by
    intro k2 hk2
    show contains_internal (F2 ::
        fragsOf ((chainOf s1 (headOf s1 i)).drop 1)) k2 =
      contains_internal ((fragAt s1 (headOf s1 i)) ::
        fragsOf ((chainOf s1 (headOf s1 i)).drop 1)) k2
    refine contains_head_generic (fragAt s1 (headOf s1 i)) F2 _ k2 ?_ ?_
    · rw [hF2kv, hkv, lookupKV_eraseKV_ne _ k k2 hk2]
    · rw [hF2del]
      by_cases hmc : contains_internal
          (fragsOf ((chainOf s1 (headOf s1 i)).drop 1)) k = true
      · rw [if_pos hmc]
        rw [mem_insertSet]
        simp [hk2]
      · rw [if_neg hmc]
  refine HandleInv_set_set_head s1 i hwf1 hi1 f1e F2 hparx
    (hF2par.trans rfl) ?_ ?_ ?_
  · refine ⟨?_, ?_, ?_⟩
    · show (F2.key_values.map Prod.fst).Nodup
      rw [hF2kv, hkv]
      exact nodup_keys_eraseKV _ k hok1.1
    · show F2.deleted_keys.Nodup
      rw [hF2del]
      by_cases hmc : contains_internal
          (fragsOf ((chainOf s1 (headOf s1 i)).drop 1)) k = true
      · rw [if_pos hmc]
        exact insertSet_nodup _ k hok1.2.1
      · rw [if_neg hmc]
        exact hok1.2.1
    · intro k2 hk2
      show lookupKV k2 F2.key_values = none
      rw [hF2kv, hkv]
      rw [hF2del] at hk2
      by_cases hmc : contains_internal
          (fragsOf ((chainOf s1 (headOf s1 i)).drop 1)) k = true
      · rw [if_pos hmc] at hk2
        rcases (mem_insertSet _ _ _).1 hk2 with hk2a | rfl
        · exact lookupKV_eraseKV_none _ k k2 (hok1.2.2 k2 hk2a)
        · exact lookupKV_eraseKV_self _ k2 hok1.1
      · rw [if_neg hmc] at hk2
        exact lookupKV_eraseKV_none _ k k2 (hok1.2.2 k2 hk2)
  · rw [hF2sz, viewSet_erase_key (headOf s1 i) (fragAt s1 (headOf s1 i))
      F2 ((chainOf s1 (headOf s1 i)).drop 1) k hckF hother,
      Finset.card_erase_of_mem hkmem, hsz1c]
  · intro f hf
    refine hfr1 f ?_
    rw [decomp]
    exact List.mem_cons_of_mem _ hf

theorem HandleInv_insert_or_assign (s : Sys) (i : Nat) (hwf : WF s)
    (hi : i < s.handles.length) (k : Nat) (v : Val)
    (hinv : HandleInv s i) :
    HandleInv (insert_or_assign s i k v) i := by
  rw [insert_or_assign_eq]
  exact HandleInv_put_head (prepare_for_edit s i) i (WF_prepare s i hwf hi)
    (by rw [prepare_handles_len]; exact hi) k v
    (prepare_HandleInv s i hwf hi hinv)

theorem HandleInv_insert (s : Sys) (i : Nat) (hwf : WF s)
    (hi : i < s.handles.length) (k : Nat) (v : Val)
    (hinv : HandleInv s i) :
    HandleInv (insert s i k v).2 i := by
  by_cases hc : contains_internal (fragsOf (chainOf s (headOf s i))) k = true
  · rw [insert_of_contains s i k v hc]
    exact hinv
  · rw [insert_of_not_contains s i k v hc]
    refine HandleInv_emplace_head (prepare_for_edit s i) i
      (WF_prepare s i hwf hi) (by rw [prepare_handles_len]; exact hi) k v
      ?_ (prepare_HandleInv s i hwf hi hinv)
    rw [prepare_contains s i hwf hi k]
    cases hx : contains_internal (fragsOf (chainOf s (headOf s i))) k
    · rfl
    · exact absurd hx hc

theorem HandleInv_erase (s : Sys) (i : Nat) (hwf : WF s)
    (hi : i < s.handles.length) (k : Nat) (hinv : HandleInv s i) :
    HandleInv (erase s i k).2 i := by
  by_cases hc : contains_internal (fragsOf (chainOf s (headOf s i))) k = true
  · rw [erase_of_contains s i k hc]
    exact HandleInv_erase_head (prepare_for_edit s i) i
      (WF_prepare s i hwf hi) (by rw [prepare_handles_len]; exact hi) k
      (by rw [prepare_contains s i hwf hi k]; exact hc)
      (prepare_HandleInv s i hwf hi hinv) _ _ rfl rfl
  · rw [erase_of_not_contains s i k hc]
    exact hinv

end lazy_map


namespace lazy_map

/-! ## HandleInv preservation: clear, detach, move -/

theorem HandleInv_clear (s : Sys) (i : Nat) (hi : i < s.handles.length) :
    HandleInv (clear s i) i := by
  have hhd : headOf (clear s i) i = s.frags.length := by
    show (s.handles.set i s.frags.length).getD i 0 = s.frags.length
    exact getD_set_self s.handles i s.frags.length 0 hi
  have hfa : fragAt (clear s i) s.frags.length = empty_fragment := by
    show (s.frags ++ [empty_fragment]).getD s.frags.length empty_fragment =
      empty_fragment
    exact getD_append_len s.frags empty_fragment empty_fragment
  have hch : chainOf (clear s i) s.frags.length =
      [(s.frags.length, fragAt (clear s i) s.frags.length)] :=
    chainOf_root _ _ (by rw [hfa]; rfl)
  rw [hfa] at hch
  constructor
  · show ∀ f ∈ fragsOf (chainOf (clear s i) (headOf (clear s i) i)), FragOK f
    rw [hhd, hch]
    intro f hf
    simp only [fragsOf, List.map_cons, List.map_nil] at hf
    rw [List.mem_singleton] at hf
    subst hf
    exact FragOK_empty
  · show (fragAt (clear s i) (headOf (clear s i) i)).size = _
    rw [hhd, hfa, hch]
    rfl

theorem HandleInv_detach_internal (s1 : Sys) (i : Nat) (hwf1 : WF s1)
    (hi1 : i < s1.handles.length) (hinv1 : HandleInv s1 i) :
    HandleInv (detach_internal s1 i).2 i := by
  cases hp : (fragAt s1 (headOf s1 i)).parent with
  | none =>
    rw [detach_internal_of_root s1 i hp]
    exact hinv1
  | some q =>
    have hlt : headOf s1 i < s1.frags.length := hwf1.headOf_lt hi1
    obtain ⟨hfr1, hsz1⟩ := hinv1
    have hcontEq : ∀ k, contains_internal (fragsOf (chainOf
        (detach_internal s1 i).2 (headOf (detach_internal s1 i).2 i))) k =
        contains_internal (fragsOf (chainOf s1 (headOf s1 i))) k := by
      intro k
      rw [contains_eq_findVal, contains_eq_findVal,
        detach_internal_findVal s1 i hwf1 hi1 q hp k]
    have hch : chainOf (detach_internal s1 i).2
        (headOf (detach_internal s1 i).2 i) =
        [(headOf s1 i, { fragAt s1 (headOf s1 i) with
          key_values := ((fragsOf ((chainOf s1 (headOf s1 i)).drop 1)).foldl
            merge_frag ((fragAt s1 (headOf s1 i)).key_values,
              (fragAt s1 (headOf s1 i)).deleted_keys)).1
          deleted_keys := []
          parent := none })] := by
      rw [detach_internal_of_parent s1 i q hp]
      show chainOf (setFrag s1 (headOf s1 i) _) (headOf s1 i) = _
      rw [chainOf_root _ _ (by rw [fragAt_setFrag_self _ _ _ hlt]),
        fragAt_setFrag_self _ _ _ hlt]
    constructor
    · show ∀ f ∈ fragsOf (chainOf (detach_internal s1 i).2
        (headOf (detach_internal s1 i).2 i)), FragOK f
      rw [hch]
      intro f hf
      simp only [fragsOf, List.map_cons, List.map_nil] at hf
      rw [List.mem_singleton] at hf
      subst hf
      refine ⟨?_, List.nodup_nil, ?_⟩
      · exact detach_internal_nodup s1 i q hp
          (hfr1 _ (head_frag_mem s1 (headOf s1 i))).1
      · intro k2 hk2
        cases hk2
    · show (fragAt (detach_internal s1 i).2
        (headOf (detach_internal s1 i).2 i)).size = _
      rw [detach_internal_size_after s1 i q hlt hp,
        viewSet_congr _ _ hcontEq]
      exact hsz1

theorem HandleInv_detach (s : Sys) (i : Nat) (hwf : WF s)
    (hi : i < s.handles.length) (hinv : HandleInv s i) :
    HandleInv (detach s i).2 i := by
  show HandleInv (detach_internal (prepare_for_edit s i) i).2 i
  exact HandleInv_detach_internal (prepare_for_edit s i) i
    (WF_prepare s i hwf hi) (by rw [prepare_handles_len]; exact hi)
    (prepare_HandleInv s i hwf hi hinv)

theorem HandleInv_move (s : Sys) (i : Nat) (hwf : WF s)
    (hi : i < s.handles.length) (k : Nat) (hinv : HandleInv s i) :
    HandleInv (match move s i k with
      | .ok (_, s2) => s2
      | .error _ => s) i := by
  cases hf : find (chainOf s (headOf s i)) k with
  | none =>
    rw [move_of_end s i k hf]
    exact hinv
  | some p =>
    obtain ⟨fid, v⟩ := p
    by_cases hu : refcount s (headOf s i) = 1 ∧ fid = headOf s i
    · rw [move_of_found_unique s i k fid v hf hu]
      obtain ⟨hu1, rfl⟩ := hu
      exact HandleInv_markMoved_head s i hwf hi k hinv
    · rw [move_of_found_shared s i k fid v hf hu]
      exact hinv

theorem HandleInv_move_only (s : Sys) (i : Nat) (hwf : WF s)
    (hi : i < s.handles.length) (k : Nat) (hinv : HandleInv s i) :
    HandleInv (match move_only s i k with
      | .ok (_, s2) => s2
      | .error _ => s) i := by
  cases hf : find (chainOf s (headOf s i)) k with
  | none =>
    rw [move_only_of_end s i k hf]
    exact hinv
  | some p =>
    obtain ⟨fid, v⟩ := p
    by_cases hu : refcount s (headOf s i) = 1 ∧ fid = headOf s i
    · rw [move_only_of_found_unique s i k fid v hf hu]
      obtain ⟨hu1, rfl⟩ := hu
      exact HandleInv_markMoved_head s i hwf hi k hinv
    · rw [move_only_of_found_shared s i k fid v hf hu]
      exact hinv

theorem applyOp_Inv (s : Sys) (i : Nat) (o : Op) (hwf : WF s)
    (hi : i < s.handles.length)
    (hinvAll : ∀ j, j < s.handles.length → HandleInv s j) :
    ∀ j, j < (applyOp s i o).handles.length → HandleInv (applyOp s i o) j := by
  intro j hj
  rw [applyOp_handles_len] at hj
  by_cases hij : i = j
  · subst hij
    cases o with
    | ins k v => exact HandleInv_insert s i hwf hi k v (hinvAll i hi)
    | insAssign k v =>
      exact HandleInv_insert_or_assign s i hwf hi k v (hinvAll i hi)
    | empl k v =>
      show HandleInv (emplace s i k v).2 i
      rw [emplace_eq_insert]
      exact HandleInv_insert s i hwf hi k v (hinvAll i hi)
    | er k => exact HandleInv_erase s i hwf hi k (hinvAll i hi)
    | cl => exact HandleInv_clear s i hi
    | det => exact HandleInv_detach s i hwf hi (hinvAll i hi)
    | mv k => exact HandleInv_move s i hwf hi k (hinvAll i hi)
    | mvOnly k => exact HandleInv_move_only s i hwf hi k (hinvAll i hi)
  · have hfr := applyOp_frame s i j o hwf hi hj hij
    refine HandleInv_frame _ s j hfr.1 ?_ (hinvAll j hj)
    rw [hfr.1]
    exact hfr.2

end lazy_map


namespace lazy_map

/-! ## New handles and the reachability invariant -/

theorem contains_single_root (F : Fragment) (hdel : F.deleted_keys = [])
    (k : Nat) :
    contains_internal [F] k = (lookupKV k F.key_values).isSome := by
  rw [contains_internal_cons, hdel]
  cases hl : (lookupKV k F.key_values).isSome
  · rfl
  · rfl

theorem viewSet_single_root (n : Nat) (F : Fragment)
    (hdel : F.deleted_keys = [])
    (hnd : (F.key_values.map Prod.fst).Nodup) :
    (viewSet [(n, F)]).card = F.key_values.length := by
  have hext : viewSet [(n, F)] = (F.key_values.map Prod.fst).toFinset := by
    apply Finset.ext
    intro k
    rw [mem_viewSet_iff, List.mem_toFinset]
    show contains_internal (fragsOf [(n, F)]) k = true ↔ _
    have h0 : contains_internal (fragsOf [(n, F)]) k =
        (lookupKV k F.key_values).isSome := contains_single_root F hdel k
    rw [h0]
    exact lookupKV_isSome_iff k F.key_values
  rw [hext, List.toFinset_card_of_nodup hnd, List.length_map]

theorem nodup_keys_foldl_emplace (l : List (Nat × Val))
    (m : List (Nat × Val)) (hm : (m.map Prod.fst).Nodup) :
    (((l.foldl (fun m2 p => emplaceKV m2 p.1 p.2) m)).map Prod.fst).Nodup := by
  induction l generalizing m with
  | nil => exact hm
  | cons p t ih => exact ih _ (nodup_keys_emplaceKV m p.1 p.2 hm)

theorem HandleInv_append_frame (s : Sys) (nf : Fragment) (m : Nat) (j : Nat)
    (hwf : WF s) (hj : j < s.handles.length) (hinv : HandleInv s j) :
    HandleInv ⟨s.frags ++ [nf], s.handles ++ [m]⟩ j := by
  have hh : headOf (⟨s.frags ++ [nf], s.handles ++ [m]⟩ : Sys) j =
      headOf s j := by
    show (s.handles ++ [m]).getD j 0 = s.handles.getD j 0
    exact getD_append_lt s.handles [m] j 0 hj
  refine HandleInv_frame _ s j hh ?_ hinv
  rw [hh]
  exact chainOf_frame_append s [nf] (s.handles ++ [m]) hwf.pd (headOf s j)
    (hwf.headOf_lt hj)

theorem HandleInv_new_handle (s : Sys) (nf : Fragment)
    (hnf_par : nf.parent = none) (hok : FragOK nf)
    (hsize : nf.size = (viewSet [(s.frags.length, nf)]).card) :
    HandleInv ⟨s.frags ++ [nf], s.handles ++ [s.frags.length]⟩
      s.handles.length := by
  have hh : headOf (⟨s.frags ++ [nf], s.handles ++ [s.frags.length]⟩ : Sys)
      s.handles.length = s.frags.length := by
    show (s.handles ++ [s.frags.length]).getD s.handles.length 0 = _
    exact getD_append_len s.handles s.frags.length 0
  have hfa : fragAt (⟨s.frags ++ [nf], s.handles ++ [s.frags.length]⟩ : Sys)
      s.frags.length = nf := by
    show (s.frags ++ [nf]).getD s.frags.length empty_fragment = nf
    exact getD_append_len s.frags nf empty_fragment
  have hch : chainOf (⟨s.frags ++ [nf],
      s.handles ++ [s.frags.length]⟩ : Sys) s.frags.length =
      [(s.frags.length, nf)] := by
    rw [chainOf_root _ _ (by rw [hfa]; exact hnf_par), hfa]
  constructor
  · show ∀ f ∈ fragsOf (chainOf (⟨s.frags ++ [nf],
      s.handles ++ [s.frags.length]⟩ : Sys)
      (headOf (⟨s.frags ++ [nf], s.handles ++ [s.frags.length]⟩ : Sys)
        s.handles.length)), FragOK f
    rw [hh, hch]
    intro f hf
    simp only [fragsOf, List.map_cons, List.map_nil] at hf
    rw [List.mem_singleton] at hf
    subst hf
    exact hok
  · show (fragAt (⟨s.frags ++ [nf], s.handles ++ [s.frags.length]⟩ : Sys)
      (headOf (⟨s.frags ++ [nf], s.handles ++ [s.frags.length]⟩ : Sys)
        s.handles.length)).size = _
    rw [hh, hfa, hch]
    exact hsize

theorem FragOK_fromList (l : List (Nat × Val)) :
    FragOK (fromListFragment l) := by
  refine ⟨?_, List.nodup_nil, ?_⟩
  · show ((l.foldl (fun m2 p => emplaceKV m2 p.1 p.2) []).map
      Prod.fst).Nodup
    exact nodup_keys_foldl_emplace l [] List.nodup_nil
  · intro k2 hk2
    cases hk2

end lazy_map

open lazy_map in
/-- Every construction, copy and operation step preserves the global
invariant. -/
theorem Step_Inv {s s2 : Sys} (hst : Step s s2) (hinv : Inv s) : Inv s2 := by
  obtain ⟨hwf, hall⟩ := hinv
  cases hst with
  | newEmpty =>
    constructor
    · constructor
      · refine ParentsDec_append _ _ hwf.pd ?_
        intro p hp
        cases hp
      · intro x hx
        simp only [List.length_append, List.length_singleton]
        rcases List.mem_append.1 hx with hx2 | hx2
        · have := hwf.handle_lt hx2
          omega
        · rw [List.mem_singleton] at hx2
          omega
    · intro j hj
      have hj2 : j < s.handles.length + 1 := by
        simpa using hj
      by_cases hjl : j < s.handles.length
      · exact HandleInv_append_frame s empty_fragment s.frags.length j hwf
          hjl (hall j hjl)
      · have hje : j = s.handles.length := by omega
        subst hje
        exact HandleInv_new_handle s empty_fragment rfl FragOK_empty rfl
  | newFromList l =>
    constructor
    · constructor
      · refine ParentsDec_append _ _ hwf.pd ?_
        intro p hp
        cases hp
      · intro x hx
        simp only [List.length_append, List.length_singleton]
        rcases List.mem_append.1 hx with hx2 | hx2
        · have := hwf.handle_lt hx2
          omega
        · rw [List.mem_singleton] at hx2
          omega
    · intro j hj
      have hj2 : j < s.handles.length + 1 := by
        simpa using hj
      by_cases hjl : j < s.handles.length
      · exact HandleInv_append_frame s (fromListFragment l) s.frags.length j
          hwf hjl (hall j hjl)
      · have hje : j = s.handles.length := by omega
        subst hje
        refine HandleInv_new_handle s (fromListFragment l) rfl
          (FragOK_fromList l) ?_
        exact (viewSet_single_root s.frags.length (fromListFragment l) rfl
          (FragOK_fromList l).1).symm
  | copy h hh =>
    constructor
    · constructor
      · exact hwf.1
      · intro x hx
        rcases List.mem_append.1 hx with hx2 | hx2
        · exact hwf.handle_lt hx2
        · rw [List.mem_singleton] at hx2
          subst hx2
          exact hwf.headOf_lt hh
    · intro j hj
      have hj2 : j < s.handles.length + 1 := by
        simpa using hj
      by_cases hjl : j < s.handles.length
      · have hh2 : headOf (⟨s.frags, s.handles ++ [headOf s h]⟩ : Sys) j =
            headOf s j := by
          show (s.handles ++ [headOf s h]).getD j 0 = s.handles.getD j 0
          exact getD_append_lt s.handles [headOf s h] j 0 hjl
        refine HandleInv_frame _ s j hh2 ?_ (hall j hjl)
        rw [hh2]
        rfl
      · have hje : j = s.handles.length := by omega
        subst hje
        have hh2 : headOf (⟨s.frags, s.handles ++ [headOf s h]⟩ : Sys)
            s.handles.length = headOf s h := by
          show (s.handles ++ [headOf s h]).getD s.handles.length 0 = _
          exact getD_append_len s.handles (headOf s h) 0
        constructor
        · show ∀ f ∈ fragsOf (chainOf
            (⟨s.frags, s.handles ++ [headOf s h]⟩ : Sys)
            (headOf (⟨s.frags, s.handles ++ [headOf s h]⟩ : Sys)
              s.handles.length)), FragOK f
          rw [hh2]
          exact (hall h hh).1
        · show (fragAt (⟨s.frags, s.handles ++ [headOf s h]⟩ : Sys)
            (headOf (⟨s.frags, s.handles ++ [headOf s h]⟩ : Sys)
              s.handles.length)).size = _
          rw [hh2]
          exact (hall h hh).2
  | op h o hh =>
    exact ⟨applyOp_WF s h o hwf hh, applyOp_Inv s h o hwf hh hall⟩

/-- Every reachable store satisfies the global invariant: a well-formed
object graph, sane fragments and correct cached sizes on every handle's
chain. -/
theorem Reachable_Inv {s : Sys} (hr : Reachable s) : lazy_map.Inv s := by
  induction hr with
  | nil => decide
  | step hr2 hst ih => exact Step_Inv hst ih


namespace lazy_map

/-! ## Keys stay absent: non-inserting operations cannot revive a key -/

theorem contains_set_head_after (s1 : Sys) (i : Nat) (hwf1 : WF s1)
    (hi1 : i < s1.handles.length) (F : Fragment) (k : Nat)
    (hpar : F.parent = (fragAt s1 (headOf s1 i)).parent)
    (hkv : (lookupKV k F.key_values).isSome =
      (lookupKV k (fragAt s1 (headOf s1 i)).key_values).isSome)
    (hdel : (k ∈ F.deleted_keys) ↔
      (k ∈ (fragAt s1 (headOf s1 i)).deleted_keys)) :
    contains_internal (fragsOf (chainOf (setFrag s1 (headOf s1 i) F)
      (headOf s1 i))) k =
    contains_internal (fragsOf (chainOf s1 (headOf s1 i))) k := by
  have hlt : headOf s1 i < s1.frags.length := hwf1.headOf_lt hi1
  have hch := chainOf_setFrag_head s1 (headOf s1 i) F hwf1.pd hlt hpar
  rw [hch]
  have decomp := chainOf_eq_head_cons_drop s1 (headOf s1 i)
  conv_rhs => rw [decomp]
  exact contains_head_generic (fragAt s1 (headOf s1 i)) F _ k hkv hdel

theorem contains_insert_other (s : Sys) (h : Nat) (hwf : WF s)
    (hh : h < s.handles.length) (k k2 : Nat) (v : Val) (hne : k2 ≠ k)
    (hc : contains_internal (fragsOf (chainOf s (headOf s h))) k = false) :
    contains_internal (fragsOf (chainOf (insert s h k2 v).2
      (headOf (insert s h k2 v).2 h))) k = false := by
  by_cases hck2 : contains_internal (fragsOf (chainOf s (headOf s h))) k2
      = true
  · rw [insert_of_contains s h k2 v hck2]
    exact hc
  · rw [insert_of_not_contains s h k2 v hck2]
    have hne2 : k ≠ k2 := fun he => hne he.symm
    have h0 : contains_internal (fragsOf (chainOf
        (setFrag (prepare_for_edit s h) (headOf (prepare_for_edit s h) h)
          { fragAt (prepare_for_edit s h)
              (headOf (prepare_for_edit s h) h) with
            deleted_keys := (fragAt (prepare_for_edit s h)
              (headOf (prepare_for_edit s h) h)).deleted_keys.erase k2
            key_values := emplaceKV (fragAt (prepare_for_edit s h)
              (headOf (prepare_for_edit s h) h)).key_values k2 v
            size := (fragAt (prepare_for_edit s h)
              (headOf (prepare_for_edit s h) h)).size + 1 })
        (headOf (prepare_for_edit s h) h))) k =
        contains_internal (fragsOf (chainOf (prepare_for_edit s h)
          (headOf (prepare_for_edit s h) h))) k := by
      refine contains_set_head_after (prepare_for_edit s h) h
        (WF_prepare s h hwf hh) (by rw [prepare_handles_len]; exact hh)
        _ k rfl ?_ ?_
      · show (lookupKV k (emplaceKV (fragAt (prepare_for_edit s h)
          (headOf (prepare_for_edit s h) h)).key_values k2 v)).isSome = _
        rw [lookupKV_emplaceKV_ne _ k2 k v hne2]
      · show (k ∈ (fragAt (prepare_for_edit s h)
          (headOf (prepare_for_edit s h) h)).deleted_keys.erase k2) ↔ _
        exact List.mem_erase_of_ne hne2
    rw [prepare_contains s h hwf hh k] at h0
    exact h0.trans hc

theorem contains_insert_or_assign_other (s : Sys) (h : Nat) (hwf : WF s)
    (hh : h < s.handles.length) (k k2 : Nat) (v : Val) (hne : k2 ≠ k)
    (hc : contains_internal (fragsOf (chainOf s (headOf s h))) k = false) :
    contains_internal (fragsOf (chainOf (insert_or_assign s h k2 v)
      (headOf (insert_or_assign s h k2 v) h))) k = false := by
  rw [insert_or_assign_eq]
  have hne2 : k ≠ k2 := fun he => hne he.symm
  have h0 : contains_internal (fragsOf (chainOf
      (setFrag (prepare_for_edit s h) (headOf (prepare_for_edit s h) h)
        { fragAt (prepare_for_edit s h)
            (headOf (prepare_for_edit s h) h) with
          size := (fragAt (prepare_for_edit s h)
              (headOf (prepare_for_edit s h) h)).size +
            (if contains_internal
                (fragsOf (chainOf (prepare_for_edit s h)
                  (headOf (prepare_for_edit s h) h))) k2
             then 0 else 1)
          deleted_keys := (fragAt (prepare_for_edit s h)
            (headOf (prepare_for_edit s h) h)).deleted_keys.erase k2
          key_values := putKV (fragAt (prepare_for_edit s h)
            (headOf (prepare_for_edit s h) h)).key_values k2 v })
      (headOf (prepare_for_edit s h) h))) k =
      contains_internal (fragsOf (chainOf (prepare_for_edit s h)
        (headOf (prepare_for_edit s h) h))) k := by
    refine contains_set_head_after (prepare_for_edit s h) h
      (WF_prepare s h hwf hh) (by rw [prepare_handles_len]; exact hh)
      _ k rfl ?_ ?_
    · show (lookupKV k (putKV (fragAt (prepare_for_edit s h)
        (headOf (prepare_for_edit s h) h)).key_values k2 v)).isSome = _
      rw [lookupKV_putKV_ne _ k2 k v hne2]
    · show (k ∈ (fragAt (prepare_for_edit s h)
        (headOf (prepare_for_edit s h) h)).deleted_keys.erase k2) ↔ _
      exact List.mem_erase_of_ne hne2
  rw [prepare_contains s h hwf hh k] at h0
  exact h0.trans hc

theorem contains_erase_head_other (s1 : Sys) (i : Nat) (hwf1 : WF s1)
    (hi1 : i < s1.handles.length) (k k2 : Nat) (hne : k2 ≠ k)
    (f1e F2 : Fragment)
    (hf1e : f1e = { fragAt s1 (headOf s1 i) with
      key_values := eraseKV k2 (fragAt s1 (headOf s1 i)).key_values })
    (hF2 : F2 = { f1e with
      deleted_keys :=
        if contains_internal (fragsOf (chainOf
            (setFrag s1 (headOf s1 i) f1e) (headOf s1 i))) k2
        then insertSet f1e.deleted_keys k2 else f1e.deleted_keys
      size := f1e.size - 1 }) :
    contains_internal (fragsOf (chainOf
      (setFrag (setFrag s1 (headOf s1 i) f1e) (headOf s1 i) F2)
      (headOf s1 i))) k =
    contains_internal (fragsOf (chainOf s1 (headOf s1 i))) k := by
  have hlt : headOf s1 i < s1.frags.length := hwf1.headOf_lt hi1
  have hne2 : k ≠ k2 := fun he => hne he.symm
  have hkv1 : f1e.key_values =
      eraseKV k2 (fragAt s1 (headOf s1 i)).key_values := by rw [hf1e]
  have hdel1 : f1e.deleted_keys =
      (fragAt s1 (headOf s1 i)).deleted_keys := by rw [hf1e]
  have hpar1 : f1e.parent = (fragAt s1 (headOf s1 i)).parent := by rw [hf1e]
  have hwf2 : WF (setFrag s1 (headOf s1 i) f1e) :=
    WF_set_head_keep_parent s1 i hwf1 hi1 f1e hpar1
  have step1 : contains_internal (fragsOf (chainOf
      (setFrag s1 (headOf s1 i) f1e) (headOf s1 i))) k =
      contains_internal (fragsOf (chainOf s1 (headOf s1 i))) k := by
    refine contains_set_head_after s1 i hwf1 hi1 f1e k hpar1 ?_ ?_
    · rw [hkv1, lookupKV_eraseKV_ne _ k2 k hne2]
    · rw [hdel1]
  have hpar2 : F2.parent = (fragAt (setFrag s1 (headOf s1 i) f1e)
      (headOf s1 i)).parent := by
    rw [fragAt_setFrag_self s1 (headOf s1 i) f1e hlt, hF2]
  have hkv2 : (lookupKV k F2.key_values).isSome =
      (lookupKV k (fragAt (setFrag s1 (headOf s1 i) f1e)
        (headOf s1 i)).key_values).isSome := by
    rw [fragAt_setFrag_self s1 (headOf s1 i) f1e hlt, hF2]
  have hdel2 : (k ∈ F2.deleted_keys) ↔
      (k ∈ (fragAt (setFrag s1 (headOf s1 i) f1e)
        (headOf s1 i)).deleted_keys) := by
    rw [fragAt_setFrag_self s1 (headOf s1 i) f1e hlt, hF2]
    dsimp only
    split
    · rw [mem_insertSet]
      exact or_iff_left hne2
    · exact Iff.rfl
  have step2 : contains_internal (fragsOf (chainOf
      (setFrag (setFrag s1 (headOf s1 i) f1e) (headOf s1 i) F2)
      (headOf s1 i))) k =
      contains_internal (fragsOf (chainOf (setFrag s1 (headOf s1 i) f1e)
        (headOf s1 i))) k :=
    contains_set_head_after (setFrag s1 (headOf s1 i) f1e) i hwf2 hi1
      F2 k hpar2 hkv2 hdel2
  exact step2.trans step1

theorem contains_erase_other (s : Sys) (h : Nat) (hwf : WF s)
    (hh : h < s.handles.length) (k k2 : Nat)
    (hc : contains_internal (fragsOf (chainOf s (headOf s h))) k = false) :
    contains_internal (fragsOf (chainOf (erase s h k2).2
      (headOf (erase s h k2).2 h))) k = false := by
  by_cases hck2 : contains_internal (fragsOf (chainOf s (headOf s h))) k2
      = true
  · have hne : k2 ≠ k := by
      intro he
      subst he
      rw [hck2] at hc
      cases hc
    rw [erase_of_contains s h k2 hck2]
    have h0 := contains_erase_head_other (prepare_for_edit s h) h
      (WF_prepare s h hwf hh) (by rw [prepare_handles_len]; exact hh)
      k k2 hne _ _ rfl rfl
    rw [prepare_contains s h hwf hh k] at h0
    exact h0.trans hc
  · rw [erase_of_not_contains s h k2 hck2]
    exact hc

theorem contains_clear_key (s : Sys) (h : Nat)
    (hh : h < s.handles.length) (k : Nat) :
    contains_internal (fragsOf (chainOf (clear s h)
      (headOf (clear s h) h))) k = false := by
  have hhd : headOf (clear s h) h = s.frags.length := by
    show (s.handles.set h s.frags.length).getD h 0 = s.frags.length
    exact getD_set_self s.handles h s.frags.length 0 hh
  have hfa : fragAt (clear s h) s.frags.length = empty_fragment := by
    show (s.frags ++ [empty_fragment]).getD s.frags.length empty_fragment =
      empty_fragment
    exact getD_append_len s.frags empty_fragment empty_fragment
  have hch : chainOf (clear s h) s.frags.length =
      [(s.frags.length, fragAt (clear s h) s.frags.length)] :=
    chainOf_root _ _ (by rw [hfa]; rfl)
  rw [hfa] at hch
  rw [hhd, hch]
  rfl

theorem contains_detach_eq (s : Sys) (h : Nat) (hwf : WF s)
    (hh : h < s.handles.length) (k : Nat) :
    contains_internal (fragsOf (chainOf (detach s h).2
      (headOf (detach s h).2 h))) k =
    contains_internal (fragsOf (chainOf s (headOf s h))) k := by
  show contains_internal (fragsOf (chainOf
    (detach_internal (prepare_for_edit s h) h).2
    (headOf (detach_internal (prepare_for_edit s h) h).2 h))) k = _
  cases hp : (fragAt (prepare_for_edit s h)
      (headOf (prepare_for_edit s h) h)).parent with
  | none =>
    rw [detach_internal_of_root _ _ hp]
    exact prepare_contains s h hwf hh k
  | some q =>
    rw [contains_eq_findVal, detach_internal_findVal (prepare_for_edit s h)
      h (WF_prepare s h hwf hh) (by rw [prepare_handles_len]; exact hh) q hp
      k, ← contains_eq_findVal]
    exact prepare_contains s h hwf hh k

theorem contains_move_eq (s : Sys) (h : Nat) (hwf : WF s)
    (hh : h < s.handles.length) (k k2 : Nat) :
    contains_internal (fragsOf (chainOf
      (match move s h k2 with
       | .ok (_, s2) => s2
       | .error _ => s)
      (headOf (match move s h k2 with
       | .ok (_, s2) => s2
       | .error _ => s) h))) k =
    contains_internal (fragsOf (chainOf s (headOf s h))) k := by
  cases hf : find (chainOf s (headOf s h)) k2 with
  | none => rw [move_of_end s h k2 hf]
  | some p =>
    obtain ⟨fid, v⟩ := p
    by_cases hu : refcount s (headOf s h) = 1 ∧ fid = headOf s h
    · rw [move_of_found_unique s h k2 fid v hf hu]
      obtain ⟨hu1, rfl⟩ := hu
      exact contains_set_head_after s h hwf hh _ k rfl
        (lookupKV_markMoved_isSome _ k2 k) Iff.rfl
    · rw [move_of_found_shared s h k2 fid v hf hu]

theorem contains_move_only_eq (s : Sys) (h : Nat) (hwf : WF s)
    (hh : h < s.handles.length) (k k2 : Nat) :
    contains_internal (fragsOf (chainOf
      (match move_only s h k2 with
       | .ok (_, s2) => s2
       | .error _ => s)
      (headOf (match move_only s h k2 with
       | .ok (_, s2) => s2
       | .error _ => s) h))) k =
    contains_internal (fragsOf (chainOf s (headOf s h))) k := by
  cases hf : find (chainOf s (headOf s h)) k2 with
  | none => rw [move_only_of_end s h k2 hf]
  | some p =>
    obtain ⟨fid, v⟩ := p
    by_cases hu : refcount s (headOf s h) = 1 ∧ fid = headOf s h
    · rw [move_only_of_found_unique s h k2 fid v hf hu]
      obtain ⟨hu1, rfl⟩ := hu
      exact contains_set_head_after s h hwf hh _ k rfl
        (lookupKV_markMoved_isSome _ k2 k) Iff.rfl
    · rw [move_only_of_found_shared s h k2 fid v hf hu]

theorem contains_after_op (s : Sys) (h : Nat) (o : Op) (k : Nat)
    (hwf : WF s) (hh : h < s.handles.length)
    (hins : op_inserts o k = false)
    (hc : contains_internal (fragsOf (chainOf s (headOf s h))) k = false) :
    contains_internal (fragsOf (chainOf (applyOp s h o)
      (headOf (applyOp s h o) h))) k = false := by
  cases o with
  | ins k2 v =>
    exact contains_insert_other s h hwf hh k k2 v
      (of_decide_eq_false hins) hc
  | insAssign k2 v =>
    exact contains_insert_or_assign_other s h hwf hh k k2 v
      (of_decide_eq_false hins) hc
  | empl k2 v =>
    show contains_internal (fragsOf (chainOf (emplace s h k2 v).2
      (headOf (emplace s h k2 v).2 h))) k = false
    rw [emplace_eq_insert]
    exact contains_insert_other s h hwf hh k k2 v
      (of_decide_eq_false hins) hc
  | er k2 => exact contains_erase_other s h hwf hh k k2 hc
  | cl => exact contains_clear_key s h hh k
  | det => exact (contains_detach_eq s h hwf hh k).trans hc
  | mv k2 => exact (contains_move_eq s h hwf hh k k2).trans hc
  | mvOnly k2 => exact (contains_move_only_eq s h hwf hh k k2).trans hc

theorem contains_after_ops (s : Sys) (h : Nat) (ops : List Op) (k : Nat)
    (hwf : WF s) (hh : h < s.handles.length)
    (hins : ∀ o ∈ ops, op_inserts o k = false)
    (hc : contains_internal (fragsOf (chainOf s (headOf s h))) k = false) :
    contains_internal (fragsOf (chainOf (applyOps s h ops)
      (headOf (applyOps s h ops) h))) k = false := by
  induction ops generalizing s with
  | nil => exact hc
  | cons o t ih =>
    rw [applyOps_cons]
    exact ih (applyOp s h o) (applyOp_WF s h o hwf hh)
      (by rw [applyOp_handles_len]; exact hh)
      (fun o2 ho2 => hins o2 (List.mem_cons_of_mem _ ho2))
      (contains_after_op s h o k hwf hh (hins o (List.mem_cons_self _ _)) hc)

end lazy_map


namespace lazy_map

/-! ## The post-state of a successful erase -/

theorem erase_head_post (s1 : Sys) (i : Nat) (hwf1 : WF s1)
    (hi1 : i < s1.handles.length) (k : Nat)
    (hc : contains_internal (fragsOf (chainOf s1 (headOf s1 i))) k = true)
    (hinv1 : HandleInv s1 i) (f1e F2 : Fragment)
    (hf1e : f1e = { fragAt s1 (headOf s1 i) with
      key_values := eraseKV k (fragAt s1 (headOf s1 i)).key_values })
    (hF2 : F2 = { f1e with
      deleted_keys :=
        if contains_internal (fragsOf (chainOf
            (setFrag s1 (headOf s1 i) f1e) (headOf s1 i))) k
        then insertSet f1e.deleted_keys k else f1e.deleted_keys
      size := f1e.size - 1 }) :
    fragAt (setFrag (setFrag s1 (headOf s1 i) f1e) (headOf s1 i) F2)
        (headOf (setFrag (setFrag s1 (headOf s1 i) f1e)
          (headOf s1 i) F2) i) = F2
    ∧ chainOf (setFrag (setFrag s1 (headOf s1 i) f1e) (headOf s1 i) F2)
        (headOf (setFrag (setFrag s1 (headOf s1 i) f1e)
          (headOf s1 i) F2) i) =
        (headOf s1 i, F2) :: (chainOf s1 (headOf s1 i)).drop 1
    ∧ lookupKV k F2.key_values = none
    ∧ ((k ∈ F2.deleted_keys) ↔
        contains_internal
          (fragsOf ((chainOf s1 (headOf s1 i)).drop 1)) k = true)
    ∧ F2.size + 1 = (fragAt s1 (headOf s1 i)).size
    ∧ contains_internal (fragsOf ((headOf s1 i, F2) ::
        (chainOf s1 (headOf s1 i)).drop 1)) k = false := by
  obtain ⟨hfr1, hsz1⟩ := hinv1
  have hok1 : FragOK (fragAt s1 (headOf s1 i)) :=
    hfr1 _ (head_frag_mem s1 (headOf s1 i))
  have decomp := chainOf_eq_head_cons_drop s1 (headOf s1 i)
  have hlt : headOf s1 i < s1.frags.length := hwf1.headOf_lt hi1
  have hkv : f1e.key_values =
      eraseKV k (fragAt s1 (headOf s1 i)).key_values := by rw [hf1e]
  have hdel : f1e.deleted_keys =
      (fragAt s1 (headOf s1 i)).deleted_keys := by rw [hf1e]
  have hparx : f1e.parent = (fragAt s1 (headOf s1 i)).parent := by rw [hf1e]
  have hszf : f1e.size = (fragAt s1 (headOf s1 i)).size := by rw [hf1e]
  have hwf2 : WF (setFrag s1 (headOf s1 i) f1e) :=
    WF_set_head_keep_parent s1 i hwf1 hi1 f1e hparx
  have hlt2 : headOf s1 i < (setFrag s1 (headOf s1 i) f1e).frags.length := by
    show headOf s1 i < (s1.frags.set (headOf s1 i) f1e).length
    rw [List.length_set]
    exact hlt
  have hch2 : chainOf (setFrag s1 (headOf s1 i) f1e) (headOf s1 i) =
      (headOf s1 i, f1e) :: (chainOf s1 (headOf s1 i)).drop 1 :=
    chainOf_setFrag_head s1 (headOf s1 i) f1e hwf1.pd hlt hparx
  have hc0 : contains_internal ((fragAt s1 (headOf s1 i)) ::
      fragsOf ((chainOf s1 (headOf s1 i)).drop 1)) k = true := by
    have h0 := hc
    rw [decomp] at h0
    exact h0
  have herase := erase_head_at_k (fragAt s1 (headOf s1 i))
    (fragsOf ((chainOf s1 (headOf s1 i)).drop 1)) k hok1.1 hok1.2.2 hc0
  rw [← hf1e] at herase
  have hstill : contains_internal (fragsOf (chainOf
      (setFrag s1 (headOf s1 i) f1e) (headOf s1 i))) k =
      contains_internal (fragsOf ((chainOf s1 (headOf s1 i)).drop 1)) k := by
    rw [hch2]
    exact herase.2
  have hF2kv : F2.key_values = f1e.key_values := by rw [hF2]
  have hF2del : F2.deleted_keys =
      if contains_internal (fragsOf ((chainOf s1 (headOf s1 i)).drop 1)) k
      then insertSet (fragAt s1 (headOf s1 i)).deleted_keys k
      else (fragAt s1 (headOf s1 i)).deleted_keys := by
    rw [hF2, hstill, hdel]
  have hF2sz : F2.size = (fragAt s1 (headOf s1 i)).size - 1 := by
    rw [hF2]
    show f1e.size - 1 = (fragAt s1 (headOf s1 i)).size - 1
    rw [hszf]
  have hF2par : F2.parent = (fragAt (setFrag s1 (headOf s1 i) f1e)
      (headOf s1 i)).parent := by
    rw [fragAt_setFrag_self s1 (headOf s1 i) f1e hlt, hF2]
  have hsz1c : (fragAt s1 (headOf s1 i)).size =
      (viewSet ((headOf s1 i, fragAt s1 (headOf s1 i)) ::
        (chainOf s1 (headOf s1 i)).drop 1)).card := by
    conv_rhs => rw [← decomp]
    exact hsz1
  have hkmem : k ∈ viewSet ((headOf s1 i, fragAt s1 (headOf s1 i)) ::
      (chainOf s1 (headOf s1 i)).drop 1) := by
    refine (mem_viewSet_iff _ k).2 ?_
    exact hc0
  have hfa : fragAt (setFrag (setFrag s1 (headOf s1 i) f1e)
      (headOf s1 i) F2)
      (headOf (setFrag (setFrag s1 (headOf s1 i) f1e)
        (headOf s1 i) F2) i) = F2 := by
    show fragAt (setFrag (setFrag s1 (headOf s1 i) f1e)
      (headOf s1 i) F2) (headOf s1 i) = F2
    exact fragAt_setFrag_self _ _ _ hlt2
  have hch3 : chainOf (setFrag (setFrag s1 (headOf s1 i) f1e)
      (headOf s1 i) F2)
      (headOf (setFrag (setFrag s1 (headOf s1 i) f1e)
        (headOf s1 i) F2) i) =
      (headOf s1 i, F2) :: (chainOf s1 (headOf s1 i)).drop 1 := by
    show chainOf (setFrag (setFrag s1 (headOf s1 i) f1e)
      (headOf s1 i) F2) (headOf s1 i) = _
    have h0 := chainOf_setFrag_head (setFrag s1 (headOf s1 i) f1e)
      (headOf s1 i) F2 hwf2.pd hlt2 hF2par
    rw [hch2] at h0
    simpa only [List.drop_succ_cons, List.drop_zero] using h0
  have hlk : lookupKV k F2.key_values = none := by
    rw [hF2kv, hkv]
    exact lookupKV_eraseKV_self _ k hok1.1
  have hckF : contains_internal (fragsOf ((headOf s1 i, F2) ::
      (chainOf s1 (headOf s1 i)).drop 1)) k = false := by
    show contains_internal (F2 ::
      fragsOf ((chainOf s1 (headOf s1 i)).drop 1)) k = false
    rw [contains_internal_cons, hlk]
    simp only [Option.isSome_none, Bool.false_eq_true, if_false]
    rw [hF2del]
    by_cases hmc : contains_internal
        (fragsOf ((chainOf s1 (headOf s1 i)).drop 1)) k = true
    · rw [if_pos hmc, if_pos ((mem_insertSet _ _ _).2 (Or.inr rfl))]
    · rw [if_neg hmc, if_neg herase.1]
      cases hx : contains_internal
          (fragsOf ((chainOf s1 (headOf s1 i)).drop 1)) k
      · rfl
      · exact absurd hx hmc
  refine ⟨hfa, hch3, hlk, ?_, ?_, hckF⟩
  · rw [hF2del]
    by_cases hmc : contains_internal
        (fragsOf ((chainOf s1 (headOf s1 i)).drop 1)) k = true
    · rw [if_pos hmc]
      exact iff_of_true ((mem_insertSet _ _ _).2 (Or.inr rfl)) hmc
    · rw [if_neg hmc]
      exact iff_of_false herase.1 hmc
  · have hpos : 0 < (fragAt s1 (headOf s1 i)).size := by
      rw [hsz1c]
      exact Finset.card_pos.2 ⟨k, hkmem⟩
    omega

end lazy_map


open lazy_map in
/-- Membership in the key list produced by a full iteration is exactly
`contains` (for chains whose tables have duplicate-free keys). -/
theorem mem_iter_keys_iff (c : Chain)
    (hnd : ∀ f ∈ fragsOf c, (f.key_values.map Prod.fst).Nodup) (k : Nat) :
    k ∈ (iterPairs c).map Prod.fst ↔
      contains_internal (fragsOf c) k = true := by
  unfold iterPairs iterTrace
  rw [List.map_map]
  constructor
  · intro hk
    rcases List.mem_map.1 hk with ⟨t, hmt, hta⟩
    obtain ⟨a, b, w⟩ := t
    have hb : b = k := hta
    subst hb
    have h0 := (iterTraceAux_key_spec (fragsOf c) [] 0 b w hnd).1 ⟨a, hmt⟩
    rw [contains_eq_findVal, h0.2]
    rfl
  · intro hk
    rw [contains_eq_findVal] at hk
    cases hfv : findVal (fragsOf c) k with
    | none => rw [hfv] at hk; simp at hk
    | some v =>
      obtain ⟨pos, hpos⟩ :=
        (iterTraceAux_key_spec (fragsOf c) [] 0 k v hnd).2
          ⟨should_ignore_key_nil k, hfv⟩
      exact List.mem_map.2 ⟨(pos, k, v), hpos, rfl⟩

open lazy_map in
/-- **C5**.  On every store reachable by any sequence of constructions,
copies and operations, every handle's `size()` equals the cardinality of
the logical view of its head's chain, the keys yielded by a full iteration
are pairwise distinct, and `size()` also equals the number of keys a full
iteration yields — so every operation preserves the size/view/iteration
correspondence. -/
theorem C5_size_consistency (s : Sys) (hr : Reachable s) (h : Nat)
    (hh : h < s.handles.length) :
    size s h = (viewSet (chainOf s (headOf s h))).card
    ∧ ((iterPairs (chainOf s (headOf s h))).map Prod.fst).Nodup
    ∧ size s h =
        ((iterPairs (chainOf s (headOf s h))).map Prod.fst).length := by
  obtain ⟨hwf, hall⟩ := Reachable_Inv hr
  obtain ⟨hfr, hsz⟩ := hall h hh
  have hnd : ∀ f ∈ fragsOf (chainOf s (headOf s h)),
      (f.key_values.map Prod.fst).Nodup := fun f hf => (hfr f hf).1
  have hndk : ((iterPairs (chainOf s (headOf s h))).map Prod.fst).Nodup := by
    unfold iterPairs iterTrace
    rw [List.map_map]
    exact nodup_keys_iterTraceAux _ [] 0 hnd
  refine ⟨hsz, hndk, ?_⟩
  have hext : ((iterPairs (chainOf s (headOf s h))).map Prod.fst).toFinset =
      viewSet (chainOf s (headOf s h)) := by
    apply Finset.ext
    intro k
    rw [List.mem_toFinset, mem_viewSet_iff]
    exact mem_iter_keys_iff _ hnd k
  rw [hsz, ← hext, List.toFinset_card_of_nodup hndk]

open lazy_map in
/-- Witness for C5 at a store reached by constructing a two-entry map. -/
theorem C5_size_consistency_witness :
    size sampleUnique 0 =
      (viewSet (chainOf sampleUnique (headOf sampleUnique 0))).card
    ∧ ((iterPairs (chainOf sampleUnique
        (headOf sampleUnique 0))).map Prod.fst).Nodup
    ∧ size sampleUnique 0 =
        ((iterPairs (chainOf sampleUnique
          (headOf sampleUnique 0))).map Prod.fst).length :=
  C5_size_consistency sampleUnique
    (Reachable.step Reachable.nil
      (Step.newFromList ⟨[], []⟩ [(1, (10, false)), (2, (20, false))]))
    0 (by decide)

open lazy_map in
/-- **C6**.  `erase(k)`: on a handle whose view lacks `k` it returns false
and leaves the store untouched; otherwise it returns true, removes the
local binding of `k` from the (fresh) head, tombstones `k` exactly when an
ancestor fragment still resolves it, and decrements the cached size by
one.  Afterwards `contains(k)` is false, and it stays false under any
further sequence of operations on the handle that contains no `insert`,
`emplace` or `insert_or_assign` of `k`. -/
theorem C6_erase_semantics (s : Sys) (h k : Nat) (hwf : WF s)
    (hh : h < s.handles.length) (hinv : HandleInv s h) :
    (contains s h k = false → erase s h k = (false, s))
    ∧ (contains s h k = true →
        (erase s h k).1 = true
        ∧ lookupKV k (fragAt (erase s h k).2
            (headOf (erase s h k).2 h)).key_values = none
        ∧ ((k ∈ (fragAt (erase s h k).2
              (headOf (erase s h k).2 h)).deleted_keys) ↔
            contains_internal (fragsOf ((chainOf (erase s h k).2
              (headOf (erase s h k).2 h)).drop 1)) k = true)
        ∧ size (erase s h k).2 h + 1 = size s h)
    ∧ contains (erase s h k).2 h k = false
    ∧ (∀ ops : List Op, (∀ o ∈ ops, op_inserts o k = false) →
        contains (applyOps (erase s h k).2 h ops) h k = false) := by
  have hh1 : h < (prepare_for_edit s h).handles.length := by
    rw [prepare_handles_len]
    exact hh
  have hwfp := WF_prepare s h hwf hh
  have hinvp := prepare_HandleInv s h hwf hh hinv
  have h3 : contains (erase s h k).2 h k = false := by
    by_cases hcb : contains_internal (fragsOf (chainOf s (headOf s h))) k
        = true
    · have hcp : contains_internal (fragsOf (chainOf (prepare_for_edit s h)
          (headOf (prepare_for_edit s h) h))) k = true := by
        rw [prepare_contains s h hwf hh k]
        exact hcb
      have hpost := erase_head_post (prepare_for_edit s h) h hwfp hh1 k hcp
        hinvp _ _ rfl rfl
      show contains_internal (fragsOf (chainOf (erase s h k).2
        (headOf (erase s h k).2 h))) k = false
      rw [erase_of_contains s h k hcb]
      dsimp only
      rw [hpost.2.1]
      exact hpost.2.2.2.2.2
    · rw [erase_of_not_contains s h k hcb]
      show contains_internal (fragsOf (chainOf s (headOf s h))) k = false
      cases hx : contains_internal (fragsOf (chainOf s (headOf s h))) k
      · rfl
      · exact absurd hx hcb
  refine ⟨?_, ?_, h3, ?_⟩
  · intro hc0
    have hc2 : ¬ contains_internal (fragsOf (chainOf s (headOf s h))) k
        = true := by
      intro hx
      have hc0x : contains_internal (fragsOf (chainOf s (headOf s h))) k
          = false := hc0
      cases hc0x.symm.trans hx
    exact erase_of_not_contains s h k hc2
  · intro hc0
    have hcb : contains_internal (fragsOf (chainOf s (headOf s h))) k
        = true := hc0
    have hcp : contains_internal (fragsOf (chainOf (prepare_for_edit s h)
        (headOf (prepare_for_edit s h) h))) k = true := by
      rw [prepare_contains s h hwf hh k]
      exact hcb
    have hpost := erase_head_post (prepare_for_edit s h) h hwfp hh1 k hcp
      hinvp _ _ rfl rfl
    refine ⟨?_, ?_, ?_, ?_⟩
    · rw [erase_of_contains s h k hcb]
    · rw [erase_of_contains s h k hcb]
      dsimp only
      rw [hpost.1]
      exact hpost.2.2.1
    · rw [erase_of_contains s h k hcb]
      dsimp only
      rw [hpost.1, hpost.2.1]
      simp only [List.drop_succ_cons, List.drop_zero]
      exact hpost.2.2.2.1
    · rw [erase_of_contains s h k hcb]
      simp only [size]
      rw [hpost.1, hpost.2.2.2.2.1]
      have hps := prepare_size s h hh
      simp only [size] at hps
      exact hps
  · intro ops hops
    have hwf2 : WF (erase s h k).2 := applyOp_WF s h (Op.er k) hwf hh
    have hlen2 : (erase s h k).2.handles.length = s.handles.length :=
      applyOp_handles_len s h (Op.er k)
    have hh2 : h < (erase s h k).2.handles.length := by omega
    exact contains_after_ops (erase s h k).2 h ops k hwf2 hh2 hops h3

open lazy_map in
/-- Witness for C6 on a chained store: erasing key 3 (resolved only
through the root) from handle 0 tombstones it and shrinks the view. -/
theorem C6_erase_semantics_witness :
    WF sampleChained ∧ (0 : Nat) < sampleChained.handles.length
    ∧ HandleInv sampleChained 0
    ∧ ((contains sampleChained 0 3 = false →
          erase sampleChained 0 3 = (false, sampleChained))
       ∧ (contains sampleChained 0 3 = true →
           (erase sampleChained 0 3).1 = true
           ∧ lookupKV 3 (fragAt (erase sampleChained 0 3).2
               (headOf (erase sampleChained 0 3).2 0)).key_values = none
           ∧ ((3 ∈ (fragAt (erase sampleChained 0 3).2
                 (headOf (erase sampleChained 0 3).2 0)).deleted_keys) ↔
               contains_internal (fragsOf ((chainOf (erase sampleChained 0 3).2
                 (headOf (erase sampleChained 0 3).2 0)).drop 1)) 3 = true)
           ∧ size (erase sampleChained 0 3).2 0 + 1 = size sampleChained 0)
       ∧ contains (erase sampleChained 0 3).2 0 3 = false
       ∧ (∀ ops : List Op, (∀ o ∈ ops, op_inserts o 3 = false) →
           contains (applyOps (erase sampleChained 0 3).2 0 ops) 0 3
             = false)) :=
  ⟨by decide, by decide, by decide,
    C6_erase_semantics sampleChained 0 3 (by decide) (by decide) (by decide)⟩

end LazyMapProof
